import Mathlib

/-!
# worddiff: word-level diff (tokenizer, affix trimmer, Myers engine, run merger)

A shallow embedding of `worddiff.go`.

* A Go `string` is modelled as the sequence of its code points (`List Char`),
  which is what `[]rune(s)` yields; a `Word` is such a sequence too. The
  strings that are not valid UTF-8 have no such model: for them the last
  section of the definitions gives Go strings as byte sequences, the
  conversions `[]rune(s)` and `string(runes)`, and the method `Diff` on bytes
  (`WordDiff.DiffBytes`), which on valid UTF-8 is `WordDiff.Diff` on the code
  points with every text encoded (`DiffBytes_utf8Of`).
* The separator map `map[string]struct{}` is modelled as the list of its keys;
  only membership and emptiness are ever asked of it.
* Every slice expression and every index read of the source is checked:
  a function returns `none` where the Go code would stop with a run-time
  failure (index or slice out of range), and also where a loop runs out of
  the iteration budget it is given.
* Go `int` values are unbounded integers here (lengths of in-memory slices
  are far from the 63-bit limit).
-/

namespace worddiff

/-! ## Data model -/

/-- The smallest unit of comparison (`type Word string`). -/
abbrev Word := List Char

/-- The role of a word or of a segment (`type Operation int8`). -/
inductive Operation where
  | DiffDelete
  | DiffInsert
  | DiffEqual
  deriving DecidableEq, Repr

open Operation

/-- One segment of a diff result (`type Diff struct`); the field `Type` of the
source is `Type_` here. -/
structure Diff where
  Type_ : Operation
  Text : List Char
  deriving DecidableEq, Repr

/-- One word of an edit script with its tag (`type wordDiff struct`). -/
structure wordDiff where
  diffType : Operation
  word : Word
  deriving DecidableEq, Repr

/-- The configuration (`type WordDiff struct`). -/
structure WordDiff where
  separator : List (List Char)
  mergeContinuousSeparator : Bool
  deriving Repr

/-- A configuration option (`type DiffOption func(wd *WordDiff)`). -/
abbrev DiffOption := WordDiff → WordDiff

/-- The option `SetSeparator(separators)`: replaces the separator set. -/
def SetSeparator (separators : List (List Char)) : DiffOption :=
  fun wd => { wd with separator := separators }

/-- The option `MergeContinuousSeparator(merge)`: sets the merge flag. -/
def MergeContinuousSeparator (merge : Bool) : DiffOption :=
  fun wd => { wd with mergeContinuousSeparator := merge }

/-- The constructor `New(opts...)`: empty separator set, no merging, then the options in order. -/
def New (opts : List DiffOption) : WordDiff :=
  opts.foldl (fun wd opt => opt wd) { separator := [], mergeContinuousSeparator := false }

/-- The instance `Default()`: separator `" "`, merging on. -/
def Default : WordDiff :=
  New [MergeContinuousSeparator true, SetSeparator [[' ']]]

/-! ## Checked slices and reads -/

/-- The slice expression `l[a:b]`; `none` when it is out of range. -/
def sliceOf {α : Type} (l : List α) (a b : Int) : Option (List α) :=
  if 0 ≤ a ∧ a ≤ b ∧ b ≤ (l.length : Int) then some ((l.take b.toNat).drop a.toNat) else none

/-- The index read `l[i]` with a signed index; `none` when it is out of range. -/
def wordAt {α : Type} (l : List α) (i : Int) : Option α :=
  if 0 ≤ i then l[i.toNat]? else none

/-! ## Tokenizer -/

/-- The loop `for merge && i+1 < rLen && runeArr[i+1] == runeArr[i] { i++ }` of `split`;
returns the final `i`. -/
def mergeScan (runeArr : List Char) (mergeContinuousSeparator : Bool) : Nat → Nat → Option Nat
  | 0, _ => none
  | fuel + 1, i =>
    if mergeContinuousSeparator = true ∧ i + 1 < runeArr.length then
      match runeArr[i + 1]?, runeArr[i]? with
      | some a, some b =>
        if a = b then mergeScan runeArr mergeContinuousSeparator fuel (i + 1) else some i
      | _, _ => none
    else some i

/-- The main loop of `split` over `i`, carrying `left` and `words`; returns the final
`left` and `words`. -/
def splitLoop (runeArr : List Char) (separators : List (List Char))
    (mergeContinuousSeparator : Bool) : Nat → Nat → Nat → List Word → Option (Nat × List Word)
  | 0, _, _, _ => none
  | fuel + 1, i, left, words =>
    if i < runeArr.length then
      match runeArr[i]? with
      | none => none
      | some c =>
        if separators.length = 0 then
          match sliceOf runeArr left (i + 1) with
          | none => none
          | some w =>
            splitLoop runeArr separators mergeContinuousSeparator fuel (i + 1) (i + 1) (words ++ [w])
        else if [c] ∈ separators then
          match (if left ≠ i then (sliceOf runeArr left i).map (fun w => words ++ [w])
                 else some words) with
          | none => none
          | some words1 =>
            match mergeScan runeArr mergeContinuousSeparator (runeArr.length + 1) i with
            | none => none
            | some j =>
              match sliceOf runeArr i (j + 1) with
              | none => none
              | some w =>
                splitLoop runeArr separators mergeContinuousSeparator fuel (j + 1) (j + 1)
                  (words1 ++ [w])
        else splitLoop runeArr separators mergeContinuousSeparator fuel (i + 1) left words
    else some (left, words)

/-- The function `split`: turns a string into its words. -/
def split (s : List Char) (separators : List (List Char)) (mergeContinuousSeparator : Bool) :
    Option (List Word) :=
  let runeArr := s
  let rLen := runeArr.length
  match splitLoop runeArr separators mergeContinuousSeparator (rLen + 1) 0 0 [] with
  | none => none
  | some (left, words) =>
    if (left : Int) ≤ (rLen : Int) - 1 then
      match sliceOf runeArr left rLen with
      | none => none
      | some w => some (words ++ [w])
    else some words

/-! ## Edit-script engine (Myers) -/

/-- A per-depth map `map[int]int` from diagonal to reach, newest binding first. -/
abbrev IntMap := List (Int × Int)

/-- The map read `v[k]`: the zero value when the key is absent. -/
def mapGet : IntMap → Int → Int
  | [], _ => 0
  | (j, x) :: rest, k => if j = k then x else mapGet rest k

/-- The map write `v[k] = x`. -/
def mapSet (v : IntMap) (k x : Int) : IntMap := (k, x) :: v

/-- Whether the key `k` has been written in `v`. -/
def mapHas : IntMap → Int → Bool
  | [], _ => false
  | (j, _) :: rest, k => if j = k then true else mapHas rest k

/-- The loop `for x < n && y < m && src[x] == dst[y] { x, y = x+1, y+1 }`; returns the
final `(x, y)`. -/
def snake (src dst : List Word) : Nat → Int → Int → Option (Int × Int)
  | 0, _, _ => none
  | fuel + 1, x, y =>
    if x < (src.length : Int) ∧ y < (dst.length : Int) then
      match wordAt src x, wordAt dst y with
      | some a, some b => if a = b then snake src dst fuel (x + 1) (y + 1) else some (x, y)
      | _, _ => none
    else some (x, y)

/-- The loop `for len(src) > t && len(dst) > t && src[t] == dst[t] { t++ }` of depth 0;
returns the final `t`. -/
def prefixScan (src dst : List Word) : Nat → Int → Option Int
  | 0, _ => none
  | fuel + 1, t =>
    if (src.length : Int) > t ∧ (dst.length : Int) > t then
      match wordAt src t, wordAt dst t with
      | some a, some b => if a = b then prefixScan src dst fuel (t + 1) else some t
      | _, _ => none
    else some t

/-- The predecessor test `k == -d || (k != d && lastV[k-1] < lastV[k+1])` shared by the
forward pass and the backtrace: true for the down (insert) move. -/
def goesDown (lastV : IntMap) (d k : Int) : Bool :=
  decide (k = -d ∨ (k ≠ d ∧ mapGet lastV (k - 1) < mapGet lastV (k + 1)))

/-- The loop `for k := -d; k <= d; k += 2` of the forward pass at depth `d >= 1`; returns
the map of this depth and whether `break loop` was taken. -/
def kLoop (src dst : List Word) (d : Int) (lastV : IntMap) :
    Nat → Int → IntMap → Option (IntMap × Bool)
  | 0, _, _ => none
  | fuel + 1, k, v =>
    if k ≤ d then
      let x := if goesDown lastV d k then mapGet lastV (k + 1) else mapGet lastV (k - 1) + 1
      let y := x - k
      match snake src dst ((src.length : Int) - x).toNat.succ x y with
      | none => none
      | some (x1, y1) =>
        let v1 := mapSet v k x1
        if x1 = (src.length : Int) ∧ y1 = (dst.length : Int) then some (v1, true)
        else kLoop src dst d lastV fuel (k + 2) v1
    else some (v, false)

/-- The loop `for d := 0; d <= max; d++` of the forward pass; returns the trace. -/
def forward (src dst : List Word) : Nat → Nat → List IntMap → Option (List IntMap)
  | 0, _, _ => none
  | fuel + 1, d, trace =>
    if d ≤ src.length + dst.length then
      if d = 0 then
        match prefixScan src dst (src.length + 1) 0 with
        | none => none
        | some t =>
          let v := mapSet [] 0 t
          if t = (src.length : Int) ∧ t = (dst.length : Int) then some (trace ++ [v])
          else forward src dst fuel (d + 1) (trace ++ [v])
      else
        match (trace)[d - 1]? with
        | none => none
        | some lastV =>
          match kLoop src dst d lastV (d + 2) (-(d : Int)) [] with
          | none => none
          | some (v, true) => some (trace ++ [v])
          | some (v, false) => forward src dst fuel (d + 1) (trace ++ [v])
    else some trace

/-- The loop `for x > prevX && y > prevY { script = append(script, DiffEqual); x -= 1; y -= 1 }`
of the backtrace; returns the final `x`, `y` and script. -/
def eqLoop (prevX prevY : Int) : Nat → Int → Int → List Operation →
    Option (Int × Int × List Operation)
  | 0, _, _, _ => none
  | fuel + 1, x, y, script =>
    if x > prevX ∧ y > prevY then eqLoop prevX prevY fuel (x - 1) (y - 1) (script ++ [DiffEqual])
    else some (x, y, script)

/-- The loop `for d := len(trace) - 1; d > 0; d--` of the backtrace, on the loop variable;
returns the script, last operation first. -/
def backtrace (trace : List IntMap) : Nat → Int → Int → List Operation → Option (List Operation)
  | 0, _, _, script => some script
  | d + 1, x, y, script =>
    let k := x - y
    match (trace)[d]? with
    | none => none
    | some lastV =>
      let prevK := if goesDown lastV ((d : Int) + 1) k then k + 1 else k - 1
      let prevX := mapGet lastV prevK
      let prevY := prevX - prevK
      match eqLoop prevX prevY (x - prevX).toNat.succ x y script with
      | none => none
      | some (x1, _, script1) =>
        let script2 := if x1 = prevX then script1 ++ [DiffInsert] else script1 ++ [DiffDelete]
        backtrace trace d prevX prevY script2

/-- The loop `for i := len(script) - 1; i >= 0; i--` that pairs each operation with its word;
`ops` is the script read from its last entry to its first. -/
def pairLoop (src dst : List Word) : List Operation → Nat → Nat → Option (List wordDiff)
  | [], _, _ => some []
  | DiffInsert :: ops, srcIndex, dstIndex =>
    match dst[dstIndex]? with
    | none => none
    | some w => (pairLoop src dst ops srcIndex (dstIndex + 1)).map (fun r => ⟨DiffInsert, w⟩ :: r)
  | DiffEqual :: ops, srcIndex, dstIndex =>
    match src[srcIndex]? with
    | none => none
    | some w =>
      (pairLoop src dst ops (srcIndex + 1) (dstIndex + 1)).map (fun r => ⟨DiffEqual, w⟩ :: r)
  | DiffDelete :: ops, srcIndex, dstIndex =>
    match src[srcIndex]? with
    | none => none
    | some w => (pairLoop src dst ops (srcIndex + 1) dstIndex).map (fun r => ⟨DiffDelete, w⟩ :: r)

/-- The function `shortestEditScript`: forward search, backtrace, pairing. -/
def shortestEditScript (src dst : List Word) : Option (List wordDiff) :=
  let n := src.length
  let m := dst.length
  let max := n + m
  match forward src dst (max + 2) 0 [] with
  | none => none
  | some trace =>
    match backtrace trace (trace.length - 1) n m [] with
    | none => none
    | some script =>
      match (trace)[0]? with
      | none => none
      | some v0 =>
        let script1 := script ++ List.replicate (mapGet v0 0).toNat DiffEqual
        pairLoop src dst script1.reverse 0 0

/-! ## Affix trimmer, shortcuts, run merger -/

/-- The loop of `commonPrefixLen` over `n`. -/
def commonPrefixLenLoop (text1 text2 : List Word) : Nat → Nat → Option Nat
  | 0, _ => none
  | fuel + 1, n =>
    if n < text1.length ∧ n < text2.length then
      match text1[n]?, text2[n]? with
      | some a, some b => if a ≠ b then some n else commonPrefixLenLoop text1 text2 fuel (n + 1)
      | _, _ => none
    else some n

/-- The function `commonPrefixLen`: length of the common leading run. -/
def commonPrefixLen (text1 text2 : List Word) : Option Nat :=
  commonPrefixLenLoop text1 text2 (text1.length + 1) 0

/-- The loop of `commonSuffixLength` over `n`, with the two cursors. -/
def commonSuffixLengthLoop (text1 text2 : List Word) : Nat → Int → Int → Nat → Option Nat
  | 0, _, _, _ => none
  | fuel + 1, i1, i2, n =>
    if i1 - 1 < 0 ∨ i2 - 1 < 0 then some n
    else
      match wordAt text1 (i1 - 1), wordAt text2 (i2 - 1) with
      | some a, some b =>
        if a ≠ b then some n else commonSuffixLengthLoop text1 text2 fuel (i1 - 1) (i2 - 1) (n + 1)
      | _, _ => none

/-- The function `commonSuffixLength`: length of the common trailing run. -/
def commonSuffixLength (text1 text2 : List Word) : Option Nat :=
  commonSuffixLengthLoop text1 text2 (text1.length + 1) text1.length text2.length 0

/-- The loop `for i, c := range r1` of `wordsEqual`. -/
def wordsEqualLoop (r2 : List Word) : List Word → Nat → Option Bool
  | [], _ => some true
  | c :: rest, i =>
    match r2[i]? with
    | none => none
    | some c2 => if c ≠ c2 then some false else wordsEqualLoop r2 rest (i + 1)

/-- The function `wordsEqual`. -/
def wordsEqual (r1 r2 : List Word) : Option Bool :=
  if r1.length ≠ r2.length then some false else wordsEqualLoop r2 r1 0

/-- The loop `for i := 0; i <= last; i++` of `wordsIndex`. -/
def wordsIndexLoop (r1 r2 : List Word) (last : Int) : Nat → Int → Option Int
  | 0, _ => none
  | fuel + 1, i =>
    if i ≤ last then
      match sliceOf r1 i (i + (r2.length : Int)) with
      | none => none
      | some s =>
        match wordsEqual s r2 with
        | none => none
        | some true => some i
        | some false => wordsIndexLoop r1 r2 last fuel (i + 1)
    else some (-1)

/-- The function `wordsIndex`: first offset of `r2` inside `r1`, or `-1`. -/
def wordsIndex (r1 r2 : List Word) : Option Int :=
  let last := (r1.length : Int) - (r2.length : Int)
  wordsIndexLoop r1 r2 last (last + 1).toNat.succ 0

/-- The function `merge`: one segment holding the concatenation of `words`. -/
def merge (words : List Word) (op : Operation) : Diff :=
  { Type_ := op, Text := words.foldl (fun sb word => sb ++ word) [] }

/-- The inner loop `for wordLen > i+1 && script[i+1].diffType == script[i].diffType` of the
run merger; returns the final `i` and buffer. -/
def runScan (script : List wordDiff) : Nat → Nat → List Char → Option (Nat × List Char)
  | 0, _, _ => none
  | fuel + 1, i, sb =>
    if script.length > i + 1 then
      match script[i + 1]?, script[i]? with
      | some a, some b =>
        if a.diffType = b.diffType then runScan script fuel (i + 1) (sb ++ a.word)
        else some (i, sb)
      | _, _ => none
    else some (i, sb)

/-- The outer loop `for i := 0; i < wordLen; i++` of the run merger in `compute`. -/
def mergeLoop (script : List wordDiff) : Nat → Nat → List Diff → Option (List Diff)
  | 0, _, _ => none
  | fuel + 1, i, diffs =>
    if i < script.length then
      match script[i]? with
      | none => none
      | some e =>
        match runScan script (script.length + 1) i e.word with
        | none => none
        | some (j, sb) =>
          match script[j]? with
          | none => none
          | some e2 =>
            mergeLoop script fuel (j + 1) (diffs ++ [{ Type_ := e2.diffType, Text := sb }])
    else some diffs

/-- The function `compute`: containment shortcut, single-word shortcut, or engine plus
run merging. -/
def compute (text1 text2 : List Word) : Option (List Diff) :=
  let longtext := if text1.length > text2.length then text1 else text2
  let shorttext := if text1.length > text2.length then text2 else text1
  match wordsIndex longtext shorttext with
  | none => none
  | some i =>
    if i ≠ -1 then
      let op := if text1.length > text2.length then DiffDelete else DiffInsert
      match sliceOf longtext 0 i,
            sliceOf longtext (i + (shorttext.length : Int)) longtext.length with
      | some a, some b => some [merge a op, merge shorttext DiffEqual, merge b op]
      | _, _ => none
    else if shorttext.length = 1 then
      some [merge text1 DiffDelete, merge text2 DiffInsert]
    else
      match shortestEditScript text1 text2 with
      | none => none
      | some script => mergeLoop script (script.length + 1) 0 []

/-- The function `diff`: trims the common affixes, computes the core, re-attaches. -/
def diff (src dst : List Word) : Option (List Diff) :=
  match commonPrefixLen src dst with
  | none => none
  | some prefixLen =>
    match sliceOf src 0 prefixLen, sliceOf src prefixLen src.length,
          sliceOf dst prefixLen dst.length with
    | some pfx, some src1, some dst1 =>
      match commonSuffixLength src1 dst1 with
      | none => none
      | some suffixLen =>
        match sliceOf src1 ((src1.length : Int) - suffixLen) src1.length,
              sliceOf src1 0 ((src1.length : Int) - suffixLen),
              sliceOf dst1 0 ((dst1.length : Int) - suffixLen) with
        | some sfx, some src2, some dst2 =>
          match compute src2 dst2 with
          | none => none
          | some diffs =>
            let diffs1 := if pfx.length > 0 then [merge pfx DiffEqual] ++ diffs else diffs
            let diffs2 := if sfx.length > 0 then diffs1 ++ [merge sfx DiffEqual] else diffs1
            some diffs2
        | _, _, _ => none
    | _, _, _ => none

/-- The method `(wd *WordDiff) Diff(oldStr, newStr)` on strings given by their code points,
that is on valid UTF-8, where the guard `oldStr == newStr` on bytes is equality of the code
points and the texts returned are the code points of the source's texts; `WordDiff.DiffBytes`
is the method on every Go string. -/
def WordDiff.Diff (wd : WordDiff) (oldStr newStr : List Char) : Option (List Diff) :=
  if oldStr = newStr then some [{ Type_ := DiffEqual, Text := newStr }]
  else
    match split oldStr wd.separator wd.mergeContinuousSeparator,
          split newStr wd.separator wd.mergeContinuousSeparator with
    | some oldWords, some newWords => diff oldWords newWords
    | _, _ => none

/-! ## Vocabulary of the statements -/

/-- A non-separator word: a non-empty run of characters none of which is a separator. -/
def nonSepWord (separators : List (List Char)) (w : Word) : Prop :=
  w ≠ [] ∧ ∀ c ∈ w, [c] ∉ separators

/-- A separator word of the character `c`: `c` is a separator and the word is `c` repeated
one or more times. -/
def sepWordOf (separators : List (List Char)) (c : Char) (w : Word) : Prop :=
  [c] ∈ separators ∧ ∃ n, 1 ≤ n ∧ w = List.replicate n c

/-- A separator word: one separator character repeated one or more times. -/
def sepWord (separators : List (List Char)) (w : Word) : Prop :=
  ∃ c, sepWordOf separators c w

/-- The relation two adjacent words of a tokenization satisfy: not both non-separator words
and, when merging is on, not separator words of the same character. -/
def maximalRuns (separators : List (List Char)) (mergeContinuousSeparator : Bool)
    (w1 w2 : Word) : Prop :=
  ¬ (nonSepWord separators w1 ∧ nonSepWord separators w2) ∧
  (mergeContinuousSeparator = true →
    ∀ c, ¬ (sepWordOf separators c w1 ∧ sepWordOf separators c w2))

/-- The shape every word of a tokenization has: a non-separator word or a separator word,
and a separator word is one character long when merging is off. -/
def wordShape (separators : List (List Char)) (mergeContinuousSeparator : Bool) (w : Word) :
    Prop :=
  (nonSepWord separators w ∨ sepWord separators w) ∧
  (mergeContinuousSeparator = false → sepWord separators w → w.length = 1)

/-- The old side of a script: the words tagged Delete or Equal, in order. -/
def scriptSrc (s : List wordDiff) : List Word :=
  (s.filter (fun e => decide (e.diffType ≠ DiffInsert))).map (fun e => e.word)

/-- The new side of a script: the words tagged Insert or Equal, in order. -/
def scriptDst (s : List wordDiff) : List Word :=
  (s.filter (fun e => decide (e.diffType ≠ DiffDelete))).map (fun e => e.word)

/-- A valid edit script from `src` to `dst`: its old side is `src` and its new side is `dst`. -/
def validScript (s : List wordDiff) (src dst : List Word) : Prop :=
  scriptSrc s = src ∧ scriptDst s = dst

/-- The number of entries of a script tagged Insert or Delete. -/
def editCost (s : List wordDiff) : Nat :=
  (s.filter (fun e => decide (e.diffType ≠ DiffEqual))).length

/-- The words tagged Equal, in order. -/
def scriptEqual (s : List wordDiff) : List Word :=
  (s.filter (fun e => decide (e.diffType = DiffEqual))).map (fun e => e.word)

/-- `k` is the length of a longest common subsequence of `src` and `dst`. -/
def isLCSLength (src dst : List Word) (k : Nat) : Prop :=
  (∃ l : List Word, l.Sublist src ∧ l.Sublist dst ∧ l.length = k) ∧
  ∀ l : List Word, l.Sublist src → l.Sublist dst → l.length ≤ k

/-- Points of the edit graph reachable from the origin with exactly `d` non-diagonal moves;
right and down moves are not bounded by the grid, diagonal moves need equal words. -/
inductive Reach (src dst : List Word) : Nat → Int → Int → Prop
  | start : Reach src dst 0 0 0
  | diag {d : Nat} {x y : Int} {w : Word} : Reach src dst d x y → wordAt src x = some w →
      wordAt dst y = some w → Reach src dst d (x + 1) (y + 1)
  | right {d : Nat} {x y : Int} : Reach src dst d x y → Reach src dst (d + 1) (x + 1) y
  | down {d : Nat} {x y : Int} : Reach src dst d x y → Reach src dst (d + 1) x (y + 1)

/-- The diagonal run from `(x, y)` ends at `x1`: words match up to there and not at `x1`. -/
def Slide (src dst : List Word) (x y x1 : Int) : Prop :=
  x ≤ x1 ∧
  (∀ i, x ≤ i → i < x1 → ∃ w, wordAt src i = some w ∧ wordAt dst (i - x + y) = some w) ∧
  ¬ ∃ w, wordAt src x1 = some w ∧ wordAt dst (x1 - x + y) = some w

/-- The diagonals visited at depth `d`: from `-d` to `d` in steps of two. -/
def inRange (d : Nat) (k : Int) : Prop :=
  -(d : Int) ≤ k ∧ k ≤ (d : Int) ∧ (k + (d : Int)) % 2 = 0

/-- The point the forward pass starts its diagonal run from, on diagonal `k` at depth `d`. -/
def stepFrom (lastV : IntMap) (d k : Int) : Int :=
  if goesDown lastV d k then mapGet lastV (k + 1) else mapGet lastV (k - 1) + 1

/-- The reach recorded in the trace for diagonal `k` at depth `e`. -/
def lvl (tr : List IntMap) (e : Nat) (k : Int) : Int :=
  mapGet (tr.getD e []) k

/-- Depths `0 .. L-1` of the trace are complete and follow the recurrence of the forward pass. -/
def TraceOK (src dst : List Word) (tr : List IntMap) (L : Nat) : Prop :=
  L ≤ tr.length ∧
  (0 < L → Slide src dst 0 0 (lvl tr 0 0)) ∧
  ∀ e, e + 1 < L → ∀ k, inRange (e + 1) k →
    Slide src dst (stepFrom (tr.getD e []) ((e : Int) + 1) k)
      (stepFrom (tr.getD e []) ((e : Int) + 1) k - k) (lvl tr (e + 1) k)

/-- Executing the operations from `(x, y)` leads to `(x1, y1)`; an Equal step needs equal words. -/
def Walk (src dst : List Word) : List Operation → Int → Int → Int → Int → Prop
  | [], x, y, x1, y1 => x = x1 ∧ y = y1
  | DiffEqual :: ops, x, y, x1, y1 =>
    (∃ w, wordAt src x = some w ∧ wordAt dst y = some w) ∧ Walk src dst ops (x + 1) (y + 1) x1 y1
  | DiffDelete :: ops, x, y, x1, y1 => Walk src dst ops (x + 1) y x1 y1
  | DiffInsert :: ops, x, y, x1, y1 => Walk src dst ops x (y + 1) x1 y1

/-- The number of operations other than Equal. -/
def opCost (ops : List Operation) : Nat :=
  (ops.filter (fun o => decide (o ≠ DiffEqual))).length

/-- The point `(x, y)` is the reach recorded at depth `e` on its diagonal, as the forward pass
computes it from depth `e - 1`. -/
def OnTrace (src dst : List Word) (tr : List IntMap) : Nat → Int → Int → Prop
  | 0, x, y => inRange 0 (x - y) ∧ x = lvl tr 0 0
  | e + 1, x, y => inRange (e + 1) (x - y) ∧
    Slide src dst (stepFrom (tr.getD e []) ((e : Int) + 1) (x - y))
      (stepFrom (tr.getD e []) ((e : Int) + 1) (x - y) - (x - y)) x

/-- The forward pass stopped at depth `D`: the trace has `D + 1` maps, depths below `D` are
complete, the corner is the reach found at depth `D`, and no smaller depth reaches it. -/
def Found (src dst : List Word) (tr : List IntMap) (D : Nat) : Prop :=
  tr.length = D + 1 ∧
  (∀ e, e < D → ¬ Reach src dst e src.length dst.length) ∧
  Reach src dst D src.length dst.length ∧
  TraceOK src dst tr D ∧
  Slide src dst 0 0 (lvl tr 0 0) ∧
  OnTrace src dst tr D src.length dst.length

/-- The old side of a result: the texts of its Delete and Equal segments, concatenated. -/
def oldText (ds : List Diff) : List Char :=
  ((ds.filter (fun d => decide (d.Type_ ≠ DiffInsert))).map (fun d => d.Text)).flatten

/-- The new side of a result: the texts of its Insert and Equal segments, concatenated. -/
def newText (ds : List Diff) : List Char :=
  ((ds.filter (fun d => decide (d.Type_ ≠ DiffDelete))).map (fun d => d.Text)).flatten

/-- No two adjacent segments have the same type. -/
def coalesced (ds : List Diff) : Prop :=
  List.Chain' (fun a b => a.Type_ ≠ b.Type_) ds

/-- The invariant of the run merger after the entries before `i` have been merged into
`diffs`: the two sides are kept, no two adjacent segments share a type, the last segment has
the type of entry `i - 1` and not that of entry `i`, the first has the type of entry `0`. -/
def MergeInv (script : List wordDiff) (i : Nat) (diffs : List Diff) : Prop :=
  oldText diffs = (scriptSrc (script.take i)).flatten ∧
  newText diffs = (scriptDst (script.take i)).flatten ∧
  coalesced diffs ∧
  (∀ d ∈ diffs.getLast?, 1 ≤ i ∧
    (script[i - 1]?).map (fun e => e.diffType) = some d.Type_ ∧
    ∀ e, script[i]? = some e → e.diffType ≠ d.Type_) ∧
  (∀ d ∈ diffs.head?, (script[0]?).map (fun e => e.diffType) = some d.Type_) ∧
  (0 < i → diffs ≠ [])

/-- One row of the table of `lcs`: `f` is the row of the shorter first sequence. -/
def lcsRow (a : Word) (f : List Word → Nat) : List Word → Nat
  | [] => 0
  | b :: bs => if a = b then f bs + 1 else max (f (b :: bs)) (lcsRow a f bs)

/-- The length of a longest common subsequence, by the textbook recurrence. -/
def lcs : List Word → List Word → Nat
  | [], _ => 0
  | a :: as, bs => lcsRow a (fun l => lcs as l) bs

/-- The local `longtext` of `compute`: `text1` when it is strictly longer, else `text2`. -/
def longtext (text1 text2 : List Word) : List Word :=
  if text1.length > text2.length then text1 else text2

/-- The local `shorttext` of `compute`: the other one of the two. -/
def shorttext (text1 text2 : List Word) : List Word :=
  if text1.length > text2.length then text2 else text1

/-- The local `op` of the containment shortcut: Insert, or Delete when `text1` is strictly
longer. -/
def shortcutOp (text1 text2 : List Word) : Operation :=
  if text1.length > text2.length then DiffDelete else DiffInsert

/-- The function `compute` with the call of the edit-script engine taken as a parameter;
`compute` is `computeWith shortestEditScript`. -/
def computeWith (engine : List Word → List Word → Option (List wordDiff))
    (text1 text2 : List Word) : Option (List Diff) :=
  let longtext := if text1.length > text2.length then text1 else text2
  let shorttext := if text1.length > text2.length then text2 else text1
  match wordsIndex longtext shorttext with
  | none => none
  | some i =>
    if i ≠ -1 then
      let op := if text1.length > text2.length then DiffDelete else DiffInsert
      match sliceOf longtext 0 i,
            sliceOf longtext (i + (shorttext.length : Int)) longtext.length with
      | some a, some b => some [merge a op, merge shorttext DiffEqual, merge b op]
      | _, _ => none
    else if shorttext.length = 1 then
      some [merge text1 DiffDelete, merge text2 DiffInsert]
    else
      match engine text1 text2 with
      | none => none
      | some script => mergeLoop script (script.length + 1) 0 []

/-- The operation of the containment shortcut as the specification words it: Insert when the
new side is strictly longer, Delete otherwise. -/
def shortcutOpSpec (text1 text2 : List Word) : Operation :=
  if text2.length > text1.length then DiffInsert else DiffDelete

/-- The predecessor test as the specification words it: down when `k = -d`, or when `k != d`
and the reach of `k+1` is strictly less than the reach of `k-1` plus one. -/
def goesDownSpec (lastV : IntMap) (d k : Int) : Bool :=
  decide (k = -d ∨ (k ≠ d ∧ mapGet lastV (k + 1) < mapGet lastV (k - 1) + 1))

/-! ## The engine with checked map reads -/

/-- The map read `v[k]` that fails when the key was never written. -/
def mapGet? : IntMap → Int → Option Int
  | [], _ => none
  | (j, x) :: rest, k => if j = k then some x else mapGet? rest k

/-- The start `x` of the forward pass on diagonal `k` with every map read checked: the test
`k == -d || (k != d && lastV[k-1] < lastV[k+1])` reads nothing when `k == -d` or `k == d`,
and the branch taken reads `lastV[k+1]` or `lastV[k-1]`. -/
def readStep (lastV : IntMap) (d k : Int) : Option Int :=
  if k = -d then mapGet? lastV (k + 1)
  else if k ≠ d then
    match mapGet? lastV (k - 1), mapGet? lastV (k + 1) with
    | some a, some b => if a < b then some b else some (a + 1)
    | _, _ => none
  else
    match mapGet? lastV (k - 1) with
    | some a => some (a + 1)
    | none => none

/-- The loop `kLoop` with every map read checked. -/
def kLoopChecked (src dst : List Word) (d : Int) (lastV : IntMap) :
    Nat → Int → IntMap → Option (IntMap × Bool)
  | 0, _, _ => none
  | fuel + 1, k, v =>
    if k ≤ d then
      match readStep lastV d k with
      | none => none
      | some x =>
        let y := x - k
        match snake src dst ((src.length : Int) - x).toNat.succ x y with
        | none => none
        | some (x1, y1) =>
          let v1 := mapSet v k x1
          if x1 = (src.length : Int) ∧ y1 = (dst.length : Int) then some (v1, true)
          else kLoopChecked src dst d lastV fuel (k + 2) v1
    else some (v, false)

/-- The loop `forward` with every map read checked. -/
def forwardChecked (src dst : List Word) : Nat → Nat → List IntMap → Option (List IntMap)
  | 0, _, _ => none
  | fuel + 1, d, trace =>
    if d ≤ src.length + dst.length then
      if d = 0 then
        match prefixScan src dst (src.length + 1) 0 with
        | none => none
        | some t =>
          let v := mapSet [] 0 t
          if t = (src.length : Int) ∧ t = (dst.length : Int) then some (trace ++ [v])
          else forwardChecked src dst fuel (d + 1) (trace ++ [v])
      else
        match (trace)[d - 1]? with
        | none => none
        | some lastV =>
          match kLoopChecked src dst d lastV (d + 2) (-(d : Int)) [] with
          | none => none
          | some (v, true) => some (trace ++ [v])
          | some (v, false) => forwardChecked src dst fuel (d + 1) (trace ++ [v])
    else some trace

/-- The predecessor `(prevK, prevX)` of the backtrace with every map read checked. -/
def readPrev (lastV : IntMap) (d k : Int) : Option (Int × Int) :=
  if k = -d then
    match mapGet? lastV (k + 1) with
    | some b => some (k + 1, b)
    | none => none
  else if k ≠ d then
    match mapGet? lastV (k - 1), mapGet? lastV (k + 1) with
    | some a, some b => if a < b then some (k + 1, b) else some (k - 1, a)
    | _, _ => none
  else
    match mapGet? lastV (k - 1) with
    | some a => some (k - 1, a)
    | none => none

/-- The loop `backtrace` with every map read checked. -/
def backtraceChecked (trace : List IntMap) :
    Nat → Int → Int → List Operation → Option (List Operation)
  | 0, _, _, script => some script
  | d + 1, x, y, script =>
    let k := x - y
    match (trace)[d]? with
    | none => none
    | some lastV =>
      match readPrev lastV ((d : Int) + 1) k with
      | none => none
      | some (prevK, prevX) =>
        let prevY := prevX - prevK
        match eqLoop prevX prevY (x - prevX).toNat.succ x y script with
        | none => none
        | some (x1, _, script1) =>
          let script2 := if x1 = prevX then script1 ++ [DiffInsert] else script1 ++ [DiffDelete]
          backtraceChecked trace d prevX prevY script2

/-- The function `shortestEditScript` with every map read checked: reading a diagonal that
was not written at that depth is a failure. -/
def shortestEditScriptChecked (src dst : List Word) : Option (List wordDiff) :=
  let n := src.length
  let m := dst.length
  let max := n + m
  match forwardChecked src dst (max + 2) 0 [] with
  | none => none
  | some trace =>
    match backtraceChecked trace (trace.length - 1) n m [] with
    | none => none
    | some script =>
      match (trace)[0]? with
      | none => none
      | some v0 =>
        match mapGet? v0 0 with
        | none => none
        | some t =>
          let script1 := script ++ List.replicate t.toNat DiffEqual
          pairLoop src dst script1.reverse 0 0

/-- Every diagonal of the depths below `L` has been written in the trace. -/
def TraceKeys (tr : List IntMap) (L : Nat) : Prop :=
  ∀ e, e < L → ∀ k, inRange e k → mapHas (tr.getD e []) k = true

/-! ## Go strings as byte sequences -/

/-- One byte of a Go string. -/
abbrev Byte := Fin 256

/-- A Go `string` as it is stored: a sequence of bytes, valid UTF-8 or not. -/
abbrev GoString := List Byte

/-- The byte with value `n % 256`. -/
def byte (n : Nat) : Byte := ⟨n % 256, Nat.mod_lt n (by decide)⟩

/-- The code point `utf8.RuneError` (U+FFFD) that stands for a byte that starts no valid
encoding. -/
def RuneError : Char := Char.ofNat 0xFFFD

/-- The test `locb <= b && b <= hicb` of a continuation byte. -/
def isCont (b : Byte) : Bool := decide (0x80 ≤ b.val ∧ b.val ≤ 0xBF)

/-- The decoding of the first code point of a non-empty Go string, as the conversion
`[]rune(s)` does it: the code point and the number of bytes it takes. A byte that starts no
valid encoding (a continuation byte, an overlong or surrogate or too large encoding, a
truncated one) gives `RuneError` and width 1. -/
def decodeRune : GoString → Char × Nat
  | [] => (RuneError, 0)
  | s0 :: t =>
    if s0.val < 0x80 then (Char.ofNat s0.val, 1)
    else if s0.val < 0xC2 then (RuneError, 1)
    else if s0.val < 0xE0 then
      match t with
      | s1 :: _ =>
        if isCont s1 then (Char.ofNat (s0.val % 32 * 64 + s1.val % 64), 2)
        else (RuneError, 1)
      | _ => (RuneError, 1)
    else if s0.val < 0xF0 then
      match t with
      | s1 :: s2 :: _ =>
        if (if s0.val = 0xE0 then 0xA0 else 0x80) ≤ s1.val ∧
            s1.val ≤ (if s0.val = 0xED then 0x9F else 0xBF) ∧ isCont s2 then
          (Char.ofNat (s0.val % 16 * 4096 + s1.val % 64 * 64 + s2.val % 64), 3)
        else (RuneError, 1)
      | _ => (RuneError, 1)
    else if s0.val < 0xF5 then
      match t with
      | s1 :: s2 :: s3 :: _ =>
        if (if s0.val = 0xF0 then 0x90 else 0x80) ≤ s1.val ∧
            s1.val ≤ (if s0.val = 0xF4 then 0x8F else 0xBF) ∧ isCont s2 ∧ isCont s3 then
          (Char.ofNat (s0.val % 8 * 262144 + s1.val % 64 * 4096 + s2.val % 64 * 64
            + s3.val % 64), 4)
        else (RuneError, 1)
      | _ => (RuneError, 1)
    else (RuneError, 1)

/-- The loop of the conversion `[]rune(s)`: decode one code point, step over its bytes. -/
def runesLoop : Nat → GoString → List Char
  | 0, _ => []
  | fuel + 1, s =>
    match s with
    | [] => []
    | _ :: _ => (decodeRune s).1 :: runesLoop fuel (s.drop (decodeRune s).2)

/-- The conversion `[]rune(s)`; every step takes at least one byte, so `len(s)` steps are
enough (`runes_cons`). -/
def runes (s : GoString) : List Char := runesLoop s.length s

/-- The UTF-8 encoding of one code point (`string(r)` for a valid code point). -/
def encodeRune (c : Char) : GoString :=
  if c.toNat < 0x80 then [byte c.toNat]
  else if c.toNat < 0x800 then [byte (0xC0 + c.toNat / 64), byte (0x80 + c.toNat % 64)]
  else if c.toNat < 0x10000 then
    [byte (0xE0 + c.toNat / 4096), byte (0x80 + c.toNat / 64 % 64), byte (0x80 + c.toNat % 64)]
  else
    [byte (0xF0 + c.toNat / 262144), byte (0x80 + c.toNat / 4096 % 64),
      byte (0x80 + c.toNat / 64 % 64), byte (0x80 + c.toNat % 64)]

/-- The conversion `string(runes)` of a sequence of code points to a Go string. -/
def utf8Of (cs : List Char) : GoString := (cs.map encodeRune).flatten

/-- One segment of a diff result as the caller receives it (`type Diff struct`, with `Text`
a Go string). -/
structure ByteDiff where
  Type_ : Operation
  Text : GoString
  deriving DecidableEq, Repr

/-- The segment whose text is held as code points, as the caller receives it: `merge` writes
the words, which are Go strings, into a `strings.Builder`. -/
def Diff.encode (d : Diff) : ByteDiff := ⟨d.Type_, utf8Of d.Text⟩

/-- The method `(wd *WordDiff) Diff(oldStr, newStr)` on Go strings as they are stored. The
guard `oldStr == newStr` compares bytes and returns `newStr` itself; past the guard `split`
converts each string with `[]rune(s)` and the words are re-encoded from code points
(`Word(runeArr[left:i])`). Words are held as code-point sequences here: the encoding is
injective (`utf8Of_inj`) and commutes with concatenation (`utf8Of_flatten`), so word equality
and `merge` are the same on both sides. -/
def WordDiff.DiffBytes (wd : WordDiff) (oldStr newStr : GoString) : Option (List ByteDiff) :=
  if oldStr = newStr then some [⟨DiffEqual, newStr⟩]
  else
    match split (runes oldStr) wd.separator wd.mergeContinuousSeparator,
          split (runes newStr) wd.separator wd.mergeContinuousSeparator with
    | some oldWords, some newWords =>
      match diff oldWords newWords with
      | none => none
      | some diffs => some (diffs.map Diff.encode)
    | _, _ => none

/-- The old side of a result on Go strings: the texts of its Delete and Equal segments,
concatenated. -/
def oldBytes (ds : List ByteDiff) : GoString :=
  ((ds.filter (fun d => decide (d.Type_ ≠ DiffInsert))).map (fun d => d.Text)).flatten

/-- The new side of a result on Go strings: the texts of its Insert and Equal segments,
concatenated. -/
def newBytes (ds : List ByteDiff) : GoString :=
  ((ds.filter (fun d => decide (d.Type_ ≠ DiffDelete))).map (fun d => d.Text)).flatten

/-! # Theorems

## Slices and the tokenizer loop -/

theorem sliceOf_nat {α : Type} (l : List α) (a b : Nat) (h1 : a ≤ b) (h2 : b ≤ l.length) :
    sliceOf l (a : Int) (b : Int) = some ((l.take b).drop a) := by
  unfold sliceOf
  have h : (0 : Int) ≤ (a : Int) ∧ (a : Int) ≤ (b : Int) ∧ (b : Int) ≤ (l.length : Int) := by
    omega
  simp [h]

theorem wordAt_nat {α : Type} (l : List α) (i : Nat) : wordAt l (i : Int) = l[i]? := by
  simp [wordAt]

theorem take_drop_ne_nil {α : Type} (l : List α) (a b : Nat) (h1 : a < b) (h2 : b ≤ l.length) :
    (l.take b).drop a ≠ [] := by
  intro h
  have := congrArg List.length h
  simp at this
  omega

theorem getElem?_some_of_lt {α : Type} (l : List α) (i : Nat) (h : i < l.length) :
    ∃ a, l[i]? = some a := ⟨l[i], List.getElem?_eq_getElem h⟩

/-- What the inner merging loop of `split` returns. -/
theorem mergeScan_spec (runeArr : List Char) (mg : Bool) :
    ∀ (fuel i : Nat), i < runeArr.length → runeArr.length ≤ fuel + i →
      ∃ j, mergeScan runeArr mg fuel i = some j ∧ i ≤ j ∧ j < runeArr.length ∧
        (∀ t, i ≤ t → t ≤ j → runeArr[t]? = runeArr[i]?) ∧
        (mg = false → j = i) ∧
        (mg = true → j + 1 < runeArr.length → runeArr[j + 1]? ≠ runeArr[j]?) := by
  intro fuel
  induction fuel with
  | zero => intro i h1 h2; omega
  | succ fuel ih =>
    intro i h1 h2
    obtain ⟨b, e2⟩ := getElem?_some_of_lt runeArr i h1
    by_cases hc : mg = true ∧ i + 1 < runeArr.length
    · obtain ⟨a, e1⟩ := getElem?_some_of_lt runeArr (i + 1) hc.2
      by_cases he : a = b
      · have hm : mergeScan runeArr mg (fuel + 1) i = mergeScan runeArr mg fuel (i + 1) := by
          simp only [mergeScan, if_pos hc, e1, e2, he, if_true]
        obtain ⟨j, hj, h3, h4, h5, h6, h7⟩ := ih (i + 1) hc.2 (by omega)
        refine ⟨j, hm.trans hj, by omega, h4, ?_, ?_, h7⟩
        · intro t ht1 ht2
          by_cases hti : t = i
          · rw [hti]
          · rw [h5 t (by omega) ht2, e1, e2, he]
        · intro hf; rw [hf] at hc; simp at hc
      · have hm : mergeScan runeArr mg (fuel + 1) i = some i := by
          simp only [mergeScan, if_pos hc, e1, e2, he, if_false]
        refine ⟨i, hm, le_refl _, h1, ?_, fun _ => rfl, ?_⟩
        · intro t ht1 ht2
          have : t = i := by omega
          rw [this]
        · intro _ _
          rw [e1, e2]
          simpa using he
    · have hm : mergeScan runeArr mg (fuel + 1) i = some i := by
        unfold mergeScan
        rw [if_neg hc]
      refine ⟨i, hm, le_refl _, h1, ?_, fun _ => rfl, ?_⟩
      · intro t ht1 ht2
        have : t = i := by omega
        rw [this]
      · intro hm hlt
        exact absurd ⟨hm, hlt⟩ hc

/-- Loop-invariant rule for the main loop of `split`: a predicate on `(i, left, words)` kept by
each of the three branches of the body holds when the loop ends, and the loop does end. -/
theorem splitLoop_inv (runeArr : List Char) (seps : List (List Char)) (mg : Bool)
    (P : Nat → Nat → List Word → Prop)
    (hle : ∀ i left words, P i left words → left ≤ i)
    (hchar : seps.length = 0 → ∀ i left words, P i left words → i < runeArr.length →
      P (i + 1) (i + 1) (words ++ [(runeArr.take (i + 1)).drop left]))
    (hsep : seps.length ≠ 0 → ∀ i left words c j, P i left words → runeArr[i]? = some c →
      [c] ∈ seps → i ≤ j → j < runeArr.length →
      (∀ t, i ≤ t → t ≤ j → runeArr[t]? = some c) →
      (mg = false → j = i) →
      (mg = true → j + 1 < runeArr.length → runeArr[j + 1]? ≠ some c) →
      P (j + 1) (j + 1)
        ((if left ≠ i then words ++ [(runeArr.take i).drop left] else words) ++
          [(runeArr.take (j + 1)).drop i]))
    (hskip : seps.length ≠ 0 → ∀ i left words c, P i left words → runeArr[i]? = some c →
      [c] ∉ seps → P (i + 1) left words) :
    ∀ (fuel i left : Nat) (words : List Word), P i left words → i ≤ runeArr.length →
      runeArr.length < fuel + i →
      ∃ left1 words1, splitLoop runeArr seps mg fuel i left words = some (left1, words1) ∧
        P runeArr.length left1 words1 := by
  intro fuel
  induction fuel with
  | zero => intro i left words _ h1 h2; omega
  | succ fuel ih =>
    intro i left words hP h1 h2
    have hl := hle i left words hP
    by_cases hi : i < runeArr.length
    · obtain ⟨c, hc⟩ := getElem?_some_of_lt runeArr i hi
      by_cases h0 : seps.length = 0
      · have e : splitLoop runeArr seps mg (fuel + 1) i left words =
            splitLoop runeArr seps mg fuel (i + 1) (i + 1)
              (words ++ [(runeArr.take (i + 1)).drop left]) := by
          have hs := sliceOf_nat runeArr left (i + 1) (by omega) (by omega)
          simp only [Nat.cast_add, Nat.cast_one] at hs
          simp only [splitLoop, if_pos hi, hc, if_pos h0, hs]
        rw [e]
        exact ih _ _ _ (hchar h0 i left words hP hi) (by omega) (by omega)
      · by_cases hm : [c] ∈ seps
        · obtain ⟨j, hj, h3, h4, h5, h6, h7⟩ :=
            mergeScan_spec runeArr mg (runeArr.length + 1) i hi (by omega)
          have e : splitLoop runeArr seps mg (fuel + 1) i left words =
              splitLoop runeArr seps mg fuel (j + 1) (j + 1)
                ((if left ≠ i then words ++ [(runeArr.take i).drop left] else words) ++
                  [(runeArr.take (j + 1)).drop i]) := by
            have hs1 := sliceOf_nat runeArr left i hl (by omega)
            have hs2 := sliceOf_nat runeArr i (j + 1) (by omega) (by omega)
            simp only [Nat.cast_add, Nat.cast_one] at hs2
            simp only [splitLoop, if_pos hi, hc, if_neg h0, if_pos hm, hs1, hj, hs2,
              Option.map_some']
            by_cases hli : left = i
            · simp [hli]
            · simp [hli]
          rw [e]
          refine ih _ _ _ (hsep h0 i left words c j hP hc hm h3 h4 ?_ h6 ?_) (by omega) (by omega)
          · intro t ht1 ht2; rw [h5 t ht1 ht2, hc]
          · intro hmg hlt
            have := h7 hmg hlt
            rw [h5 j h3 (le_refl _), hc] at this
            exact this
        · have e : splitLoop runeArr seps mg (fuel + 1) i left words =
              splitLoop runeArr seps mg fuel (i + 1) left words := by
            simp only [splitLoop, if_pos hi, hc, if_neg h0, if_neg hm]
          rw [e]
          exact ih _ _ _ (hskip h0 i left words c hP hc hm) (by omega) (by omega)
    · have hi2 : i = runeArr.length := by omega
      refine ⟨left, words, ?_, hi2 ▸ hP⟩
      unfold splitLoop
      rw [if_neg hi]

/-- Invariant rule for `split` itself: the last flush included. -/
theorem split_inv (s : List Char) (seps : List (List Char)) (mg : Bool)
    (P : Nat → Nat → List Word → Prop)
    (h0 : P 0 0 [])
    (hle : ∀ i left words, P i left words → left ≤ i)
    (hchar : seps.length = 0 → ∀ i left words, P i left words → i < s.length →
      P (i + 1) (i + 1) (words ++ [(s.take (i + 1)).drop left]))
    (hsep : seps.length ≠ 0 → ∀ i left words c j, P i left words → s[i]? = some c →
      [c] ∈ seps → i ≤ j → j < s.length →
      (∀ t, i ≤ t → t ≤ j → s[t]? = some c) →
      (mg = false → j = i) →
      (mg = true → j + 1 < s.length → s[j + 1]? ≠ some c) →
      P (j + 1) (j + 1)
        ((if left ≠ i then words ++ [(s.take i).drop left] else words) ++
          [(s.take (j + 1)).drop i]))
    (hskip : seps.length ≠ 0 → ∀ i left words c, P i left words → s[i]? = some c →
      [c] ∉ seps → P (i + 1) left words) :
    ∃ left words, P s.length left words ∧
      split s seps mg = some (if left < s.length then words ++ [s.drop left] else words) := by
  obtain ⟨left, words, hrun, hP⟩ :=
    splitLoop_inv s seps mg P hle hchar hsep hskip (s.length + 1) 0 0 [] h0 (by omega) (by omega)
  refine ⟨left, words, hP, ?_⟩
  have hl := hle _ _ _ hP
  unfold split
  simp only [hrun]
  by_cases hlt : left < s.length
  · have hc : (left : Int) ≤ (s.length : Int) - 1 := by omega
    rw [if_pos hc, if_pos hlt, sliceOf_nat s left s.length hl (le_refl _)]
    simp
  · have hc : ¬ ((left : Int) ≤ (s.length : Int) - 1) := by omega
    rw [if_neg hc, if_neg hlt]


theorem take_append_slice {α : Type} (l : List α) (a b : Nat) (h : a ≤ b) :
    l.take a ++ (l.take b).drop a = l.take b := by
  have h1 : l.take a = (l.take b).take a := by
    rw [List.take_take, Nat.min_eq_left h]
  rw [h1, List.take_append_drop]

theorem mem_slice {α : Type} (l : List α) (a b : Nat) (c : α) (h : c ∈ (l.take b).drop a) :
    ∃ t, a ≤ t ∧ t < b ∧ l[t]? = some c := by
  obtain ⟨k, hk⟩ := List.getElem?_of_mem h
  rw [List.getElem?_drop, List.getElem?_take] at hk
  by_cases hlt : a + k < b
  · rw [if_pos hlt] at hk
    exact ⟨a + k, by omega, hlt, hk⟩
  · rw [if_neg hlt] at hk
    cases hk

theorem slice_eq_replicate {α : Type} (l : List α) (a b : Nat) (c : α)
    (h : ∀ t, a ≤ t → t < b → l[t]? = some c) :
    (l.take b).drop a = List.replicate (b - a) c := by
  apply List.ext_getElem?
  intro k
  rw [List.getElem?_drop, List.getElem?_take]
  by_cases hlt : a + k < b
  · rw [if_pos hlt, h (a + k) (by omega) hlt, List.getElem?_replicate]
    rw [if_pos (by omega)]
  · rw [if_neg hlt, List.getElem?_replicate]
    rw [if_neg (by omega)]

/-- The words of `split` concatenate to the input (shared by the reconstruction proofs). -/
theorem split_flatten (s : List Char) (seps : List (List Char)) (mg : Bool) :
    ∃ ws, split s seps mg = some ws ∧ ws.flatten = s := by
  obtain ⟨left, words, hP, hs⟩ := split_inv s seps mg
    (fun i left words => left ≤ i ∧ words.flatten = s.take left)
    ⟨le_refl _, by simp⟩
    (fun _ _ _ h => h.1)
    (fun _ i left words h _ => by
      refine ⟨le_refl _, ?_⟩
      rw [List.flatten_concat, h.2, take_append_slice s left (i + 1) (by omega)])
    (fun _ i left words c j h _ _ hij _ _ _ _ => by
      refine ⟨le_refl _, ?_⟩
      rw [List.flatten_concat]
      by_cases hli : left = i
      · rw [if_neg (by simpa using hli), h.2, hli, take_append_slice s i (j + 1) (by omega)]
      · rw [if_pos hli, List.flatten_concat, h.2, take_append_slice s left i h.1,
          take_append_slice s i (j + 1) (by omega)])
    (fun _ i left words c h _ _ => ⟨by omega, h.2⟩)
  refine ⟨_, hs, ?_⟩
  by_cases hlt : left < s.length
  · rw [if_pos hlt, List.flatten_concat, hP.2, List.take_append_drop]
  · rw [if_neg hlt, hP.2, List.take_of_length_le (by omega)]

/-- C7: no word of `split` is the empty string, for every input, separator set and merge
flag; and `split` of the empty string is the empty sequence. -/
theorem split_no_empty_word (s : List Char) (seps : List (List Char)) (mg : Bool) :
    (∃ ws, split s seps mg = some ws ∧ ∀ w ∈ ws, w ≠ []) ∧ split [] seps mg = some [] := by
  constructor
  · obtain ⟨left, words, hP, hs⟩ := split_inv s seps mg
      (fun i left words => left ≤ i ∧ i ≤ s.length ∧ ∀ w ∈ words, w ≠ [])
      ⟨le_refl _, Nat.zero_le _, by simp⟩
      (fun _ _ _ h => h.1)
      (fun _ i left words h hi => by
        refine ⟨le_refl _, hi, ?_⟩
        intro w hw
        rcases List.mem_append.1 hw with hw | hw
        · exact h.2.2 w hw
        · rw [List.mem_singleton.1 hw]
          exact take_drop_ne_nil s left (i + 1) (by omega) hi)
      (fun _ i left words c j h _ _ hij hj _ _ _ => by
        refine ⟨le_refl _, hj, ?_⟩
        intro w hw
        rcases List.mem_append.1 hw with hw | hw
        · by_cases hli : left = i
          · rw [if_neg (by simpa using hli)] at hw
            exact h.2.2 w hw
          · rw [if_pos hli] at hw
            rcases List.mem_append.1 hw with hw | hw
            · exact h.2.2 w hw
            · rw [List.mem_singleton.1 hw]
              exact take_drop_ne_nil s left i (by omega) (by omega)
        · rw [List.mem_singleton.1 hw]
          exact take_drop_ne_nil s i (j + 1) (by omega) hj)
      (fun _ i left words c h hc _ => by
        have hi : i < s.length := by
          by_contra hn
          rw [List.getElem?_eq_none (by omega)] at hc
          cases hc
        exact ⟨by omega, hi, h.2.2⟩)
    refine ⟨_, hs, ?_⟩
    intro w hw
    by_cases hlt : left < s.length
    · rw [if_pos hlt] at hw
      rcases List.mem_append.1 hw with hw | hw
      · exact hP.2.2 w hw
      · rw [List.mem_singleton.1 hw]
        intro hnil
        have := congrArg List.length hnil
        simp at this
        omega
    · rw [if_neg hlt] at hw
      exact hP.2.2 w hw
  · rfl

/-- C8: with an empty separator set, `split` returns the code points of the input in order,
each as a one-character word, whatever the merge flag; the test input of five three-byte
characters gives five words. -/
theorem split_char_mode :
    (∀ (s : List Char) (mg : Bool), split s [] mg = some (s.map (fun c => [c]))) ∧
    split ['我', '爱', '你', '中', '国'] [] true = some [['我'], ['爱'], ['你'], ['中'], ['国']] := by
  have key : ∀ (s : List Char) (mg : Bool), split s [] mg = some (s.map (fun c => [c])) := by
    intro s mg
    obtain ⟨left, words, hP, hs⟩ := split_inv s [] mg
      (fun i left words => left = i ∧ i ≤ s.length ∧ words = (s.take i).map (fun c => [c]))
      ⟨rfl, Nat.zero_le _, by simp⟩
      (fun _ _ _ h => le_of_eq h.1)
      (fun _ i left words h hi => by
        refine ⟨rfl, hi, ?_⟩
        obtain ⟨c, hc⟩ := getElem?_some_of_lt s i hi
        have h1 : (s.take (i + 1)).drop left = [c] := by
          rw [h.1, slice_eq_replicate s i (i + 1) c (fun t h1 h2 => by
            have : t = i := by omega
            rw [this, hc])]
          simp
        have h2 : s.take (i + 1) = s.take i ++ [c] := by
          rw [← h1, h.1, take_append_slice s i (i + 1) (by omega)]
        rw [h1, h2, h.2.2, List.map_append]
        rfl)
      (fun hne => absurd rfl hne)
      (fun hne => absurd rfl hne)
    rw [hs, if_neg (by omega), hP.2.2, List.take_of_length_le (le_refl _)]
  exact ⟨key, key _ _⟩


theorem sepWord_not_nonSep (seps : List (List Char)) (c : Char) (w : Word)
    (h : sepWordOf seps c w) : ¬ nonSepWord seps w := by
  obtain ⟨hc, n, hn, hw⟩ := h
  intro hns
  apply hns.2 c _ hc
  rw [hw]
  exact List.mem_replicate.2 ⟨by omega, rfl⟩

theorem sepWordOf_char (seps : List (List Char)) (c1 c2 : Char) (w : Word)
    (h1 : sepWordOf seps c1 w) (h2 : sepWordOf seps c2 w) : c1 = c2 := by
  obtain ⟨_, n1, hn1, hw1⟩ := h1
  obtain ⟨_, n2, hn2, hw2⟩ := h2
  have hm : c1 ∈ List.replicate n2 c2 := by
    rw [← hw2, hw1]
    exact List.mem_replicate.2 ⟨by omega, rfl⟩
  exact (List.mem_replicate.1 hm).2

/-- The slice between `left` and `i` is a non-separator word when it is not empty and holds
no separator. -/
theorem slice_nonSep (s : List Char) (seps : List (List Char)) (a b : Nat) (h1 : a < b)
    (h2 : b ≤ s.length) (h : ∀ t, a ≤ t → t < b → ∀ c, s[t]? = some c → [c] ∉ seps) :
    nonSepWord seps ((s.take b).drop a) := by
  refine ⟨take_drop_ne_nil s a b h1 h2, ?_⟩
  intro c hc
  obtain ⟨t, ht1, ht2, ht3⟩ := mem_slice s a b c hc
  exact h t ht1 ht2 c ht3

/-- The slice from a separator to the end of its merged run is a separator word. -/
theorem slice_sepWordOf (s : List Char) (seps : List (List Char)) (i j : Nat) (c : Char)
    (hc : [c] ∈ seps) (hij : i ≤ j) (h : ∀ t, i ≤ t → t ≤ j → s[t]? = some c) :
    sepWordOf seps c ((s.take (j + 1)).drop i) :=
  ⟨hc, j + 1 - i, by omega,
    slice_eq_replicate s i (j + 1) c (fun t h1 h2 => h t h1 (by omega))⟩

theorem nonSep_shape (seps : List (List Char)) (mg : Bool) (w : Word) (h : nonSepWord seps w) :
    wordShape seps mg w :=
  ⟨Or.inl h, fun _ ⟨c, hc⟩ => absurd h (sepWord_not_nonSep seps c w hc)⟩

theorem split_shape (s : List Char) (seps : List (List Char)) (mg : Bool)
    (hne : seps ≠ []) : ∃ ws, split s seps mg = some ws ∧ ∀ w ∈ ws, wordShape seps mg w := by
  have hlen : seps.length ≠ 0 := by
    intro h; exact hne (List.length_eq_zero.1 h)
  obtain ⟨left, words, hP, hs⟩ := split_inv s seps mg
    (fun i left words => left ≤ i ∧ i ≤ s.length ∧
      (∀ t, left ≤ t → t < i → ∀ c, s[t]? = some c → [c] ∉ seps) ∧
      ∀ w ∈ words, wordShape seps mg w)
    ⟨le_refl _, Nat.zero_le _, fun t h1 h2 => by omega, by simp⟩
    (fun _ _ _ h => h.1)
    (fun h0 => absurd h0 hlen)
    (fun _ i left words c j h hc hm hij hj hall hmf _ => by
      refine ⟨le_refl _, hj, fun t h1 h2 => by omega, ?_⟩
      have hsw : wordShape seps mg ((s.take (j + 1)).drop i) := by
        refine ⟨Or.inr ⟨c, slice_sepWordOf s seps i j c hm hij hall⟩, ?_⟩
        intro hf _
        rw [hmf hf]
        simp
        omega
      intro w hw
      rcases List.mem_append.1 hw with hw | hw
      · by_cases hli : left = i
        · rw [if_neg (by simpa using hli)] at hw
          exact h.2.2.2 w hw
        · rw [if_pos hli] at hw
          rcases List.mem_append.1 hw with hw | hw
          · exact h.2.2.2 w hw
          · rw [List.mem_singleton.1 hw]
            exact nonSep_shape seps mg _
              (slice_nonSep s seps left i (by omega) (by omega) h.2.2.1)
      · rw [List.mem_singleton.1 hw]
        exact hsw)
    (fun _ i left words c h hc hm => by
      have hi : i < s.length := by
        by_contra hn
        rw [List.getElem?_eq_none (by omega)] at hc
        cases hc
      refine ⟨by omega, hi, ?_, h.2.2.2⟩
      intro t h1 h2 c2 hc2
      by_cases hti : t = i
      · rw [hti, hc] at hc2
        cases hc2
        exact hm
      · exact h.2.2.1 t h1 (by omega) c2 hc2)
  refine ⟨_, hs, ?_⟩
  intro w hw
  by_cases hlt : left < s.length
  · rw [if_pos hlt] at hw
    rcases List.mem_append.1 hw with hw | hw
    · exact hP.2.2.2 w hw
    · rw [List.mem_singleton.1 hw]
      have := slice_nonSep s seps left s.length hlt (le_refl _) hP.2.2.1
      rw [List.take_of_length_le (le_refl _)] at this
      exact nonSep_shape seps mg _ this
  · rw [if_neg hlt] at hw
    exact hP.2.2.2 w hw

theorem chain_concat {α : Type} (R : α → α → Prop) (l : List α) (y : α)
    (h1 : List.Chain' R l) (h2 : ∀ x ∈ l.getLast?, R x y) : List.Chain' R (l ++ [y]) := by
  rw [List.chain'_append]
  refine ⟨h1, List.chain'_singleton y, ?_⟩
  intro x hx z hz
  simp at hz
  rw [← hz]
  exact h2 x hx

theorem split_maximal (s : List Char) (seps : List (List Char)) (mg : Bool)
    (hne : seps ≠ []) :
    ∃ ws, split s seps mg = some ws ∧ List.Chain' (maximalRuns seps mg) ws := by
  have hlen : seps.length ≠ 0 := by
    intro h; exact hne (List.length_eq_zero.1 h)
  -- a separator word followed by a non-separator word, and the converse
  have hSN : ∀ c w1 w2, sepWordOf seps c w1 → nonSepWord seps w2 →
      maximalRuns seps mg w1 w2 := by
    intro c w1 w2 h1 h2
    exact ⟨fun h => sepWord_not_nonSep seps c w1 h1 h.1,
      fun _ c2 h => sepWord_not_nonSep seps c2 w2 h.2 h2⟩
  have hNS : ∀ c w1 w2, nonSepWord seps w1 → sepWordOf seps c w2 →
      maximalRuns seps mg w1 w2 := by
    intro c w1 w2 h1 h2
    exact ⟨fun h => sepWord_not_nonSep seps c w2 h2 h.2,
      fun _ c2 h => sepWord_not_nonSep seps c2 w1 h.1 h1⟩
  obtain ⟨left, words, hP, hs⟩ := split_inv s seps mg
    (fun i left words => left ≤ i ∧ i ≤ s.length ∧
      (∀ t, left ≤ t → t < i → ∀ c, s[t]? = some c → [c] ∉ seps) ∧
      List.Chain' (maximalRuns seps mg) words ∧
      ∀ w ∈ words.getLast?, ∃ c, sepWordOf seps c w ∧ (mg = true → s[left]? ≠ some c))
    ⟨le_refl _, Nat.zero_le _, fun t h1 h2 => by omega, List.chain'_nil, by simp⟩
    (fun _ _ _ h => h.1)
    (fun h0 => absurd h0 hlen)
    (fun _ i left words c j h hc hm hij hj hall hmf hmt => by
      have hsw := slice_sepWordOf s seps i j c hm hij hall
      refine ⟨le_refl _, hj, fun t h1 h2 => by omega, ?_, ?_⟩
      · by_cases hli : left = i
        · rw [if_neg (by simpa using hli)]
          apply chain_concat _ _ _ h.2.2.2.1
          intro w0 hw0
          obtain ⟨c0, hc0, hnext⟩ := h.2.2.2.2 w0 hw0
          refine ⟨fun hh => sepWord_not_nonSep seps c0 w0 hc0 hh.1, ?_⟩
          intro hmg c2 hh
          have e1 := sepWordOf_char seps c2 c0 w0 hh.1 hc0
          have e2 := sepWordOf_char seps c2 c _ hh.2 hsw
          apply hnext hmg
          rw [hli, hc, ← e1, e2]
        · rw [if_pos hli]
          have hpend := slice_nonSep s seps left i (by omega) (by omega) h.2.2.1
          apply chain_concat
          · apply chain_concat _ _ _ h.2.2.2.1
            intro w0 hw0
            obtain ⟨c0, hc0, _⟩ := h.2.2.2.2 w0 hw0
            exact hSN c0 _ _ hc0 hpend
          · intro w0 hw0
            rw [List.getLast?_concat] at hw0
            cases hw0
            exact hNS c _ _ hpend hsw
      · intro w hw
        rw [List.getLast?_concat] at hw
        cases hw
        refine ⟨c, hsw, ?_⟩
        intro hmg
        by_cases hlt : j + 1 < s.length
        · exact hmt hmg hlt
        · rw [List.getElem?_eq_none (by omega)]
          simp)
    (fun _ i left words c h hc hm => by
      have hi : i < s.length := by
        by_contra hn
        rw [List.getElem?_eq_none (by omega)] at hc
        cases hc
      refine ⟨by omega, hi, ?_, h.2.2.2⟩
      intro t h1 h2 c2 hc2
      by_cases hti : t = i
      · rw [hti, hc] at hc2
        cases hc2
        exact hm
      · exact h.2.2.1 t h1 (by omega) c2 hc2)
  refine ⟨_, hs, ?_⟩
  by_cases hlt : left < s.length
  · rw [if_pos hlt]
    have hlast := slice_nonSep s seps left s.length hlt (le_refl _) hP.2.2.1
    rw [List.take_of_length_le (le_refl _)] at hlast
    apply chain_concat _ _ _ hP.2.2.2.1
    intro w0 hw0
    obtain ⟨c0, hc0, _⟩ := hP.2.2.2.2 w0 hw0
    exact hSN c0 _ _ hc0 hlast
  · rw [if_neg hlt]
    exact hP.2.2.2.1

/-- C9: with a non-empty separator set, each word of `split` is a non-empty run of
non-separator characters or one separator character repeated one or more times, and with
merging off every separator word is one character long. -/
theorem split_word_shape (s : List Char) (seps : List (List Char)) (mg : Bool)
    (hne : seps ≠ []) :
    ∃ ws, split s seps mg = some ws ∧
      ∀ w ∈ ws, (nonSepWord seps w ∨ sepWord seps w) ∧
        (mg = false → sepWord seps w → w.length = 1) :=
  split_shape s seps mg hne

/-- C9 at the input of the test data: the six words of `"hello world! nice"`. -/
theorem split_word_shape_witness :
    [[' '], ['!']] ≠ ([] : List (List Char)) ∧
    split "hello world! nice".toList [[' '], ['!']] false =
      some ["hello".toList, [' '], "world".toList, ['!'], [' '], "nice".toList] ∧
    ∃ ws, split "hello world! nice".toList [[' '], ['!']] false = some ws ∧
      ∀ w ∈ ws, (nonSepWord [[' '], ['!']] w ∨ sepWord [[' '], ['!']] w) ∧
        (false = false → sepWord [[' '], ['!']] w → w.length = 1) :=
  ⟨by decide, by decide, split_word_shape _ _ _ (by decide)⟩

/-- C10: with a non-empty separator set the words of `split` are maximal runs: no two
adjacent words are both non-separator words, with merging on no two adjacent words are
separator words of the same character, and every word is either free of separators or made
of a single separator character. -/
theorem split_maximal_runs (s : List Char) (seps : List (List Char)) (mg : Bool)
    (hne : seps ≠ []) :
    ∃ ws, split s seps mg = some ws ∧
      List.Chain' (fun w1 w2 =>
        ¬ (nonSepWord seps w1 ∧ nonSepWord seps w2) ∧
        (mg = true → ∀ c, ¬ (sepWordOf seps c w1 ∧ sepWordOf seps c w2))) ws ∧
      ∀ w ∈ ws, nonSepWord seps w ∨ sepWord seps w := by
  obtain ⟨ws, h1, h2⟩ := split_maximal s seps mg hne
  obtain ⟨ws2, h3, h4⟩ := split_shape s seps mg hne
  rw [h1] at h3
  cases h3
  exact ⟨ws, h1, h2, fun w hw => (h4 w hw).1⟩

/-- C10 at the input of the test data: adjacent separators of different characters stay
separate words and `@$%` stays one word. -/
theorem split_maximal_runs_witness :
    [[' '], ['!'], ['?']] ≠ ([] : List (List Char)) ∧
    split "ashfiahuahfskhasfhaihfiahfi ?!@$%".toList [[' '], ['!'], ['?']] true =
      some ["ashfiahuahfskhasfhaihfiahfi".toList, [' '], ['?'], ['!'], "@$%".toList] ∧
    ∃ ws, split "ashfiahuahfskhasfhaihfiahfi ?!@$%".toList [[' '], ['!'], ['?']] true
        = some ws ∧
      List.Chain' (fun w1 w2 =>
        ¬ (nonSepWord [[' '], ['!'], ['?']] w1 ∧ nonSepWord [[' '], ['!'], ['?']] w2) ∧
        (true = true → ∀ c, ¬ (sepWordOf [[' '], ['!'], ['?']] c w1 ∧
          sepWordOf [[' '], ['!'], ['?']] c w2))) ws ∧
      ∀ w ∈ ws, nonSepWord [[' '], ['!'], ['?']] w ∨ sepWord [[' '], ['!'], ['?']] w :=
  ⟨by decide, by decide, split_maximal_runs _ _ _ (by decide)⟩

/-! ## The edit-script engine -/

theorem wordAt_some {α : Type} (l : List α) (i : Int) (h1 : 0 ≤ i) (h2 : i < (l.length : Int)) :
    ∃ w, wordAt l i = some w := by
  unfold wordAt
  rw [if_pos h1]
  exact getElem?_some_of_lt l i.toNat (by omega)

theorem wordAt_bounds {α : Type} (l : List α) (i : Int) (w : α) (h : wordAt l i = some w) :
    0 ≤ i ∧ i < (l.length : Int) := by
  unfold wordAt at h
  by_cases h1 : 0 ≤ i
  · rw [if_pos h1] at h
    refine ⟨h1, ?_⟩
    by_contra hn
    rw [List.getElem?_eq_none (by omega)] at h
    cases h
  · rw [if_neg h1] at h
    cases h

/-- What the diagonal loop returns: the end of the run of equal words. -/
theorem snake_spec (src dst : List Word) :
    ∀ (fuel : Nat) (x y : Int), 0 ≤ x → 0 ≤ y → ((src.length : Int) - x).toNat < fuel →
      ∃ x1, snake src dst fuel x y = some (x1, x1 - x + y) ∧ Slide src dst x y x1 := by
  intro fuel
  induction fuel with
  | zero => intro x y _ _ h; omega
  | succ fuel ih =>
    intro x y hx hy hf
    by_cases hg : x < (src.length : Int) ∧ y < (dst.length : Int)
    · obtain ⟨a, ha⟩ := wordAt_some src x hx hg.1
      obtain ⟨b, hb⟩ := wordAt_some dst y hy hg.2
      by_cases hab : a = b
      · obtain ⟨x1, h1, h2, h3, h4⟩ := ih (x + 1) (y + 1) (by omega) (by omega) (by omega)
        have e : x1 - (x + 1) + (y + 1) = x1 - x + y := by ring
        refine ⟨x1, ?_, by omega, ?_, ?_⟩
        · simp only [snake, if_pos hg, ha, hb, hab, if_true]
          rw [h1, e]
        · intro i hi1 hi2
          by_cases hix : i = x
          · refine ⟨b, ?_, ?_⟩
            · rw [hix, ha, hab]
            · rw [hix, ← hb]; congr 1; ring
          · obtain ⟨w, hw1, hw2⟩ := h3 i (by omega) hi2
            refine ⟨w, hw1, ?_⟩
            rw [← hw2]; congr 1; ring
        · rw [← e]; exact h4
      · refine ⟨x, ?_, le_refl _, fun i h1 h2 => by omega, ?_⟩
        · simp only [snake, if_pos hg, ha, hb, hab, if_false]
          congr 2; ring
        · rintro ⟨w, hw1, hw2⟩
          have e : x - x + y = y := by ring
          rw [e, hb] at hw2
          rw [ha] at hw1
          cases hw1; cases hw2
          exact hab rfl
    · refine ⟨x, ?_, le_refl _, fun i h1 h2 => by omega, ?_⟩
      · simp only [snake, if_neg hg]
        congr 2; ring
      · rintro ⟨w, hw1, hw2⟩
        have e : x - x + y = y := by ring
        rw [e] at hw2
        have b1 := wordAt_bounds src x w hw1
        have b2 := wordAt_bounds dst y w hw2
        exact hg ⟨b1.2, b2.2⟩

/-- The depth-0 loop returns the end of the diagonal run from the origin. -/
theorem prefixScan_spec (src dst : List Word) :
    ∀ (fuel : Nat) (t : Int), 0 ≤ t → ((src.length : Int) - t).toNat < fuel →
      ∃ x1, prefixScan src dst fuel t = some x1 ∧ Slide src dst t t x1 := by
  intro fuel
  induction fuel with
  | zero => intro t _ h; omega
  | succ fuel ih =>
    intro t ht hf
    by_cases hg : (src.length : Int) > t ∧ (dst.length : Int) > t
    · obtain ⟨a, ha⟩ := wordAt_some src t ht hg.1
      obtain ⟨b, hb⟩ := wordAt_some dst t ht hg.2
      by_cases hab : a = b
      · obtain ⟨x1, h1, h2, h3, h4⟩ := ih (t + 1) (by omega) (by omega)
        have e : x1 - (t + 1) + (t + 1) = x1 - t + t := by ring
        refine ⟨x1, ?_, by omega, ?_, ?_⟩
        · simp only [prefixScan, if_pos hg, ha, hb, hab, if_true]
          rw [h1]
        · intro i hi1 hi2
          by_cases hix : i = t
          · refine ⟨b, ?_, ?_⟩
            · rw [hix, ha, hab]
            · rw [hix, ← hb]; congr 1; ring
          · obtain ⟨w, hw1, hw2⟩ := h3 i (by omega) hi2
            refine ⟨w, hw1, ?_⟩
            rw [← hw2]; congr 1; ring
        · rw [← e]; exact h4
      · refine ⟨t, ?_, le_refl _, fun i h1 h2 => by omega, ?_⟩
        · simp only [prefixScan, if_pos hg, ha, hb, hab, if_false]
        · rintro ⟨w, hw1, hw2⟩
          have e : t - t + t = t := by ring
          rw [e, hb] at hw2
          rw [ha] at hw1
          cases hw1; cases hw2
          exact hab rfl
    · refine ⟨t, ?_, le_refl _, fun i h1 h2 => by omega, ?_⟩
      · simp only [prefixScan, if_neg hg]
      · rintro ⟨w, hw1, hw2⟩
        have e : t - t + t = t := by ring
        rw [e] at hw2
        have b1 := wordAt_bounds src t w hw1
        have b2 := wordAt_bounds dst t w hw2
        exact hg ⟨b1.2, b2.2⟩


theorem reach_nonneg (src dst : List Word) (d : Nat) (x y : Int) (h : Reach src dst d x y) :
    0 ≤ x ∧ 0 ≤ y := by
  induction h with
  | start => exact ⟨le_refl _, le_refl _⟩
  | diag _ _ _ ih => exact ⟨by omega, by omega⟩
  | right _ ih => exact ⟨by omega, ih.2⟩
  | down _ ih => exact ⟨ih.1, by omega⟩

theorem reach_range (src dst : List Word) (d : Nat) (x y : Int) (h : Reach src dst d x y) :
    inRange d (x - y) := by
  unfold inRange
  induction h with
  | start => simp
  | diag _ _ _ ih => refine ⟨by omega, by omega, by omega⟩
  | right _ ih => push_cast; refine ⟨by omega, by omega, by omega⟩
  | down _ ih => push_cast; refine ⟨by omega, by omega, by omega⟩

/-- Following a diagonal run keeps the depth. -/
theorem slide_reach (src dst : List Word) (d : Nat) (x y x1 : Int)
    (h : Reach src dst d x y) (hs : Slide src dst x y x1) :
    Reach src dst d x1 (x1 - x + y) := by
  obtain ⟨h1, h2, _⟩ := hs
  have key : ∀ j : Nat, x + (j : Int) ≤ x1 → Reach src dst d (x + j) (y + j) := by
    intro j
    induction j with
    | zero => intro _; simpa using h
    | succ j ih =>
      intro hj
      obtain ⟨w, hw1, hw2⟩ := h2 (x + j) (by omega) (by push_cast at hj; omega)
      have e : x + (j : Int) - x + y = y + j := by ring
      rw [e] at hw2
      have := Reach.diag (ih (by push_cast at hj; omega)) hw1 hw2
      push_cast
      rw [← add_assoc, ← add_assoc]
      exact this
  have := key (x1 - x).toNat (by omega)
  have e1 : x + ((x1 - x).toNat : Int) = x1 := by omega
  have e2 : y + ((x1 - x).toNat : Int) = x1 - x + y := by omega
  rw [e1, e2] at this
  exact this

/-- A point reached beyond the grid gives the corner of the grid at a smaller depth. -/
theorem reach_clamp (src dst : List Word) (d : Nat) (x y : Int) (h : Reach src dst d x y) :
    ∃ d1 : Nat, Reach src dst d1 (min x src.length) (min y dst.length) ∧
      (d1 : Int) + (x - min x src.length) + (y - min y dst.length) = d := by
  induction h with
  | start =>
    refine ⟨0, ?_, ?_⟩
    · have e1 : min (0 : Int) (src.length : Int) = 0 := by omega
      have e2 : min (0 : Int) (dst.length : Int) = 0 := by omega
      rw [e1, e2]; exact Reach.start
    · omega
  | @diag d x y w _ hw1 hw2 ih =>
    obtain ⟨d1, hr, hd⟩ := ih
    have b1 := wordAt_bounds src x w hw1
    have b2 := wordAt_bounds dst y w hw2
    have e1 : min x (src.length : Int) = x := by omega
    have e2 : min y (dst.length : Int) = y := by omega
    have e3 : min (x + 1) (src.length : Int) = x + 1 := by omega
    have e4 : min (y + 1) (dst.length : Int) = y + 1 := by omega
    rw [e1, e2] at hr hd
    rw [e3, e4]
    exact ⟨d1, Reach.diag hr hw1 hw2, by omega⟩
  | @right d x y _ ih =>
    obtain ⟨d1, hr, hd⟩ := ih
    by_cases hx : x + 1 ≤ (src.length : Int)
    · have e1 : min x (src.length : Int) = x := by omega
      have e3 : min (x + 1) (src.length : Int) = x + 1 := by omega
      rw [e1] at hr hd
      rw [e3]
      exact ⟨d1 + 1, Reach.right hr, by push_cast; omega⟩
    · have e1 : min x (src.length : Int) = src.length := by omega
      have e3 : min (x + 1) (src.length : Int) = src.length := by omega
      rw [e1] at hr hd
      rw [e3]
      exact ⟨d1, hr, by push_cast; omega⟩
  | @down d x y _ ih =>
    obtain ⟨d1, hr, hd⟩ := ih
    by_cases hy : y + 1 ≤ (dst.length : Int)
    · have e1 : min y (dst.length : Int) = y := by omega
      have e3 : min (y + 1) (dst.length : Int) = y + 1 := by omega
      rw [e1] at hr hd
      rw [e3]
      exact ⟨d1 + 1, Reach.down hr, by push_cast; omega⟩
    · have e1 : min y (dst.length : Int) = dst.length := by omega
      have e3 : min (y + 1) (dst.length : Int) = dst.length := by omega
      rw [e1] at hr hd
      rw [e3]
      exact ⟨d1, hr, by push_cast; omega⟩

/-- Deleting everything and inserting everything reaches the corner at depth `n + m`. -/
theorem reach_full (src dst : List Word) :
    Reach src dst (src.length + dst.length) src.length dst.length := by
  have h1 : ∀ i : Nat, Reach src dst i i 0 := by
    intro i
    induction i with
    | zero => exact Reach.start
    | succ i ih => push_cast; exact Reach.right ih
  have h2 : ∀ j : Nat, Reach src dst (src.length + j) src.length j := by
    intro j
    induction j with
    | zero => exact h1 _
    | succ j ih => push_cast; exact Reach.down ih
  exact h2 _

theorem goesDown_iff (lastV : IntMap) (d k : Int) :
    goesDown lastV d k = true ↔
      (k = -d ∨ (k ≠ d ∧ mapGet lastV (k - 1) < mapGet lastV (k + 1))) := by
  unfold goesDown
  exact decide_eq_true_iff

theorem lvl_eq (tr : List IntMap) (e : Nat) (k : Int) : mapGet (tr.getD e []) k = lvl tr e k :=
  rfl

/-- Soundness of the recorded reaches: each is a point reachable at its depth. -/
theorem trace_sound (src dst : List Word) (tr : List IntMap) (L : Nat)
    (h : TraceOK src dst tr L) :
    ∀ e, e < L → ∀ k, inRange e k → Reach src dst e (lvl tr e k) (lvl tr e k - k) := by
  intro e
  induction e with
  | zero =>
    intro he k hk
    have hk0 : k = 0 := by unfold inRange at hk; omega
    have := slide_reach src dst 0 0 0 _ Reach.start (h.2.1 he)
    rw [hk0]
    simpa using this
  | succ e ih =>
    intro he k hk
    have hS := h.2.2 e he k hk
    unfold inRange at hk
    push_cast at hk
    by_cases hg : goesDown (tr.getD e []) ((e : Int) + 1) k = true
    · have hst : stepFrom (tr.getD e []) ((e : Int) + 1) k = lvl tr e (k + 1) := by
        unfold stepFrom; rw [if_pos hg]; rfl
      rw [hst] at hS
      have hr : inRange e (k + 1) := by
        rw [goesDown_iff] at hg
        unfold inRange
        omega
      have h1 := Reach.down (ih (by omega) (k + 1) hr)
      have e1 : lvl tr e (k + 1) - (k + 1) + 1 = lvl tr e (k + 1) - k := by ring
      rw [e1] at h1
      have h2 := slide_reach src dst _ _ _ _ h1 hS
      have e2 : lvl tr (e + 1) k - lvl tr e (k + 1) + (lvl tr e (k + 1) - k)
          = lvl tr (e + 1) k - k := by ring
      rw [e2] at h2
      exact h2
    · have hst : stepFrom (tr.getD e []) ((e : Int) + 1) k = lvl tr e (k - 1) + 1 := by
        unfold stepFrom; rw [if_neg hg]; rfl
      rw [hst] at hS
      have hr : inRange e (k - 1) := by
        rw [goesDown_iff] at hg
        unfold inRange
        omega
      have h1 := Reach.right (ih (by omega) (k - 1) hr)
      have e1 : lvl tr e (k - 1) - (k - 1) = lvl tr e (k - 1) + 1 - k := by ring
      rw [e1] at h1
      have h2 := slide_reach src dst _ _ _ _ h1 hS
      have e2 : lvl tr (e + 1) k - (lvl tr e (k - 1) + 1) + (lvl tr e (k - 1) + 1 - k)
          = lvl tr (e + 1) k - k := by ring
      rw [e2] at h2
      exact h2

/-- Each recorded reach is the end of a diagonal run: the words there differ or the grid ends. -/
theorem trace_maximal (src dst : List Word) (tr : List IntMap) (L : Nat)
    (h : TraceOK src dst tr L) (e : Nat) (he : e < L) (k : Int) (hk : inRange e k) :
    ¬ ∃ w, wordAt src (lvl tr e k) = some w ∧ wordAt dst (lvl tr e k - k) = some w := by
  cases e with
  | zero =>
    have hk0 : k = 0 := by unfold inRange at hk; omega
    have := (h.2.1 he).2.2
    rw [hk0]
    simpa using this
  | succ e =>
    have hS := (h.2.2 e he k hk).2.2
    intro hc
    apply hS
    obtain ⟨w, hw1, hw2⟩ := hc
    refine ⟨w, hw1, ?_⟩
    rw [← hw2]; congr 1; ring

/-- The recorded reach is the furthest: no point reachable at depth `e` lies beyond it on its
diagonal. -/
theorem trace_furthest (src dst : List Word) (tr : List IntMap) (L : Nat)
    (h : TraceOK src dst tr L) (e : Nat) (x y : Int) (hr : Reach src dst e x y) :
    e < L → x ≤ lvl tr e (x - y) := by
  induction hr with
  | start =>
    intro he
    have := (h.2.1 he).1
    simpa using this
  | @diag d x y w hr hw1 hw2 ih =>
    intro he
    have h1 := ih he
    have e1 : x + 1 - (y + 1) = x - y := by ring
    rw [e1]
    by_contra hn
    have hx : lvl tr d (x - y) = x := by omega
    apply trace_maximal src dst tr L h d he (x - y) (reach_range src dst d x y hr)
    rw [hx]
    refine ⟨w, hw1, ?_⟩
    rw [← hw2]; congr 1; ring
  | @right d x y hr ih =>
    intro he
    have h1 := ih (by omega)
    have hk := reach_range src dst d x y hr
    have hk1 := reach_range src dst (d + 1) (x + 1) y (Reach.right hr)
    have hS := (h.2.2 d he (x + 1 - y) hk1).1
    have e1 : x + 1 - y - 1 = x - y := by ring
    refine le_trans ?_ hS
    unfold stepFrom
    unfold inRange at hk
    by_cases hg : goesDown (tr.getD d []) ((d : Int) + 1) (x + 1 - y) = true
    · rw [if_pos hg]
      rw [goesDown_iff, e1] at hg
      rw [lvl_eq] at hg
      have : x + 1 - y ≠ -((d : Int) + 1) := by omega
      rcases hg with hg | hg
      · exact absurd hg this
      · have := hg.2; omega
    · rw [if_neg hg, e1, lvl_eq]
      omega
  | @down d x y hr ih =>
    intro he
    have h1 := ih (by omega)
    have hk := reach_range src dst d x y hr
    have hk1 := reach_range src dst (d + 1) x (y + 1) (Reach.down hr)
    have hS := (h.2.2 d he (x - (y + 1)) hk1).1
    have e1 : x - (y + 1) + 1 = x - y := by ring
    refine le_trans ?_ hS
    unfold stepFrom
    unfold inRange at hk
    by_cases hg : goesDown (tr.getD d []) ((d : Int) + 1) (x - (y + 1)) = true
    · rw [if_pos hg, e1, lvl_eq]
      exact h1
    · rw [if_neg hg]
      rw [goesDown_iff, e1] at hg
      rw [lvl_eq] at hg
      have hne : x - (y + 1) ≠ (d : Int) + 1 := by omega
      have : ¬ (mapGet (tr.getD d []) (x - (y + 1) - 1) < lvl tr d (x - y)) := by
        intro hlt
        exact hg (Or.inr ⟨hne, hlt⟩)
      omega


theorem mapGet_set (v : IntMap) (k x j : Int) :
    mapGet (mapSet v k x) j = if k = j then x else mapGet v j := rfl

/-- With no smaller depth reaching the corner, the corner is reachable at depth `e` exactly
when the reach recorded on its diagonal is `n`. -/
theorem trace_corner (src dst : List Word) (tr : List IntMap) (L : Nat)
    (h : TraceOK src dst tr L) (e : Nat) (he : e < L)
    (hmin : ∀ e1, e1 < e → ¬ Reach src dst e1 src.length dst.length)
    (hr : Reach src dst e src.length dst.length) :
    lvl tr e ((src.length : Int) - dst.length) = src.length := by
  have h1 := trace_furthest src dst tr L h e _ _ hr he
  have hk := reach_range src dst e _ _ hr
  have h2 := trace_sound src dst tr L h e he _ hk
  obtain ⟨d1, h3, h4⟩ := reach_clamp src dst e _ _ h2
  by_contra hne
  have e1 : min (lvl tr e ((src.length : Int) - dst.length)) (src.length : Int) = src.length := by
    omega
  have e2 : min (lvl tr e ((src.length : Int) - dst.length) - ((src.length : Int) - dst.length))
      (dst.length : Int) = dst.length := by omega
  rw [e1, e2] at h3 h4
  exact hmin d1 (by omega) h3

/-- What the loop over the diagonals of one depth returns. -/
theorem kLoop_spec (src dst : List Word) (d : Nat) (lastV : IntMap)
    (hstart : ∀ k, inRange d k →
      0 ≤ stepFrom lastV d k ∧ 0 ≤ stepFrom lastV d k - k) :
    ∀ (fuel : Nat) (k : Int) (v : IntMap),
      -(d : Int) ≤ k → k ≤ (d : Int) + 2 → (k + (d : Int)) % 2 = 0 →
      (d : Int) - k + 4 ≤ 2 * (fuel : Int) →
      (∀ j, inRange d j → j < k →
        Slide src dst (stepFrom lastV d j) (stepFrom lastV d j - j) (mapGet v j) ∧
        ¬ (mapGet v j = src.length ∧ mapGet v j - j = dst.length)) →
      ∃ v1 b, kLoop src dst d lastV fuel k v = some (v1, b) ∧
        (b = false → ∀ j, inRange d j →
          Slide src dst (stepFrom lastV d j) (stepFrom lastV d j - j) (mapGet v1 j) ∧
          ¬ (mapGet v1 j = src.length ∧ mapGet v1 j - j = dst.length)) ∧
        (b = true → inRange d ((src.length : Int) - dst.length) ∧
          Slide src dst (stepFrom lastV d ((src.length : Int) - dst.length))
            (stepFrom lastV d ((src.length : Int) - dst.length)
              - ((src.length : Int) - dst.length)) src.length) := by
  intro fuel
  induction fuel with
  | zero => intro k v h1 h2 h3 h4; omega
  | succ fuel ih =>
    intro k v h1 h2 h3 h4 hinv
    by_cases hk : k ≤ (d : Int)
    · have hr : inRange d k := ⟨h1, hk, h3⟩
      obtain ⟨hx0, hy0⟩ := hstart k hr
      obtain ⟨x1, hs1, hs2⟩ := snake_spec src dst
        ((src.length : Int) - stepFrom lastV d k).toNat.succ
        (stepFrom lastV d k) (stepFrom lastV d k - k) hx0 hy0 (Nat.lt_succ_self _)
      have ey : x1 - stepFrom lastV d k + (stepFrom lastV d k - k) = x1 - k := by ring
      rw [ey] at hs1
      have hunf : kLoop src dst d lastV (fuel + 1) k v =
          (if x1 = (src.length : Int) ∧ x1 - k = (dst.length : Int) then
            some (mapSet v k x1, true)
           else kLoop src dst d lastV fuel (k + 2) (mapSet v k x1)) := by
        rw [kLoop, if_pos hk]
        simp only []
        have := hs1
        unfold stepFrom at this
        rw [this]
      rw [hunf]
      by_cases hfin : x1 = (src.length : Int) ∧ x1 - k = (dst.length : Int)
      · rw [if_pos hfin]
        refine ⟨_, true, rfl, (fun hb => by cases hb), fun _ => ?_⟩
        have ek : (src.length : Int) - dst.length = k := by omega
        rw [ek]
        refine ⟨hr, ?_⟩
        rw [← hfin.1]
        exact hs2
      · rw [if_neg hfin]
        refine ih (k + 2) (mapSet v k x1) (by omega) (by omega) (by omega)
          (by push_cast at h4; omega) ?_
        intro j hj hjk
        rw [mapGet_set]
        by_cases hjeq : k = j
        · rw [if_pos hjeq, ← hjeq]
          exact ⟨hs2, hfin⟩
        · rw [if_neg hjeq]
          have : j < k := by unfold inRange at hj; omega
          exact hinv j hj this
    · refine ⟨v, false, ?_, fun _ => ?_, fun hb => by cases hb⟩
      · rw [kLoop, if_neg hk]
      · intro j hj
        exact hinv j hj (by unfold inRange at hj; omega)


theorem getD_append_lt (tr : List IntMap) (v : IntMap) (e : Nat) (h : e < tr.length) :
    (tr ++ [v]).getD e [] = tr.getD e [] := by
  simp [List.getD_eq_getElem?_getD, List.getElem?_append_left h]

theorem getD_append_len (tr : List IntMap) (v : IntMap) :
    (tr ++ [v]).getD tr.length [] = v := by
  simp [List.getD_eq_getElem?_getD]

theorem lvl_append_lt (tr : List IntMap) (v : IntMap) (e : Nat) (k : Int) (h : e < tr.length) :
    lvl (tr ++ [v]) e k = lvl tr e k := by
  unfold lvl
  rw [getD_append_lt tr v e h]

/-- The start point of a diagonal run at depth `e + 1` is reachable at that depth. -/
theorem step_reach (src dst : List Word) (tr : List IntMap) (L : Nat)
    (h : TraceOK src dst tr L) (e : Nat) (he : e < L) (k : Int) (hk : inRange (e + 1) k) :
    Reach src dst (e + 1) (stepFrom (tr.getD e []) ((e : Int) + 1) k)
      (stepFrom (tr.getD e []) ((e : Int) + 1) k - k) := by
  unfold inRange at hk
  push_cast at hk
  by_cases hg : goesDown (tr.getD e []) ((e : Int) + 1) k = true
  · have hst : stepFrom (tr.getD e []) ((e : Int) + 1) k = lvl tr e (k + 1) := by
      unfold stepFrom; rw [if_pos hg]; rfl
    rw [hst]
    have hr : inRange e (k + 1) := by
      rw [goesDown_iff] at hg
      unfold inRange
      omega
    have h1 := Reach.down (trace_sound src dst tr L h e he (k + 1) hr)
    have e1 : lvl tr e (k + 1) - (k + 1) + 1 = lvl tr e (k + 1) - k := by ring
    rw [e1] at h1
    exact h1
  · have hst : stepFrom (tr.getD e []) ((e : Int) + 1) k = lvl tr e (k - 1) + 1 := by
      unfold stepFrom; rw [if_neg hg]; rfl
    rw [hst]
    have hr : inRange e (k - 1) := by
      rw [goesDown_iff] at hg
      unfold inRange
      omega
    have h1 := Reach.right (trace_sound src dst tr L h e he (k - 1) hr)
    have e1 : lvl tr e (k - 1) - (k - 1) = lvl tr e (k - 1) + 1 - k := by ring
    rw [e1] at h1
    exact h1

/-- Appending a map keeps the completed depths. -/
theorem traceOK_append (src dst : List Word) (tr : List IntMap) (v : IntMap) (L : Nat)
    (h : TraceOK src dst tr L) : TraceOK src dst (tr ++ [v]) L := by
  obtain ⟨h1, h2, h3⟩ := h
  refine ⟨by simp; omega, ?_, ?_⟩
  · intro hL
    rw [lvl_append_lt tr v 0 0 (by omega)]
    exact h2 hL
  · intro e he k hk
    rw [lvl_append_lt tr v (e + 1) k (by omega), getD_append_lt tr v e (by omega)]
    exact h3 e he k hk

/-- Appending a map that follows the recurrence completes one more depth. -/
theorem traceOK_extend (src dst : List Word) (tr : List IntMap) (v : IntMap) (e : Nat)
    (h : TraceOK src dst tr (e + 1)) (hlen : tr.length = e + 1)
    (hv : ∀ k, inRange (e + 1) k →
      Slide src dst (stepFrom (tr.getD e []) ((e : Int) + 1) k)
        (stepFrom (tr.getD e []) ((e : Int) + 1) k - k) (mapGet v k)) :
    TraceOK src dst (tr ++ [v]) (e + 2) := by
  have h0 := traceOK_append src dst tr v (e + 1) h
  obtain ⟨h1, h2, h3⟩ := h0
  refine ⟨by simp; omega, fun _ => h2 (by omega), ?_⟩
  intro e1 he1 k hk
  by_cases hlt : e1 + 1 < e + 1
  · exact h3 e1 hlt k hk
  · have he : e1 = e := by omega
    rw [he]
    rw [he] at hk
    have e2 : lvl (tr ++ [v]) (e + 1) k = mapGet v k := by
      unfold lvl
      rw [← hlen, getD_append_len]
    rw [e2, getD_append_lt tr v e (by omega)]
    exact hv k hk


/-- The loop over the depths, entered at a depth `d >= 1` with the depths below complete and
the corner not yet reached, stops at the first depth that reaches the corner. -/
theorem forward_spec (src dst : List Word) :
    ∀ (fuel e : Nat) (trace : List IntMap), trace.length = e + 1 →
      TraceOK src dst trace (e + 1) →
      (∀ e1, e1 < e + 1 → ¬ Reach src dst e1 src.length dst.length) →
      src.length + dst.length + 2 ≤ fuel + (e + 1) →
      ∃ tr D, forward src dst fuel (e + 1) trace = some tr ∧ Found src dst tr D := by
  intro fuel
  induction fuel with
  | zero =>
    intro e trace _ _ hmin hf
    exact absurd (reach_full src dst) (hmin _ (by omega))
  | succ fuel ih =>
    intro e trace hlen hok hmin hf
    by_cases hd : e + 1 ≤ src.length + dst.length
    · obtain ⟨lastV, hlast⟩ := getElem?_some_of_lt trace e (by omega)
      have hgetD : trace.getD e [] = lastV := by
        simp [List.getD_eq_getElem?_getD, hlast]
      have hstart : ∀ k, inRange (e + 1) k →
          0 ≤ stepFrom lastV ((e + 1 : Nat) : Int) k ∧
          0 ≤ stepFrom lastV ((e + 1 : Nat) : Int) k - k := by
        intro k hk
        have := reach_nonneg src dst _ _ _
          (step_reach src dst trace (e + 1) hok e (by omega) k hk)
        rw [hgetD] at this
        push_cast
        exact this
      obtain ⟨v, b, hrun, hb0, hb1⟩ := kLoop_spec src dst (e + 1) lastV hstart (e + 1 + 2)
        (-((e + 1 : Nat) : Int)) [] (by omega) (by omega) (by omega) (by push_cast; omega)
        (fun j hj hlt => by unfold inRange at hj; omega)
      have hunf : forward src dst (fuel + 1) (e + 1) trace =
          (match b with
           | true => some (trace ++ [v])
           | false => forward src dst fuel (e + 1 + 1) (trace ++ [v])) := by
        rw [forward, if_pos hd, if_neg (by omega)]
        simp only [Nat.add_sub_cancel, hlast, hrun]
        cases b <;> rfl
      rw [hunf]
      cases b with
      | true =>
        obtain ⟨hr, hS⟩ := hb1 rfl
        push_cast at hS
        refine ⟨trace ++ [v], e + 1, rfl, ?_, hmin, ?_, traceOK_append src dst trace v _ hok,
          ?_, ?_⟩
        · simp [hlen]
        · have h1 := step_reach src dst trace (e + 1) hok e (by omega) _ hr
          rw [hgetD] at h1
          have h2 := slide_reach src dst _ _ _ _ h1 hS
          have e2 : (src.length : Int) - stepFrom lastV ((e : Int) + 1)
              ((src.length : Int) - dst.length) + (stepFrom lastV ((e : Int) + 1)
              ((src.length : Int) - dst.length) - ((src.length : Int) - dst.length))
              = dst.length := by ring
          rw [e2] at h2
          exact h2
        · rw [lvl_append_lt trace v 0 0 (by omega)]
          exact hok.2.1 (by omega)
        · refine ⟨hr, ?_⟩
          rw [getD_append_lt trace v e (by omega), hgetD]
          exact hS
      | false =>
        have hv := hb0 rfl
        have hok2 : TraceOK src dst (trace ++ [v]) (e + 2) := by
          apply traceOK_extend src dst trace v e hok hlen
          intro k hk
          rw [hgetD]
          have := (hv k hk).1
          push_cast at this
          exact this
        refine ih (e + 1) (trace ++ [v]) (by simp [hlen]) hok2 ?_ (by omega)
        intro e1 he1 hreach
        by_cases hlt : e1 < e + 1
        · exact hmin e1 hlt hreach
        · have he : e1 = e + 1 := by omega
          rw [he] at hreach
          have hc := trace_corner src dst (trace ++ [v]) (e + 2) hok2 (e + 1) (by omega)
            hmin hreach
          have hk := reach_range src dst _ _ _ hreach
          have e2 : lvl (trace ++ [v]) (e + 1) ((src.length : Int) - dst.length)
              = mapGet v ((src.length : Int) - dst.length) := by
            unfold lvl
            rw [← hlen, getD_append_len]
          rw [e2] at hc
          apply (hv _ hk).2
          rw [hc]
          exact ⟨rfl, by ring⟩
    · exact absurd (reach_full src dst) (hmin _ (by omega))

/-- The forward pass always stops, at the smallest depth that reaches the corner. -/
theorem forward_found (src dst : List Word) :
    ∃ tr D, forward src dst (src.length + dst.length + 2) 0 [] = some tr ∧
      Found src dst tr D := by
  obtain ⟨t, ht, hS⟩ := prefixScan_spec src dst (src.length + 1) 0 (le_refl _) (by omega)
  have hl : lvl [mapSet [] 0 t] 0 0 = t := rfl
  have hok : TraceOK src dst [mapSet [] 0 t] 1 := by
    refine ⟨le_refl _, fun _ => ?_, fun e he => by omega⟩
    rw [hl]; exact hS
  have hr0 : Reach src dst 0 t t := by
    have := slide_reach src dst 0 0 0 t Reach.start hS
    simpa using this
  by_cases hfin : t = (src.length : Int) ∧ t = (dst.length : Int)
  · refine ⟨[mapSet [] 0 t], 0, ?_, rfl, fun e he => by omega, ?_, ?_, ?_, ?_⟩
    · rw [forward, if_pos (by omega), if_pos rfl]
      simp only [ht, List.nil_append]
      rw [if_pos hfin]
    · have := hr0
      rw [hfin.1] at this
      nth_rewrite 2 [← hfin.1] at this
      rw [hfin.2] at this
      exact this
    · exact ⟨Nat.zero_le _, fun h => by omega, fun e he => by omega⟩
    · rw [hl]; exact hS
    · refine ⟨?_, ?_⟩
      · unfold inRange; omega
      · rw [hl]; exact hfin.1.symm
  · have hmin : ∀ e1, e1 < 0 + 1 → ¬ Reach src dst e1 src.length dst.length := by
      intro e1 he1 hreach
      have he : e1 = 0 := by omega
      rw [he] at hreach
      have hc := trace_corner src dst _ 1 hok 0 (by omega) (fun e2 h2 => by omega) hreach
      have hk := reach_range src dst _ _ _ hreach
      have hk0 : (src.length : Int) - dst.length = 0 := by unfold inRange at hk; omega
      rw [hk0, hl] at hc
      exact hfin ⟨hc, by omega⟩
    obtain ⟨tr, D, hrun, hF⟩ := forward_spec src dst (src.length + dst.length + 1) 0
      [mapSet [] 0 t] rfl hok hmin (by omega)
    refine ⟨tr, D, ?_, hF⟩
    rw [forward, if_pos (by omega), if_pos rfl]
    simp only [ht, List.nil_append]
    rw [if_neg hfin]
    exact hrun


/-- What the Equal loop of the backtrace returns: it steps back along the diagonal until one
of the two coordinates meets the predecessor. -/
theorem eqLoop_spec (prevX prevY : Int) :
    ∀ (fuel : Nat) (x y : Int) (script : List Operation), (x - prevX).toNat < fuel →
      eqLoop prevX prevY fuel x y script =
        some (x - ((min (x - prevX) (y - prevY)).toNat : Int),
              y - ((min (x - prevX) (y - prevY)).toNat : Int),
              script ++ List.replicate (min (x - prevX) (y - prevY)).toNat DiffEqual) := by
  intro fuel
  induction fuel with
  | zero => intro x y script h; omega
  | succ fuel ih =>
    intro x y script hf
    by_cases hg : x > prevX ∧ y > prevY
    · rw [eqLoop, if_pos hg, ih (x - 1) (y - 1) (script ++ [DiffEqual]) (by omega)]
      have e1 : (min (x - prevX) (y - prevY)).toNat
          = (min (x - 1 - prevX) (y - 1 - prevY)).toNat + 1 := by omega
      rw [e1, List.replicate_succ]
      simp only [List.append_assoc, List.singleton_append]
      congr 2
      · push_cast; ring
      · congr 1; push_cast; ring
    · rw [eqLoop, if_neg hg]
      have e1 : (min (x - prevX) (y - prevY)).toNat = 0 := by omega
      rw [e1]
      simp

theorem walk_append (src dst : List Word) :
    ∀ (ops1 ops2 : List Operation) (x y x1 y1 x2 y2 : Int),
      Walk src dst ops1 x y x1 y1 → Walk src dst ops2 x1 y1 x2 y2 →
      Walk src dst (ops1 ++ ops2) x y x2 y2 := by
  intro ops1
  induction ops1 with
  | nil =>
    intro ops2 x y x1 y1 x2 y2 h1 h2
    obtain ⟨hx, hy⟩ := h1
    rw [hx, hy]
    exact h2
  | cons op ops ih =>
    intro ops2 x y x1 y1 x2 y2 h1 h2
    cases op with
    | DiffEqual => exact ⟨h1.1, ih ops2 _ _ _ _ _ _ h1.2 h2⟩
    | DiffDelete => exact ih ops2 _ _ _ _ _ _ h1 h2
    | DiffInsert => exact ih ops2 _ _ _ _ _ _ h1 h2

/-- A diagonal run is a walk of Equal steps. -/
theorem walk_slide (src dst : List Word) :
    ∀ (j : Nat) (x y : Int),
      (∀ i, x ≤ i → i < x + j → ∃ w, wordAt src i = some w ∧ wordAt dst (i - x + y) = some w) →
      Walk src dst (List.replicate j DiffEqual) x y (x + j) (y + j) := by
  intro j
  induction j with
  | zero => intro x y _; exact ⟨by simp, by simp⟩
  | succ j ih =>
    intro x y h
    rw [List.replicate_succ]
    refine ⟨?_, ?_⟩
    · obtain ⟨w, hw1, hw2⟩ := h x (le_refl _) (by push_cast; omega)
      refine ⟨w, hw1, ?_⟩
      rw [← hw2]; congr 1; ring
    · have := ih (x + 1) (y + 1) (fun i hi1 hi2 => by
        obtain ⟨w, hw1, hw2⟩ := h i (by omega) (by push_cast; omega)
        refine ⟨w, hw1, ?_⟩
        rw [← hw2]; congr 1; ring)
      have e1 : x + 1 + (j : Int) = x + ((j + 1 : Nat) : Int) := by push_cast; ring
      have e2 : y + 1 + (j : Int) = y + ((j + 1 : Nat) : Int) := by push_cast; ring
      rw [e1, e2] at this
      exact this

theorem opCost_append (a b : List Operation) : opCost (a ++ b) = opCost a + opCost b := by
  simp [opCost, List.filter_append]

theorem opCost_replicate (j : Nat) : opCost (List.replicate j DiffEqual) = 0 := by
  induction j with
  | zero => rfl
  | succ j ih => rw [List.replicate_succ]; simp [opCost]

theorem traceOK_mono (src dst : List Word) (tr : List IntMap) (L1 L2 : Nat) (hle : L1 ≤ L2)
    (h : TraceOK src dst tr L2) : TraceOK src dst tr L1 :=
  ⟨le_trans hle h.1, fun h0 => h.2.1 (by omega), fun e he k hk => h.2.2 e (by omega) k hk⟩

/-- A reach recorded at a complete depth is on the trace. -/
theorem onTrace_lvl (src dst : List Word) (tr : List IntMap) (e : Nat)
    (h : TraceOK src dst tr (e + 1)) (k : Int) (hk : inRange e k) (x y : Int)
    (hx : x = lvl tr e k) (hy : x - y = k) : OnTrace src dst tr e x y := by
  cases e with
  | zero =>
    refine ⟨by rw [hy]; exact hk, ?_⟩
    have hk0 : k = 0 := by unfold inRange at hk; omega
    rw [hx, hk0]
  | succ e =>
    refine ⟨by rw [hy]; exact hk, ?_⟩
    rw [hy, hx]
    exact h.2.2 e (by omega) k hk

/-- What the backtrace returns from a point on the trace at depth `e`: the operations of a
walk from the end of the depth-0 run to that point, last first, with `e` non-Equal ones. -/
theorem backtrace_spec (src dst : List Word) (tr : List IntMap) :
    ∀ (e : Nat) (x y : Int) (script : List Operation), TraceOK src dst tr e →
      OnTrace src dst tr e x y →
      ∃ R, backtrace tr e x y script = some (script ++ R) ∧
        Walk src dst R.reverse (lvl tr 0 0) (lvl tr 0 0) x y ∧ opCost R = e := by
  intro e
  induction e with
  | zero =>
    intro x y script _ hon
    obtain ⟨hr, hx⟩ := hon
    refine ⟨[], by simp [backtrace], ?_, rfl⟩
    unfold inRange at hr
    exact ⟨hx.symm, by omega⟩
  | succ e ih =>
    intro x y script hok hon
    obtain ⟨hr, hS⟩ := hon
    obtain ⟨lastV, hlast⟩ := getElem?_some_of_lt tr e (by have := hok.1; omega)
    have hgetD : tr.getD e [] = lastV := by
      simp [List.getD_eq_getElem?_getD, hlast]
    rw [hgetD] at hS
    have hok1 : TraceOK src dst tr e := traceOK_mono src dst tr e (e + 1) (by omega) hok
    have hr2 := hr
    unfold inRange at hr2
    push_cast at hr2
    obtain ⟨hS1, hS2, _⟩ := hS
    by_cases hg : goesDown lastV ((e : Int) + 1) (x - y) = true
    · have hst : stepFrom lastV ((e : Int) + 1) (x - y) = mapGet lastV (x - y + 1) := by
        unfold stepFrom; rw [if_pos hg]
      rw [hst] at hS1 hS2
      have hrp : inRange e (x - y + 1) := by
        rw [goesDown_iff] at hg
        unfold inRange
        omega
      have hon1 : OnTrace src dst tr e (mapGet lastV (x - y + 1))
          (mapGet lastV (x - y + 1) - (x - y + 1)) :=
        onTrace_lvl src dst tr e hok _ hrp _ _ (by rw [← hgetD]; rfl) (by ring)
      have hj : (min (x - mapGet lastV (x - y + 1))
          (y - (mapGet lastV (x - y + 1) - (x - y + 1)))).toNat
          = (x - mapGet lastV (x - y + 1)).toNat := by omega
      obtain ⟨R1, hR1, hW1, hC1⟩ := ih _ _
        (script ++ List.replicate (x - mapGet lastV (x - y + 1)).toNat DiffEqual ++ [DiffInsert])
        hok1 hon1
      refine ⟨List.replicate (x - mapGet lastV (x - y + 1)).toNat DiffEqual ++ [DiffInsert] ++ R1,
        ?_, ?_, ?_⟩
      · rw [backtrace]
        simp only [hlast, hg, if_true]
        rw [eqLoop_spec _ _ _ _ _ _ (Nat.lt_succ_self _), hj]
        simp only []
        rw [if_pos (by omega), hR1]
        simp
      · simp only [List.reverse_append, List.reverse_replicate, List.reverse_cons,
          List.reverse_nil, List.nil_append, List.append_assoc]
        apply walk_append src dst _ _ _ _ _ _ _ _ hW1
        show Walk src dst (List.replicate _ DiffEqual) _ _ _ _
        have hw := walk_slide src dst (x - mapGet lastV (x - y + 1)).toNat
          (mapGet lastV (x - y + 1)) (mapGet lastV (x - y + 1) - (x - y + 1) + 1)
          (fun i hi1 hi2 => by
            obtain ⟨w, hw1, hw2⟩ := hS2 i hi1 (by omega)
            refine ⟨w, hw1, ?_⟩
            rw [← hw2]; congr 1; ring)
        have e1 : mapGet lastV (x - y + 1) + ((x - mapGet lastV (x - y + 1)).toNat : Int) = x := by
          omega
        have e2 : mapGet lastV (x - y + 1) - (x - y + 1) + 1
            + ((x - mapGet lastV (x - y + 1)).toNat : Int) = y := by omega
        rw [e1, e2] at hw
        exact hw
      · rw [opCost_append, opCost_append, opCost_replicate, hC1]
        simp [opCost]
        omega
    · have hst : stepFrom lastV ((e : Int) + 1) (x - y) = mapGet lastV (x - y - 1) + 1 := by
        unfold stepFrom; rw [if_neg hg]
      rw [hst] at hS1 hS2
      have hrp : inRange e (x - y - 1) := by
        rw [goesDown_iff] at hg
        unfold inRange
        omega
      have hon1 : OnTrace src dst tr e (mapGet lastV (x - y - 1))
          (mapGet lastV (x - y - 1) - (x - y - 1)) :=
        onTrace_lvl src dst tr e hok _ hrp _ _ (by rw [← hgetD]; rfl) (by ring)
      have hj : (min (x - mapGet lastV (x - y - 1))
          (y - (mapGet lastV (x - y - 1) - (x - y - 1)))).toNat
          = (x - (mapGet lastV (x - y - 1) + 1)).toNat := by omega
      obtain ⟨R1, hR1, hW1, hC1⟩ := ih _ _
        (script ++ List.replicate (x - (mapGet lastV (x - y - 1) + 1)).toNat DiffEqual
          ++ [DiffDelete]) hok1 hon1
      refine ⟨List.replicate (x - (mapGet lastV (x - y - 1) + 1)).toNat DiffEqual
        ++ [DiffDelete] ++ R1, ?_, ?_, ?_⟩
      · have hg1 : goesDown lastV ((e : Int) + 1) (x - y) = false := by simpa using hg
        rw [backtrace]
        simp only [hlast, hg1, Bool.false_eq_true, if_false]
        rw [eqLoop_spec _ _ _ _ _ _ (Nat.lt_succ_self _), hj]
        simp only []
        rw [if_neg (by omega), hR1]
        simp
      · simp only [List.reverse_append, List.reverse_replicate, List.reverse_cons,
          List.reverse_nil, List.nil_append, List.append_assoc]
        apply walk_append src dst _ _ _ _ _ _ _ _ hW1
        show Walk src dst (List.replicate _ DiffEqual) _ _ _ _
        have hw := walk_slide src dst (x - (mapGet lastV (x - y - 1) + 1)).toNat
          (mapGet lastV (x - y - 1) + 1) (mapGet lastV (x - y - 1) - (x - y - 1))
          (fun i hi1 hi2 => by
            obtain ⟨w, hw1, hw2⟩ := hS2 i hi1 (by omega)
            refine ⟨w, hw1, ?_⟩
            rw [← hw2]; congr 1; ring)
        have e1 : mapGet lastV (x - y - 1) + 1
            + ((x - (mapGet lastV (x - y - 1) + 1)).toNat : Int) = x := by omega
        have e2 : mapGet lastV (x - y - 1) - (x - y - 1)
            + ((x - (mapGet lastV (x - y - 1) + 1)).toNat : Int) = y := by omega
        rw [e1, e2] at hw
        exact hw
      · rw [opCost_append, opCost_append, opCost_replicate, hC1]
        simp [opCost]
        omega


theorem walk_mono (src dst : List Word) :
    ∀ (ops : List Operation) (x y x1 y1 : Int), Walk src dst ops x y x1 y1 →
      x ≤ x1 ∧ y ≤ y1 := by
  intro ops
  induction ops with
  | nil => intro x y x1 y1 h; exact ⟨le_of_eq h.1, le_of_eq h.2⟩
  | cons op ops ih =>
    intro x y x1 y1 h
    cases op with
    | DiffEqual => have := ih _ _ _ _ h.2; omega
    | DiffDelete => have := ih _ _ _ _ h; omega
    | DiffInsert => have := ih _ _ _ _ h; omega

theorem drop_of_getElem? {α : Type} (l : List α) (a : Nat) (w : α) (h : l[a]? = some w) :
    l.drop a = w :: l.drop (a + 1) := by
  have hlt : a < l.length := by
    by_contra hn
    rw [List.getElem?_eq_none (by omega)] at h
    cases h
  rw [List.drop_eq_getElem_cons hlt]
  rw [List.getElem?_eq_getElem hlt] at h
  cases h
  rfl

/-- What the pairing loop returns on a walk that ends in the corner: a script with the
operations of the walk whose two sides are the unread parts of `src` and `dst`. -/
theorem pairLoop_spec (src dst : List Word) :
    ∀ (ops : List Operation) (a b : Nat),
      Walk src dst ops a b src.length dst.length →
      ∃ r, pairLoop src dst ops a b = some r ∧ scriptSrc r = src.drop a ∧
        scriptDst r = dst.drop b ∧ r.map (fun e => e.diffType) = ops := by
  intro ops
  induction ops with
  | nil =>
    intro a b h
    obtain ⟨h1, h2⟩ := h
    have ha : a = src.length := by omega
    have hb : b = dst.length := by omega
    refine ⟨[], rfl, ?_, ?_, rfl⟩
    · rw [ha]; simp [scriptSrc]
    · rw [hb]; simp [scriptDst]
  | cons op ops ih =>
    intro a b h
    cases op with
    | DiffEqual =>
      obtain ⟨⟨w, hw1, hw2⟩, h2⟩ := h
      rw [wordAt_nat] at hw1 hw2
      obtain ⟨r, hr1, hr2, hr3, hr4⟩ := ih (a + 1) (b + 1) (by push_cast; exact h2)
      refine ⟨⟨DiffEqual, w⟩ :: r, ?_, ?_, ?_, ?_⟩
      · simp only [pairLoop, hw1, hr1, Option.map_some']
      · rw [drop_of_getElem? src a w hw1, ← hr2]
        simp [scriptSrc]
      · rw [drop_of_getElem? dst b w hw2, ← hr3]
        simp [scriptDst]
      · simp [hr4]
    | DiffDelete =>
      have hm := walk_mono src dst ops _ _ _ _ h
      obtain ⟨w, hw1⟩ := getElem?_some_of_lt src a (by omega)
      obtain ⟨r, hr1, hr2, hr3, hr4⟩ := ih (a + 1) b (by push_cast; exact h)
      refine ⟨⟨DiffDelete, w⟩ :: r, ?_, ?_, ?_, ?_⟩
      · simp only [pairLoop, hw1, hr1, Option.map_some']
      · rw [drop_of_getElem? src a w hw1, ← hr2]
        simp [scriptSrc]
      · rw [← hr3]
        simp [scriptDst]
      · simp [hr4]
    | DiffInsert =>
      have hm := walk_mono src dst ops _ _ _ _ h
      obtain ⟨w, hw1⟩ := getElem?_some_of_lt dst b (by omega)
      obtain ⟨r, hr1, hr2, hr3, hr4⟩ := ih a (b + 1) (by push_cast; exact h)
      refine ⟨⟨DiffInsert, w⟩ :: r, ?_, ?_, ?_, ?_⟩
      · simp only [pairLoop, hw1, hr1, Option.map_some']
      · rw [← hr2]
        simp [scriptSrc]
      · rw [drop_of_getElem? dst b w hw1, ← hr3]
        simp [scriptDst]
      · simp [hr4]

theorem editCost_eq_opCost (r : List wordDiff) :
    editCost r = opCost (r.map (fun e => e.diffType)) := by
  unfold editCost opCost
  rw [List.filter_map, List.length_map]
  rfl

/-- The engine returns a script; the script is valid, its operations form a walk from the
origin to the corner, and its cost is the smallest depth at which the corner is reachable. -/
theorem shortestEditScript_spec (src dst : List Word) :
    ∃ s D, shortestEditScript src dst = some s ∧ validScript s src dst ∧
      Walk src dst (s.map (fun e => e.diffType)) 0 0 src.length dst.length ∧
      editCost s = D ∧
      (∀ e, e < D → ¬ Reach src dst e src.length dst.length) ∧
      Reach src dst D src.length dst.length := by
  obtain ⟨tr, D, hfw, hlen, hmin, hreach, hok, hS0, hon⟩ := forward_found src dst
  obtain ⟨R, hbt, hW, hC⟩ := backtrace_spec src dst tr D src.length dst.length [] hok hon
  obtain ⟨v0, hv0⟩ := getElem?_some_of_lt tr 0 (by omega)
  have hl0 : mapGet v0 0 = lvl tr 0 0 := by
    unfold lvl
    simp [List.getD_eq_getElem?_getD, hv0]
  have ht0 : 0 ≤ lvl tr 0 0 := hS0.1
  have hW0 : Walk src dst (List.replicate (lvl tr 0 0).toNat DiffEqual) 0 0
      (lvl tr 0 0) (lvl tr 0 0) := by
    have := walk_slide src dst (lvl tr 0 0).toNat 0 0 (fun i h1 h2 => hS0.2.1 i h1 (by omega))
    have e1 : (0 : Int) + ((lvl tr 0 0).toNat : Int) = lvl tr 0 0 := by omega
    rw [e1] at this
    exact this
  have hWall := walk_append src dst _ _ _ _ _ _ _ _ hW0 hW
  obtain ⟨r, hr1, hr2, hr3, hr4⟩ := pairLoop_spec src dst _ 0 0 (by simpa using hWall)
  refine ⟨r, D, ?_, ⟨by simpa using hr2, by simpa using hr3⟩, ?_, ?_, hmin, hreach⟩
  · unfold shortestEditScript
    simp only [hfw, hlen, Nat.add_sub_cancel, hbt, hv0, hl0, List.nil_append,
      List.reverse_append, List.reverse_replicate]
    exact hr1
  · rw [hr4]; exact hWall
  · rw [editCost_eq_opCost, hr4, opCost_append, opCost_replicate, opCost]
    rw [List.filter_reverse, List.length_reverse]
    simpa [opCost] using hC


theorem scriptSrc_append (a b : List wordDiff) : scriptSrc (a ++ b) = scriptSrc a ++ scriptSrc b := by
  simp [scriptSrc, List.filter_append]

theorem scriptDst_append (a b : List wordDiff) : scriptDst (a ++ b) = scriptDst a ++ scriptDst b := by
  simp [scriptDst, List.filter_append]

theorem editCost_append (a b : List wordDiff) : editCost (a ++ b) = editCost a + editCost b := by
  simp [editCost, List.filter_append]

theorem wordAt_append_cons {α : Type} (l1 l2 : List α) (w : α) :
    wordAt (l1 ++ w :: l2) (l1.length : Int) = some w := by
  rw [wordAt_nat, List.getElem?_append_right (le_refl _)]
  simp

theorem insertAll_src (l : List Word) :
    scriptSrc (l.map (fun w => (⟨DiffInsert, w⟩ : wordDiff))) = [] := by
  induction l with
  | nil => rfl
  | cons w l ih => simp [scriptSrc] at ih ⊢

theorem insertAll_dst (l : List Word) :
    scriptDst (l.map (fun w => (⟨DiffInsert, w⟩ : wordDiff))) = l := by
  induction l with
  | nil => rfl
  | cons w l ih => simp [scriptDst] at ih ⊢; exact ih

theorem insertAll_cost (l : List Word) :
    editCost (l.map (fun w => (⟨DiffInsert, w⟩ : wordDiff))) = l.length := by
  induction l with
  | nil => rfl
  | cons w l ih => simp [editCost] at ih ⊢; exact ih

/-- Every valid script is a path to the corner with as many non-diagonal moves as its cost. -/
theorem valid_reach (src dst : List Word) :
    ∀ (t2 t1 : List wordDiff), scriptSrc (t1 ++ t2) = src → scriptDst (t1 ++ t2) = dst →
      Reach src dst (editCost t1) (scriptSrc t1).length (scriptDst t1).length →
      Reach src dst (editCost (t1 ++ t2)) src.length dst.length := by
  intro t2
  induction t2 with
  | nil =>
    intro t1 h1 h2 h
    rw [List.append_nil] at h1 h2 ⊢
    rw [h1, h2] at h
    exact h
  | cons e t2 ih =>
    intro t1 h1 h2 h
    have e0 : t1 ++ e :: t2 = (t1 ++ [e]) ++ t2 := by simp
    rw [e0] at h1 h2 ⊢
    apply ih (t1 ++ [e]) h1 h2
    rw [← e0] at h1 h2
    rw [scriptSrc_append] at h1
    rw [scriptDst_append] at h2
    rw [scriptSrc_append, scriptDst_append, editCost_append]
    obtain ⟨op, w⟩ := e
    cases op with
    | DiffEqual =>
      have hs : scriptSrc (⟨DiffEqual, w⟩ :: t2) = w :: scriptSrc t2 := by simp [scriptSrc]
      have hd : scriptDst (⟨DiffEqual, w⟩ :: t2) = w :: scriptDst t2 := by simp [scriptDst]
      rw [hs] at h1
      rw [hd] at h2
      have a1 := wordAt_append_cons (scriptSrc t1) (scriptSrc t2) w
      have a2 := wordAt_append_cons (scriptDst t1) (scriptDst t2) w
      rw [h1] at a1
      rw [h2] at a2
      have := Reach.diag h a1 a2
      simpa [scriptSrc, scriptDst, editCost] using this
    | DiffDelete =>
      have := Reach.right h
      simpa [scriptSrc, scriptDst, editCost] using this
    | DiffInsert =>
      have := Reach.down h
      simpa [scriptSrc, scriptDst, editCost] using this

/-- The cost of a valid script bounds the depth at which the corner is reachable. -/
theorem validScript_reach (src dst : List Word) (t : List wordDiff)
    (h : validScript t src dst) : Reach src dst (editCost t) src.length dst.length := by
  have := valid_reach src dst t [] (by simpa using h.1) (by simpa using h.2)
    (by simpa [scriptSrc, scriptDst, editCost] using (Reach.start : Reach src dst 0 0 0))
  simpa using this

/-- The Equal words of a script are a common subsequence of its two sides. -/
theorem scriptEqual_sublist (s : List wordDiff) :
    (scriptEqual s).Sublist (scriptSrc s) ∧ (scriptEqual s).Sublist (scriptDst s) := by
  unfold scriptEqual scriptSrc scriptDst
  constructor
  · apply List.Sublist.map
    apply List.monotone_filter_right
    intro e he
    simp only [decide_eq_true_eq] at he ⊢
    rw [he]; decide
  · apply List.Sublist.map
    apply List.monotone_filter_right
    intro e he
    simp only [decide_eq_true_eq] at he ⊢
    rw [he]; decide

/-- Cost and Equal words of a script add up to the lengths of its two sides. -/
theorem editCost_add_equal (s : List wordDiff) :
    editCost s + 2 * (scriptEqual s).length = (scriptSrc s).length + (scriptDst s).length := by
  induction s with
  | nil => rfl
  | cons e s ih =>
    obtain ⟨op, w⟩ := e
    cases op <;> simp [editCost, scriptEqual, scriptSrc, scriptDst] at ih ⊢ <;> omega

theorem sublist_cons_split {α : Type} (a : α) (l : List α) :
    ∀ (dst : List α), (a :: l).Sublist dst →
      ∃ pre post, dst = pre ++ a :: post ∧ l.Sublist post := by
  intro dst
  induction dst with
  | nil => intro h; cases h
  | cons b dst ih =>
    intro h
    cases h with
    | cons _ h1 =>
      obtain ⟨pre, post, hd, hl⟩ := ih h1
      exact ⟨b :: pre, post, by rw [hd]; rfl, hl⟩
    | cons₂ _ h1 => exact ⟨[], dst, rfl, h1⟩

/-- Every common subsequence comes from a valid script that keeps it as Equal words. -/
theorem script_of_common (l src : List Word) (h : l.Sublist src) :
    ∀ dst : List Word, l.Sublist dst →
      ∃ t, validScript t src dst ∧ editCost t + 2 * l.length = src.length + dst.length := by
  induction h with
  | slnil =>
    intro dst _
    refine ⟨dst.map (fun w => ⟨DiffInsert, w⟩), ⟨insertAll_src dst, insertAll_dst dst⟩, ?_⟩
    rw [insertAll_cost]
    simp
  | @cons l1 src1 a _ ih =>
    intro dst hd
    obtain ⟨t, ⟨h1, h2⟩, h3⟩ := ih dst hd
    refine ⟨⟨DiffDelete, a⟩ :: t, ⟨?_, ?_⟩, ?_⟩
    · simp [scriptSrc] at h1 ⊢; exact h1
    · simp [scriptDst] at h2 ⊢; exact h2
    · simp [editCost] at h3 ⊢; omega
  | @cons₂ l1 src1 a _ ih =>
    intro dst hd
    obtain ⟨pre, post, hdst, hpost⟩ := sublist_cons_split a l1 dst hd
    obtain ⟨t, ⟨h1, h2⟩, h3⟩ := ih post hpost
    refine ⟨pre.map (fun w => ⟨DiffInsert, w⟩) ++ ⟨DiffEqual, a⟩ :: t, ⟨?_, ?_⟩, ?_⟩
    · rw [scriptSrc_append, insertAll_src]
      simp [scriptSrc] at h1 ⊢; exact h1
    · rw [scriptDst_append, hdst, insertAll_dst]
      simp [scriptDst] at h2 ⊢; exact h2
    · rw [editCost_append, hdst, insertAll_cost]
      simp [editCost] at h3 ⊢; omega

theorem lcs_nil_right (src : List Word) : lcs src [] = 0 := by
  cases src <;> rfl

theorem lcs_cons_cons (a b : Word) (as bs : List Word) :
    lcs (a :: as) (b :: bs) =
      if a = b then lcs as bs + 1 else max (lcs as (b :: bs)) (lcs (a :: as) bs) := rfl

/-- Some common subsequence has the length `lcs` computes. -/
theorem lcs_attained : ∀ (src dst : List Word),
    ∃ l : List Word, l.Sublist src ∧ l.Sublist dst ∧ l.length = lcs src dst := by
  intro src
  induction src with
  | nil => intro dst; exact ⟨[], List.Sublist.slnil, List.nil_sublist _, rfl⟩
  | cons a as iha =>
    intro dst
    induction dst with
    | nil => exact ⟨[], List.nil_sublist _, List.Sublist.slnil, (lcs_nil_right _).symm⟩
    | cons b bs ihb =>
      rw [lcs_cons_cons]
      by_cases hab : a = b
      · rw [if_pos hab]
        obtain ⟨l, h1, h2, h3⟩ := iha bs
        refine ⟨a :: l, h1.cons₂ a, ?_, by simp [h3]⟩
        rw [hab]
        exact h2.cons₂ b
      · rw [if_neg hab]
        by_cases hm : lcs as (b :: bs) ≤ lcs (a :: as) bs
        · obtain ⟨l, h1, h2, h3⟩ := ihb
          exact ⟨l, h1, h2.cons b, by rw [h3, Nat.max_eq_right hm]⟩
        · obtain ⟨l, h1, h2, h3⟩ := iha (b :: bs)
          exact ⟨l, h1.cons a, h2, by rw [h3, Nat.max_eq_left (by omega)]⟩

/-- No common subsequence is longer than `lcs` computes. -/
theorem lcs_upper : ∀ (src dst l : List Word), l.Sublist src → l.Sublist dst →
    l.length ≤ lcs src dst := by
  intro src
  induction src with
  | nil =>
    intro dst l h1 _
    rw [List.sublist_nil.1 h1]
    exact Nat.zero_le _
  | cons a as iha =>
    intro dst
    induction dst with
    | nil =>
      intro l _ h2
      rw [List.sublist_nil.1 h2]
      exact Nat.zero_le _
    | cons b bs ihb =>
      intro l h1 h2
      rw [lcs_cons_cons]
      by_cases hab : a = b
      · rw [if_pos hab]
        cases l with
        | nil => exact Nat.zero_le _
        | cons c l1 =>
          have t1 : l1.Sublist as := by
            cases h1 with
            | cons _ h => exact (List.sublist_cons_self c l1).trans h
            | cons₂ _ h => exact h
          have t2 : l1.Sublist bs := by
            cases h2 with
            | cons _ h => exact (List.sublist_cons_self c l1).trans h
            | cons₂ _ h => exact h
          have := iha bs l1 t1 t2
          simp only [List.length_cons]
          omega
      · rw [if_neg hab]
        cases h1 with
        | cons _ h => exact le_trans (iha (b :: bs) l h h2) (Nat.le_max_left _ _)
        | cons₂ _ h =>
          cases h2 with
          | cons _ h3 => exact le_trans (ihb _ (h.cons₂ a) h3) (Nat.le_max_right _ _)
          | cons₂ _ h3 => exact absurd rfl hab

/-- The function `lcs` returns the length of a longest common subsequence. -/
theorem lcs_isLCSLength (src dst : List Word) : isLCSLength src dst (lcs src dst) :=
  ⟨lcs_attained src dst, lcs_upper src dst⟩


/-- C4: the script of `shortestEditScript` is valid and has the least number of Insert and
Delete entries among all valid edit scripts from `src` to `dst`; that number is
`len(src) + len(dst) - 2 * LCS(src, dst)`, where `LCS` is the length of a longest common
subsequence. -/
theorem shortestEditScript_minimal (src dst : List Word) :
    ∃ s, shortestEditScript src dst = some s ∧ validScript s src dst ∧
      (∀ t, validScript t src dst → editCost s ≤ editCost t) ∧
      editCost s + 2 * lcs src dst = src.length + dst.length ∧
      isLCSLength src dst (lcs src dst) := by
  obtain ⟨s, D, hs, hv, _, hD, hmin, _⟩ := shortestEditScript_spec src dst
  have hle : ∀ t, validScript t src dst → editCost s ≤ editCost t := by
    intro t ht
    have hr := validScript_reach src dst t ht
    by_contra hn
    exact hmin (editCost t) (by omega) hr
  have hsum := editCost_add_equal s
  rw [hv.1, hv.2] at hsum
  have hsub := scriptEqual_sublist s
  rw [hv.1, hv.2] at hsub
  have hup := lcs_upper src dst (scriptEqual s) hsub.1 hsub.2
  obtain ⟨l, hl1, hl2, hl3⟩ := lcs_attained src dst
  obtain ⟨t, ht, hc⟩ := script_of_common l src hl1 dst hl2
  have := hle t ht
  exact ⟨s, hs, hv, hle, by omega, lcs_isLCSLength src dst⟩

/-- C5: `shortestEditScript` returns a script for every `src` and `dst`, the empty ones
included; its Delete and Equal words are `src` in order, its Insert and Equal words are `dst`
in order, and each Equal entry holds the word found at its position both in `src` and in
`dst`. -/
theorem shortestEditScript_valid (src dst : List Word) :
    (∃ s, shortestEditScript src dst = some s ∧ scriptSrc s = src ∧ scriptDst s = dst ∧
      ∀ s1 w s2, s = s1 ++ ⟨DiffEqual, w⟩ :: s2 →
        src[(scriptSrc s1).length]? = some w ∧ dst[(scriptDst s1).length]? = some w) ∧
    shortestEditScript [] [] = some [] := by
  refine ⟨?_, by decide⟩
  obtain ⟨s, D, hs, hv, _⟩ := shortestEditScript_spec src dst
  refine ⟨s, hs, hv.1, hv.2, ?_⟩
  intro s1 w s2 hsplit
  have h1 := hv.1
  have h2 := hv.2
  rw [hsplit, scriptSrc_append] at h1
  rw [hsplit, scriptDst_append] at h2
  have hs : scriptSrc (⟨DiffEqual, w⟩ :: s2) = w :: scriptSrc s2 := by simp [scriptSrc]
  have hd : scriptDst (⟨DiffEqual, w⟩ :: s2) = w :: scriptDst s2 := by simp [scriptDst]
  rw [hs] at h1
  rw [hd] at h2
  have a1 := wordAt_append_cons (scriptSrc s1) (scriptSrc s2) w
  have a2 := wordAt_append_cons (scriptDst s1) (scriptDst s2) w
  rw [h1, wordAt_nat] at a1
  rw [h2, wordAt_nat] at a2
  exact ⟨a1, a2⟩

/-! ## Affix trimmer, shortcuts, run merger -/

theorem foldl_append_eq (words : List Word) (sb : List Char) :
    words.foldl (fun sb word => sb ++ word) sb = sb ++ words.flatten := by
  induction words generalizing sb with
  | nil => simp
  | cons w words ih => simp [List.foldl_cons, ih, List.flatten_cons]

/-- The segment `merge` builds holds the concatenation of the words. -/
theorem merge_eq (words : List Word) (op : Operation) :
    merge words op = { Type_ := op, Text := words.flatten } := by
  unfold merge
  rw [foldl_append_eq]
  simp

theorem wordsEqualLoop_spec (r2 : List Word) :
    ∀ (r1 : List Word) (i : Nat), i + r1.length = r2.length →
      wordsEqualLoop r2 r1 i = some (decide (r1 = r2.drop i)) := by
  intro r1
  induction r1 with
  | nil =>
    intro i h
    have : r2.drop i = [] := List.drop_eq_nil_of_le (by simp at h; omega)
    simp [wordsEqualLoop, this]
  | cons c rest ih =>
    intro i h
    simp only [List.length_cons] at h
    obtain ⟨c2, hc2⟩ := getElem?_some_of_lt r2 i (by omega)
    rw [drop_of_getElem? r2 i c2 hc2]
    by_cases hc : c = c2
    · simp only [wordsEqualLoop, hc2, hc, ne_eq, not_true_eq_false, if_false]
      rw [ih (i + 1) (by omega)]
      simp
    · simp only [wordsEqualLoop, hc2, ne_eq, hc, not_false_eq_true, if_true]
      simp [hc]

/-- The function `wordsEqual` decides equality of the two word sequences. -/
theorem wordsEqual_spec (r1 r2 : List Word) : wordsEqual r1 r2 = some (decide (r1 = r2)) := by
  unfold wordsEqual
  by_cases h : r1.length = r2.length
  · rw [if_neg (by simpa using h), wordsEqualLoop_spec r2 r1 0 (by omega)]
    simp
  · rw [if_pos h]
    have : r1 ≠ r2 := fun he => h (by rw [he])
    simp [this]

/-- What the loop of `wordsIndex` returns: the first offset from `i` on at which `r2` occurs
in `r1`, or `-1` when there is none. -/
theorem wordsIndexLoop_spec (r1 r2 : List Word) :
    ∀ (fuel i : Nat), i ≤ r1.length + 1 - r2.length → r2.length ≤ r1.length →
      r1.length + 1 - r2.length < fuel + i →
      ∃ r, wordsIndexLoop r1 r2 ((r1.length : Int) - (r2.length : Int)) fuel i = some r ∧
        ((r = -1 ∧ ∀ t : Nat, i ≤ t → t + r2.length ≤ r1.length →
            (r1.take (t + r2.length)).drop t ≠ r2) ∨
         (∃ t : Nat, r = t ∧ i ≤ t ∧ t + r2.length ≤ r1.length ∧
            (r1.take (t + r2.length)).drop t = r2 ∧
            ∀ t1 : Nat, i ≤ t1 → t1 < t → (r1.take (t1 + r2.length)).drop t1 ≠ r2)) := by
  intro fuel
  induction fuel with
  | zero => intro i h1 h2 h3; omega
  | succ fuel ih =>
    intro i h1 h2 h3
    by_cases hi : (i : Int) ≤ (r1.length : Int) - (r2.length : Int)
    · have hs := sliceOf_nat r1 i (i + r2.length) (by omega) (by omega)
      push_cast at hs
      by_cases heq : (r1.take (i + r2.length)).drop i = r2
      · refine ⟨i, ?_, Or.inr ⟨i, rfl, le_refl _, by omega, heq, fun t1 h4 h5 => by omega⟩⟩
        rw [wordsIndexLoop, if_pos hi]
        simp only [hs, wordsEqual_spec, heq, decide_True]
      · obtain ⟨r, hr, hcase⟩ := ih (i + 1) (by omega) h2 (by omega)
        refine ⟨r, ?_, ?_⟩
        · rw [wordsIndexLoop, if_pos hi]
          simp only [hs, wordsEqual_spec, heq, decide_False]
          push_cast at hr
          exact hr
        · rcases hcase with ⟨hr1, hall⟩ | ⟨t, ht1, ht2, ht3, ht4, ht5⟩
          · refine Or.inl ⟨hr1, fun t h4 h5 => ?_⟩
            by_cases hti : t = i
            · rw [hti]; exact heq
            · exact hall t (by omega) h5
          · refine Or.inr ⟨t, ht1, by omega, ht3, ht4, fun t1 h4 h5 => ?_⟩
            by_cases hti : t1 = i
            · rw [hti]; exact heq
            · exact ht5 t1 (by omega) h5
    · refine ⟨-1, ?_, Or.inl ⟨rfl, fun t h4 h5 => by omega⟩⟩
      rw [wordsIndexLoop, if_neg hi]

/-- What `wordsIndex` returns when `r2` is not longer than `r1`. -/
theorem wordsIndex_spec (r1 r2 : List Word) (h : r2.length ≤ r1.length) :
    ∃ r, wordsIndex r1 r2 = some r ∧
      ((r = -1 ∧ ∀ t : Nat, t + r2.length ≤ r1.length →
          (r1.take (t + r2.length)).drop t ≠ r2) ∨
       (∃ t : Nat, r = t ∧ t + r2.length ≤ r1.length ∧
          (r1.take (t + r2.length)).drop t = r2 ∧
          ∀ t1 : Nat, t1 < t → (r1.take (t1 + r2.length)).drop t1 ≠ r2)) := by
  obtain ⟨r, hr, hcase⟩ := wordsIndexLoop_spec r1 r2
    ((r1.length : Int) - (r2.length : Int) + 1).toNat.succ 0 (by omega) h (by omega)
  refine ⟨r, ?_, ?_⟩
  · unfold wordsIndex
    simpa using hr
  · rcases hcase with ⟨hr1, hall⟩ | ⟨t, ht1, _, ht3, ht4, ht5⟩
    · exact Or.inl ⟨hr1, fun t h5 => hall t (Nat.zero_le _) h5⟩
    · exact Or.inr ⟨t, ht1, ht3, ht4, fun t1 h5 => ht5 t1 (Nat.zero_le _) h5⟩

/-- What the loop of `commonPrefixLen` returns. -/
theorem commonPrefixLenLoop_spec (text1 text2 : List Word) :
    ∀ (fuel n : Nat), text1.length < fuel + n →
      (∀ t, t < n → t < text1.length ∧ t < text2.length ∧ text1[t]? = text2[t]?) →
      ∃ p, commonPrefixLenLoop text1 text2 fuel n = some p ∧
        p ≤ text1.length ∧ p ≤ text2.length ∧
        (∀ t, t < p → text1[t]? = text2[t]?) ∧
        (p < text1.length → p < text2.length → text1[p]? ≠ text2[p]?) := by
  intro fuel
  induction fuel with
  | zero =>
    intro n h1 h2
    have := (h2 (n - 1))
    omega
  | succ fuel ih =>
    intro n h1 h2
    by_cases hg : n < text1.length ∧ n < text2.length
    · obtain ⟨a, ha⟩ := getElem?_some_of_lt text1 n hg.1
      obtain ⟨b, hb⟩ := getElem?_some_of_lt text2 n hg.2
      by_cases hab : a = b
      · obtain ⟨p, hp, h3⟩ := ih (n + 1) (by omega) (fun t ht => by
          by_cases htn : t = n
          · rw [htn, ha, hb, hab]; exact ⟨hg.1, hg.2, rfl⟩
          · exact h2 t (by omega))
        refine ⟨p, ?_, h3⟩
        simp only [commonPrefixLenLoop, if_pos hg, ha, hb, hab, ne_eq, not_true_eq_false,
          if_false]
        exact hp
      · refine ⟨n, ?_, le_of_lt hg.1, le_of_lt hg.2, fun t ht => (h2 t ht).2.2, ?_⟩
        · simp only [commonPrefixLenLoop, if_pos hg, ha, hb, ne_eq, hab, not_false_eq_true,
            if_true]
        · intro _ _
          rw [ha, hb]
          simpa using hab
    · refine ⟨n, ?_, ?_, ?_, fun t ht => (h2 t ht).2.2, fun h3 h4 => absurd ⟨h3, h4⟩ hg⟩
      · simp only [commonPrefixLenLoop, if_neg hg]
      · by_cases hn : n = 0
        · omega
        · have := h2 (n - 1) (by omega); omega
      · by_cases hn : n = 0
        · omega
        · have := h2 (n - 1) (by omega); omega

/-- The function `commonPrefixLen` returns the length of the longest common leading run. -/
theorem commonPrefixLen_spec (text1 text2 : List Word) :
    ∃ p, commonPrefixLen text1 text2 = some p ∧ p ≤ text1.length ∧ p ≤ text2.length ∧
      text1.take p = text2.take p ∧
      (p < text1.length → p < text2.length → text1[p]? ≠ text2[p]?) := by
  obtain ⟨p, hp, h1, h2, h3, h4⟩ := commonPrefixLenLoop_spec text1 text2 (text1.length + 1) 0
    (by omega) (fun t ht => by omega)
  refine ⟨p, hp, h1, h2, ?_, h4⟩
  apply List.ext_getElem?
  intro t
  rw [List.getElem?_take, List.getElem?_take]
  by_cases ht : t < p
  · rw [if_pos ht, if_pos ht]; exact h3 t ht
  · rw [if_neg ht, if_neg ht]

/-- What the loop of `commonSuffixLength` returns. -/
theorem commonSuffixLengthLoop_spec (text1 text2 : List Word) :
    ∀ (fuel n : Nat), n ≤ text1.length → n ≤ text2.length → text1.length < fuel + n →
      (∀ t, t < n → text1[text1.length - 1 - t]? = text2[text2.length - 1 - t]?) →
      ∃ q, commonSuffixLengthLoop text1 text2 fuel
          ((text1.length : Int) - n) ((text2.length : Int) - n) n = some q ∧
        q ≤ text1.length ∧ q ≤ text2.length ∧
        (∀ t, t < q → text1[text1.length - 1 - t]? = text2[text2.length - 1 - t]?) ∧
        (q < text1.length → q < text2.length →
          text1[text1.length - 1 - q]? ≠ text2[text2.length - 1 - q]?) := by
  intro fuel
  induction fuel with
  | zero => intro n h1 h2 h3; omega
  | succ fuel ih =>
    intro n h1 h2 h3 h4
    by_cases hg : (text1.length : Int) - n - 1 < 0 ∨ (text2.length : Int) - n - 1 < 0
    · refine ⟨n, ?_, h1, h2, h4, fun h5 h6 => by omega⟩
      simp only [commonSuffixLengthLoop, if_pos hg]
    · have e1 : (text1.length : Int) - n - 1 = ((text1.length - 1 - n : Nat) : Int) := by omega
      have e2 : (text2.length : Int) - n - 1 = ((text2.length - 1 - n : Nat) : Int) := by omega
      obtain ⟨a, ha⟩ := getElem?_some_of_lt text1 (text1.length - 1 - n) (by omega)
      obtain ⟨b, hb⟩ := getElem?_some_of_lt text2 (text2.length - 1 - n) (by omega)
      have ha1 : wordAt text1 ((text1.length : Int) - n - 1) = some a := by
        rw [e1, wordAt_nat, ha]
      have hb1 : wordAt text2 ((text2.length : Int) - n - 1) = some b := by
        rw [e2, wordAt_nat, hb]
      by_cases hab : a = b
      · obtain ⟨q, hq, h5⟩ := ih (n + 1) (by omega) (by omega) (by omega) (fun t ht => by
          by_cases htn : t = n
          · rw [htn, ha, hb, hab]
          · exact h4 t (by omega))
        refine ⟨q, ?_, h5⟩
        simp only [commonSuffixLengthLoop, if_neg hg, ha1, hb1, hab, ne_eq, not_true_eq_false,
          if_false]
        rw [← hq]
        congr 1 <;> push_cast <;> ring
      · refine ⟨n, ?_, h1, h2, h4, ?_⟩
        · simp only [commonSuffixLengthLoop, if_neg hg, ha1, hb1, ne_eq, hab,
            not_false_eq_true, if_true]
        · intro _ _
          rw [ha, hb]
          simpa using hab

/-- The function `commonSuffixLength` returns the length of the longest common trailing run. -/
theorem commonSuffixLength_spec (text1 text2 : List Word) :
    ∃ q, commonSuffixLength text1 text2 = some q ∧ q ≤ text1.length ∧ q ≤ text2.length ∧
      text1.drop (text1.length - q) = text2.drop (text2.length - q) ∧
      (q < text1.length → q < text2.length →
        text1[text1.length - 1 - q]? ≠ text2[text2.length - 1 - q]?) := by
  obtain ⟨q, hq, h1, h2, h3, h4⟩ := commonSuffixLengthLoop_spec text1 text2
    (text1.length + 1) 0 (Nat.zero_le _) (Nat.zero_le _) (by omega) (fun t ht => by omega)
  refine ⟨q, ?_, h1, h2, ?_, h4⟩
  · unfold commonSuffixLength
    simpa using hq
  · apply List.ext_getElem?
    intro t
    rw [List.getElem?_drop, List.getElem?_drop]
    by_cases ht : t < q
    · have := h3 (q - 1 - t) (by omega)
      have e1 : text1.length - 1 - (q - 1 - t) = text1.length - q + t := by omega
      have e2 : text2.length - 1 - (q - 1 - t) = text2.length - q + t := by omega
      rw [e1, e2] at this
      exact this
    · rw [List.getElem?_eq_none (by omega), List.getElem?_eq_none (by omega)]


theorem slice_cons {α : Type} (l : List α) (a b : Nat) (x : α) (h : l[a]? = some x)
    (hab : a < b) : (l.take b).drop a = x :: (l.take b).drop (a + 1) := by
  apply drop_of_getElem?
  rw [List.getElem?_take, if_pos hab, h]

theorem slice_self {α : Type} (l : List α) (b : Nat) : (l.take b).drop b = [] :=
  List.drop_eq_nil_of_le (by rw [List.length_take]; omega)

/-- What the inner loop of the run merger returns: the end of the run of entries with the
type of entry `i`, and the buffer with the words after `i` up to there appended. -/
theorem runScan_spec (script : List wordDiff) :
    ∀ (fuel i : Nat) (sb : List Char), i < script.length → script.length ≤ fuel + i →
      ∃ j, runScan script fuel i sb =
          some (j, sb ++ (((script.take (j + 1)).drop (i + 1)).map (fun e => e.word)).flatten) ∧
        i ≤ j ∧ j < script.length ∧
        (∀ t, i ≤ t → t ≤ j →
          (script[t]?).map (fun e => e.diffType) = (script[i]?).map (fun e => e.diffType)) ∧
        (∀ e1 e2, script[j + 1]? = some e1 → script[j]? = some e2 →
          e1.diffType ≠ e2.diffType) := by
  intro fuel
  induction fuel with
  | zero => intro i sb h1 h2; omega
  | succ fuel ih =>
    intro i sb h1 h2
    obtain ⟨b, hb⟩ := getElem?_some_of_lt script i h1
    by_cases hg : script.length > i + 1
    · obtain ⟨a, ha⟩ := getElem?_some_of_lt script (i + 1) hg
      by_cases hab : a.diffType = b.diffType
      · obtain ⟨j, hj, h3, h4, h5, h6⟩ := ih (i + 1) (sb ++ a.word) hg (by omega)
        refine ⟨j, ?_, by omega, h4, ?_, h6⟩
        · simp only [runScan, if_pos hg, ha, hb, hab, if_true]
          rw [hj, slice_cons script (i + 1) (j + 1) a ha (by omega)]
          simp
        · intro t ht1 ht2
          by_cases hti : t = i
          · rw [hti]
          · rw [h5 t (by omega) ht2, ha, hb]
            simp [hab]
      · refine ⟨i, ?_, le_refl _, h1, ?_, ?_⟩
        · simp only [runScan, if_pos hg, ha, hb, hab, if_false]
          rw [slice_self]
          simp
        · intro t ht1 ht2
          have : t = i := by omega
          rw [this]
        · intro e1 e2 he1 he2
          rw [ha] at he1
          rw [hb] at he2
          cases he1; cases he2
          exact hab
    · refine ⟨i, ?_, le_refl _, h1, ?_, ?_⟩
      · simp only [runScan, if_neg hg]
        rw [slice_self]
        simp
      · intro t ht1 ht2
        have : t = i := by omega
        rw [this]
      · intro e1 e2 he1 _
        rw [List.getElem?_eq_none (by omega)] at he1
        cases he1

theorem oldText_concat (ds : List Diff) (d : Diff) :
    oldText (ds ++ [d]) = oldText ds ++ (if d.Type_ ≠ DiffInsert then d.Text else []) := by
  unfold oldText
  rw [List.filter_append, List.map_append, List.flatten_append]
  by_cases h : d.Type_ = DiffInsert
  · simp [h]
  · simp [h]

theorem newText_concat (ds : List Diff) (d : Diff) :
    newText (ds ++ [d]) = newText ds ++ (if d.Type_ ≠ DiffDelete then d.Text else []) := by
  unfold newText
  rw [List.filter_append, List.map_append, List.flatten_append]
  by_cases h : d.Type_ = DiffDelete
  · simp [h]
  · simp [h]

theorem scriptSrc_same (seg : List wordDiff) (T : Operation) (h : ∀ e ∈ seg, e.diffType = T) :
    scriptSrc seg = if T ≠ DiffInsert then seg.map (fun e => e.word) else [] := by
  induction seg with
  | nil => simp [scriptSrc]
  | cons e seg ih =>
    have he := h e (List.mem_cons_self _ _)
    have ih1 := ih (fun e1 h1 => h e1 (List.mem_cons_of_mem _ h1))
    by_cases hT : T = DiffInsert
    · simp [hT] at ih1 ⊢
      simp [scriptSrc, he, hT] at ih1 ⊢
      exact ih1
    · simp [hT] at ih1 ⊢
      simp [scriptSrc, he, hT] at ih1 ⊢
      exact ih1

theorem scriptDst_same (seg : List wordDiff) (T : Operation) (h : ∀ e ∈ seg, e.diffType = T) :
    scriptDst seg = if T ≠ DiffDelete then seg.map (fun e => e.word) else [] := by
  induction seg with
  | nil => simp [scriptDst]
  | cons e seg ih =>
    have he := h e (List.mem_cons_self _ _)
    have ih1 := ih (fun e1 h1 => h e1 (List.mem_cons_of_mem _ h1))
    by_cases hT : T = DiffDelete
    · simp [hT] at ih1 ⊢
      simp [scriptDst, he, hT] at ih1 ⊢
      exact ih1
    · simp [hT] at ih1 ⊢
      simp [scriptDst, he, hT] at ih1 ⊢
      exact ih1


/-- The run merger keeps its invariant and ends. -/
theorem mergeLoop_spec (script : List wordDiff) :
    ∀ (fuel i : Nat) (diffs : List Diff), i ≤ script.length → script.length < fuel + i →
      MergeInv script i diffs →
      ∃ ds, mergeLoop script fuel i diffs = some ds ∧ MergeInv script script.length ds := by
  intro fuel
  induction fuel with
  | zero => intro i diffs h1 h2; omega
  | succ fuel ih =>
    intro i diffs h1 h2 hinv
    by_cases hi : i < script.length
    · obtain ⟨e, he⟩ := getElem?_some_of_lt script i hi
      obtain ⟨j, hj, h3, h4, h5, h6⟩ := runScan_spec script (script.length + 1) i e.word hi
        (by omega)
      obtain ⟨e2, he2⟩ := getElem?_some_of_lt script j h4
      have hT : e2.diffType = e.diffType := by
        have := h5 j h3 (le_refl _)
        rw [he2, he] at this
        simpa using this
      have htext : e.word ++ (((script.take (j + 1)).drop (i + 1)).map
          (fun e => e.word)).flatten
          = (((script.take (j + 1)).drop i).map (fun e => e.word)).flatten := by
        rw [slice_cons script i (j + 1) e he (by omega)]
        simp
      rw [htext] at hj
      have hunf : mergeLoop script (fuel + 1) i diffs = mergeLoop script fuel (j + 1)
          (diffs ++ [⟨e.diffType,
            (((script.take (j + 1)).drop i).map (fun e => e.word)).flatten⟩]) := by
        rw [mergeLoop, if_pos hi]
        simp only [he, hj, he2, hT]
      rw [hunf]
      apply ih (j + 1) _ (by omega) (by omega)
      obtain ⟨i1, i2, i3, i4, i5, i6⟩ := hinv
      have hseg : ∀ e1 ∈ (script.take (j + 1)).drop i, e1.diffType = e.diffType := by
        intro e1 he1
        obtain ⟨t, ht1, ht2, ht3⟩ := mem_slice script i (j + 1) e1 he1
        have := h5 t ht1 (by omega)
        rw [ht3, he] at this
        simpa using this
      have htake : script.take (j + 1) = script.take i ++ (script.take (j + 1)).drop i :=
        (take_append_slice script i (j + 1) (by omega)).symm
      refine ⟨?_, ?_, ?_, ?_, ?_, ?_⟩
      · rw [oldText_concat, i1, htake, scriptSrc_append, List.flatten_append,
          scriptSrc_same _ _ hseg, ← htake]
        by_cases hI : e.diffType = DiffInsert
        · simp [hI]
        · simp [hI]
      · rw [newText_concat, i2, htake, scriptDst_append, List.flatten_append,
          scriptDst_same _ _ hseg, ← htake]
        by_cases hI : e.diffType = DiffDelete
        · simp [hI]
        · simp [hI]
      · apply chain_concat _ _ _ i3
        intro d0 hd0
        exact fun hc => (i4 d0 hd0).2.2 e he hc.symm
      · intro d hd
        rw [List.getLast?_concat] at hd
        cases hd
        refine ⟨by omega, ?_, ?_⟩
        · simp [he2, hT]
        · intro e1 he1
          have := h6 e1 e2 he1 he2
          rw [hT] at this
          exact this
      · intro d hd
        cases diffs with
        | nil =>
          simp at hd
          have hi0 : i = 0 := by
            by_contra hn
            exact i6 (by omega) rfl
          rw [← hd]
          rw [hi0] at he
          simp [he]
        | cons d0 rest =>
          simp at hd
          exact i5 d (by simp [hd])
      · intro _; simp
    · have hi2 : i = script.length := by omega
      refine ⟨diffs, ?_, hi2 ▸ hinv⟩
      rw [mergeLoop, if_neg hi]

/-- The run merger of `compute` on a script: the two sides of the script are kept, no two
adjacent segments share a type, and the first and last segments carry the types of the first
and last entries. -/
theorem mergeRuns_spec (script : List wordDiff) :
    ∃ ds, mergeLoop script (script.length + 1) 0 [] = some ds ∧
      oldText ds = (scriptSrc script).flatten ∧ newText ds = (scriptDst script).flatten ∧
      coalesced ds ∧
      (∀ d ∈ ds.head?, (script.head?).map (fun e => e.diffType) = some d.Type_) ∧
      (∀ d ∈ ds.getLast?, (script.getLast?).map (fun e => e.diffType) = some d.Type_) ∧
      (script ≠ [] → ds ≠ []) := by
  obtain ⟨ds, hds, h1, h2, h3, h4, h5, h6⟩ := mergeLoop_spec script (script.length + 1) 0 []
    (Nat.zero_le _) (by omega)
    ⟨by simp [oldText, scriptSrc], by simp [newText, scriptDst], List.chain'_nil,
      by simp, by simp, fun h => by omega⟩
  rw [List.take_length] at h1 h2
  refine ⟨ds, hds, h1, h2, h3, ?_, ?_, ?_⟩
  · intro d hd
    rw [List.head?_eq_getElem?]
    exact h5 d hd
  · intro d hd
    rw [List.getLast?_eq_getElem?]
    exact (h4 d hd).2.1
  · intro hne
    apply h6
    exact List.length_pos.2 hne


theorem sliceOf_zero {α : Type} (l : List α) (t : Nat) (h : t ≤ l.length) :
    sliceOf l 0 (t : Int) = some (l.take t) := by
  have := sliceOf_nat l 0 t (Nat.zero_le _) h
  simpa using this

theorem sliceOf_to_end {α : Type} (l : List α) (t : Nat) (h : t ≤ l.length) :
    sliceOf l (t : Int) (l.length : Int) = some (l.drop t) := by
  have := sliceOf_nat l t l.length h (le_refl _)
  simpa using this

theorem split_three {α : Type} (l : List α) (t k : Nat) :
    l.take t ++ ((l.take (t + k)).drop t ++ l.drop (t + k)) = l := by
  rw [← List.append_assoc, take_append_slice l t (t + k) (by omega), List.take_append_drop]

/-- The containment shortcut: the three segments it returns and their two sides. -/
theorem contain_texts (long short : List Word) (t : Nat) (op : Operation)
    (hs : (long.take (t + short.length)).drop t = short) :
    (op = DiffDelete →
      oldText [merge (long.take t) op, merge short DiffEqual,
        merge (long.drop (t + short.length)) op] = long.flatten ∧
      newText [merge (long.take t) op, merge short DiffEqual,
        merge (long.drop (t + short.length)) op] = short.flatten) ∧
    (op = DiffInsert →
      oldText [merge (long.take t) op, merge short DiffEqual,
        merge (long.drop (t + short.length)) op] = short.flatten ∧
      newText [merge (long.take t) op, merge short DiffEqual,
        merge (long.drop (t + short.length)) op] = long.flatten) := by
  have h3 : long.flatten = (long.take t).flatten ++ (short.flatten
      ++ (long.drop (t + short.length)).flatten) := by
    have h0 := split_three long t short.length
    rw [hs] at h0
    rw [← List.flatten_append, ← List.flatten_append, h0]
  constructor
  · intro hop
    rw [hop, h3]
    simp [oldText, newText, merge_eq]
  · intro hop
    rw [hop, h3]
    simp [oldText, newText, merge_eq]

/-- The engine path of `compute`: the run-merged script keeps the two sides, is coalesced, and
does not start (end) with an Equal segment when the first (last) words differ. -/
theorem engine_path (text1 text2 : List Word) (hne : text1 ≠ []) :
    ∃ script ds, shortestEditScript text1 text2 = some script ∧
      mergeLoop script (script.length + 1) 0 [] = some ds ∧
      oldText ds = text1.flatten ∧ newText ds = text2.flatten ∧ coalesced ds ∧ ds ≠ [] ∧
      ((∀ a b, text1.head? = some a → text2.head? = some b → a ≠ b) →
        ∀ d ∈ ds.head?, d.Type_ ≠ DiffEqual) ∧
      ((∀ a b, text1.getLast? = some a → text2.getLast? = some b → a ≠ b) →
        ∀ d ∈ ds.getLast?, d.Type_ ≠ DiffEqual) := by
  obtain ⟨s, D, hs, hv, hW, _⟩ := shortestEditScript_spec text1 text2
  obtain ⟨ds, hds, h1, h2, h3, h4, h5, h6⟩ := mergeRuns_spec s
  have hsne : s ≠ [] := by
    intro h
    rw [h] at hv
    exact hne hv.1.symm
  refine ⟨s, ds, hs, hds, by rw [h1, hv.1], by rw [h2, hv.2], h3, h6 hsne, ?_, ?_⟩
  · intro hhead d hd hE
    have := h4 d hd
    cases s with
    | nil => exact hsne rfl
    | cons e s2 =>
      simp only [List.head?_cons, Option.map_some', Option.some.injEq] at this
      rw [hE] at this
      simp only [List.map_cons, this] at hW
      obtain ⟨⟨w, hw1, hw2⟩, _⟩ := hW
      have e1 : text1.head? = some w := by
        rw [List.head?_eq_getElem?, ← hw1]; rfl
      have e2 : text2.head? = some w := by
        rw [List.head?_eq_getElem?, ← hw2]; rfl
      exact hhead w w e1 e2 rfl
  · intro hlast d hd hE
    have := h5 d hd
    rw [hE] at this
    cases hl : s.getLast? with
    | none => rw [hl] at this; cases this
    | some e =>
      rw [hl] at this
      simp only [Option.map_some', Option.some.injEq] at this
      have hsplit := List.dropLast_append_getLast? e hl
      have hv1 := hv.1
      have hv2 := hv.2
      rw [← hsplit, scriptSrc_append] at hv1
      rw [← hsplit, scriptDst_append] at hv2
      have e1 : scriptSrc [e] = [e.word] := by simp [scriptSrc, this]
      have e2 : scriptDst [e] = [e.word] := by simp [scriptDst, this]
      rw [e1] at hv1
      rw [e2] at hv2
      have l1 : text1.getLast? = some e.word := by rw [← hv1, List.getLast?_concat]
      have l2 : text2.getLast? = some e.word := by rw [← hv2, List.getLast?_concat]
      exact hlast _ _ l1 l2 rfl

theorem coalesced_three (a b c : List Char) (op : Operation) (hop : op ≠ DiffEqual) :
    coalesced [⟨op, a⟩, ⟨DiffEqual, b⟩, ⟨op, c⟩] := by
  unfold coalesced
  simp only [List.chain'_cons, List.chain'_singleton, and_true]
  exact ⟨hop, fun h => hop h.symm⟩

/-- What `compute` returns on one orientation: `long` is the longer input and `op` its
operation. -/
theorem compute_core (text1 text2 long short : List Word) (op : Operation)
    (hlen : short.length ≤ long.length) (hne : short ≠ [] → text1 ≠ [])
    (hop : (op = DiffDelete ∧ long = text1 ∧ short = text2) ∨
      (op = DiffInsert ∧ long = text2 ∧ short = text1)) :
    ∃ ds, (match wordsIndex long short with
      | none => none
      | some i =>
        if i ≠ -1 then
          match sliceOf long 0 i,
                sliceOf long (i + (short.length : Int)) long.length with
          | some a, some b => some [merge a op, merge short DiffEqual, merge b op]
          | _, _ => none
        else if short.length = 1 then
          some [merge text1 DiffDelete, merge text2 DiffInsert]
        else
          match shortestEditScript text1 text2 with
          | none => none
          | some script => mergeLoop script (script.length + 1) 0 []) = some ds ∧
      oldText ds = text1.flatten ∧ newText ds = text2.flatten ∧ coalesced ds ∧ ds ≠ [] ∧
      ((∀ a b, text1.head? = some a → text2.head? = some b → a ≠ b) →
        ∀ d ∈ ds.head?, d.Type_ ≠ DiffEqual) ∧
      ((∀ a b, text1.getLast? = some a → text2.getLast? = some b → a ≠ b) →
        ∀ d ∈ ds.getLast?, d.Type_ ≠ DiffEqual) := by
  have hopE : op ≠ DiffEqual := by
    rcases hop with h | h <;> rw [h.1] <;> decide
  obtain ⟨r, hr, hcase⟩ := wordsIndex_spec long short hlen
  rw [hr]
  rcases hcase with ⟨hr1, hall⟩ | ⟨t, ht1, ht2, ht3, _⟩
  · have hs0 : short ≠ [] := by
      intro h
      apply hall 0 (by rw [h]; simp)
      rw [h]; simp
    by_cases h1 : short.length = 1
    · refine ⟨[merge text1 DiffDelete, merge text2 DiffInsert], ?_, ?_, ?_, ?_, by simp, ?_, ?_⟩
      · simp only [hr1, ne_eq, not_true_eq_false, if_false, h1, if_true]
      · simp [oldText, merge_eq]
      · simp [newText, merge_eq]
      · unfold coalesced
        simp [merge_eq]
      · intro _ d hd
        simp at hd
        rw [← hd, merge_eq]
        exact fun h => Operation.noConfusion h
      · intro _ d hd
        simp at hd
        rw [← hd, merge_eq]
        exact fun h => Operation.noConfusion h
    · obtain ⟨script, ds, hs, hds, h2, h3, h4, h5, h6, h7⟩ := engine_path text1 text2 (hne hs0)
      refine ⟨ds, ?_, h2, h3, h4, h5, h6, h7⟩
      simp only [hr1, ne_eq, not_true_eq_false, if_false, h1, hs]
      exact hds
  · have hne1 : r ≠ -1 := by omega
    have hs1 := sliceOf_zero long t (by omega)
    have hs2 : sliceOf long ((t : Int) + (short.length : Int)) long.length
        = some (long.drop (t + short.length)) := by
      have := sliceOf_to_end long (t + short.length) ht2
      push_cast at this
      exact this
    refine ⟨[merge (long.take t) op, merge short DiffEqual,
      merge (long.drop (t + short.length)) op], ?_, ?_, ?_, ?_, by simp, ?_, ?_⟩
    · simp only [if_pos hne1]
      rw [ht1, hs1, hs2]
    · rcases hop with ⟨h1, h2, h3⟩ | ⟨h1, h2, h3⟩
      · rw [← h2]; exact ((contain_texts long short t op ht3).1 h1).1
      · rw [← h3]; exact ((contain_texts long short t op ht3).2 h1).1
    · rcases hop with ⟨h1, h2, h3⟩ | ⟨h1, h2, h3⟩
      · rw [← h3]; exact ((contain_texts long short t op ht3).1 h1).2
      · rw [← h2]; exact ((contain_texts long short t op ht3).2 h1).2
    · simp only [merge_eq]
      exact coalesced_three _ _ _ op hopE
    · intro _ d hd
      simp at hd
      rw [← hd, merge_eq]
      exact hopE
    · intro _ d hd
      simp at hd
      rw [← hd, merge_eq]
      exact hopE

/-- What `compute` returns: a non-empty coalesced list of segments that keeps the two sides and
neither starts nor ends with an Equal segment when the first (last) words of the inputs
differ. -/
theorem compute_spec (text1 text2 : List Word) :
    ∃ ds, compute text1 text2 = some ds ∧
      oldText ds = text1.flatten ∧ newText ds = text2.flatten ∧ coalesced ds ∧ ds ≠ [] ∧
      ((∀ a b, text1.head? = some a → text2.head? = some b → a ≠ b) →
        ∀ d ∈ ds.head?, d.Type_ ≠ DiffEqual) ∧
      ((∀ a b, text1.getLast? = some a → text2.getLast? = some b → a ≠ b) →
        ∀ d ∈ ds.getLast?, d.Type_ ≠ DiffEqual) := by
  by_cases hlen : text1.length > text2.length
  · have := compute_core text1 text2 text1 text2 DiffDelete (by omega)
      (fun _ h => by rw [h] at hlen; simp at hlen) (Or.inl ⟨rfl, rfl, rfl⟩)
    unfold compute
    simp only [hlen, if_true]
    exact this
  · have := compute_core text1 text2 text2 text1 DiffInsert (by omega)
      (fun h => h) (Or.inr ⟨rfl, rfl, rfl⟩)
    unfold compute
    simp only [hlen, if_false]
    exact this

/-! ## The top level -/

theorem oldText_append (a b : List Diff) : oldText (a ++ b) = oldText a ++ oldText b := by
  simp [oldText, List.filter_append]

theorem newText_append (a b : List Diff) : newText (a ++ b) = newText a ++ newText b := by
  simp [newText, List.filter_append]

theorem oldText_equal (ws : List Word) : oldText [merge ws DiffEqual] = ws.flatten := by
  simp [oldText, merge_eq]

theorem newText_equal (ws : List Word) : newText [merge ws DiffEqual] = ws.flatten := by
  simp [newText, merge_eq]

/-- Re-attaching the Equal segments of the trimmed affixes around a core that neither starts
nor ends with an Equal segment keeps the result coalesced. -/
theorem coalesced_attach (core : List Diff) (pfx sfx : List Word) (hc : coalesced core)
    (hne : core ≠ []) (hh : ∀ d ∈ core.head?, d.Type_ ≠ DiffEqual)
    (hl : ∀ d ∈ core.getLast?, d.Type_ ≠ DiffEqual) :
    coalesced ((if pfx.length > 0 then [merge pfx DiffEqual] ++ core else core) ++
      (if sfx.length > 0 then [merge sfx DiffEqual] else [])) := by
  have h1 : coalesced (if pfx.length > 0 then [merge pfx DiffEqual] ++ core else core) := by
    by_cases hp : pfx.length > 0
    · rw [if_pos hp]
      unfold coalesced
      rw [List.chain'_append]
      refine ⟨List.chain'_singleton _, hc, ?_⟩
      intro x hx y hy
      simp at hx
      rw [← hx, merge_eq]
      exact fun h => hh y hy h.symm
    · rw [if_neg hp]; exact hc
  have h2 : ∀ d ∈ (if pfx.length > 0 then [merge pfx DiffEqual] ++ core else core).getLast?,
      d.Type_ ≠ DiffEqual := by
    intro d hd
    by_cases hp : pfx.length > 0
    · rw [if_pos hp, List.getLast?_append_of_ne_nil _ hne] at hd
      exact hl d hd
    · rw [if_neg hp] at hd
      exact hl d hd
  by_cases hs : sfx.length > 0
  · rw [if_pos hs]
    unfold coalesced
    rw [List.chain'_append]
    refine ⟨h1, List.chain'_singleton _, ?_⟩
    intro x hx y hy
    simp at hy
    rw [← hy, merge_eq]
    exact h2 x hx
  · rw [if_neg hs, List.append_nil]
    exact h1

/-- What `diff` returns: a coalesced list of segments whose old side is `src` and whose new
side is `dst`. -/
theorem diff_spec (src dst : List Word) :
    ∃ ds, diff src dst = some ds ∧ oldText ds = src.flatten ∧ newText ds = dst.flatten ∧
      coalesced ds := by
  obtain ⟨p, hp, hp1, hp2, hp3, hp4⟩ := commonPrefixLen_spec src dst
  obtain ⟨q, hq, hq1, hq2, hq3, hq4⟩ := commonSuffixLength_spec (src.drop p) (dst.drop p)
  have hl1 : (src.drop p).length = src.length - p := List.length_drop _ _
  have hl2 : (dst.drop p).length = dst.length - p := List.length_drop _ _
  have e1 : ((src.drop p).length : Int) - (q : Int) = (((src.drop p).length - q : Nat) : Int) := by
    omega
  have e2 : ((dst.drop p).length : Int) - (q : Int) = (((dst.drop p).length - q : Nat) : Int) := by
    omega
  obtain ⟨core, hcore, hc1, hc2, hc3, hc4, hc5, hc6⟩ :=
    compute_spec ((src.drop p).take ((src.drop p).length - q))
      ((dst.drop p).take ((dst.drop p).length - q))
  have hhead : ∀ a b, ((src.drop p).take ((src.drop p).length - q)).head? = some a →
      ((dst.drop p).take ((dst.drop p).length - q)).head? = some b → a ≠ b := by
    intro a b ha hb
    rw [List.head?_eq_getElem?, List.getElem?_take] at ha hb
    by_cases h1 : 0 < (src.drop p).length - q
    · by_cases h2 : 0 < (dst.drop p).length - q
      · rw [if_pos h1, List.getElem?_drop] at ha
        rw [if_pos h2, List.getElem?_drop] at hb
        have := hp4 (by omega) (by omega)
        rw [Nat.add_zero] at ha hb
        rw [ha, hb] at this
        simpa using this
      · rw [if_neg h2] at hb; cases hb
    · rw [if_neg h1] at ha; cases ha
  have hlast : ∀ a b, ((src.drop p).take ((src.drop p).length - q)).getLast? = some a →
      ((dst.drop p).take ((dst.drop p).length - q)).getLast? = some b → a ≠ b := by
    intro a b ha hb
    rw [List.getLast?_eq_getElem?, List.getElem?_take, List.length_take] at ha hb
    by_cases h1 : 0 < (src.drop p).length - q
    · by_cases h2 : 0 < (dst.drop p).length - q
      · rw [if_pos (by omega)] at ha hb
        have := hq4 (by omega) (by omega)
        have i1 : min ((src.drop p).length - q) (src.drop p).length - 1
            = (src.drop p).length - 1 - q := by omega
        have i2 : min ((dst.drop p).length - q) (dst.drop p).length - 1
            = (dst.drop p).length - 1 - q := by omega
        rw [i1] at ha
        rw [i2] at hb
        rw [ha, hb] at this
        simpa using this
      · rw [if_neg (by omega)] at hb; cases hb
    · rw [if_neg (by omega)] at ha; cases ha
  refine ⟨(if (src.take p).length > 0 then [merge (src.take p) DiffEqual] ++ core else core) ++
      (if ((src.drop p).drop ((src.drop p).length - q)).length > 0
        then [merge ((src.drop p).drop ((src.drop p).length - q)) DiffEqual] else []),
    ?_, ?_, ?_, coalesced_attach core _ _ hc3 hc4 (hc5 hhead) (hc6 hlast)⟩
  · unfold diff
    simp only [hp, sliceOf_zero src p hp1, sliceOf_to_end src p hp1, sliceOf_to_end dst p hp2,
      hq]
    rw [e1, e2]
    simp only [sliceOf_zero _ _ (Nat.sub_le _ _), sliceOf_to_end _ _ (Nat.sub_le _ _), hcore]
    by_cases hs : ((src.drop p).drop ((src.drop p).length - q)).length > 0
    · simp only [if_pos hs]
    · simp only [if_neg hs, List.append_nil]
  · have hsrc : src.flatten = ((src.take p).flatten ++
        ((src.drop p).take ((src.drop p).length - q)).flatten) ++
          ((src.drop p).drop ((src.drop p).length - q)).flatten := by
      rw [List.append_assoc, ← List.flatten_append, ← List.flatten_append,
        List.take_append_drop, List.take_append_drop]
    rw [oldText_append, hsrc]
    congr 1
    · by_cases hpl : (src.take p).length > 0
      · rw [if_pos hpl, oldText_append, oldText_equal, hc1]
      · have : src.take p = [] := List.length_eq_zero.1 (by omega)
        rw [if_neg hpl, hc1, this]; simp
    · by_cases hs : ((src.drop p).drop ((src.drop p).length - q)).length > 0
      · rw [if_pos hs, oldText_equal]
      · have : (src.drop p).drop ((src.drop p).length - q) = [] :=
          List.length_eq_zero.1 (by omega)
        rw [if_neg hs, this]; rfl
  · have hdst : dst.flatten = ((src.take p).flatten ++
        ((dst.drop p).take ((dst.drop p).length - q)).flatten) ++
          ((src.drop p).drop ((src.drop p).length - q)).flatten := by
      rw [hp3, hq3, List.append_assoc, ← List.flatten_append, ← List.flatten_append,
        List.take_append_drop, List.take_append_drop]
    rw [newText_append, hdst]
    congr 1
    · by_cases hpl : (src.take p).length > 0
      · rw [if_pos hpl, newText_append, newText_equal, hc2]
      · have : src.take p = [] := List.length_eq_zero.1 (by omega)
        rw [if_neg hpl, hc2, this]; simp
    · by_cases hs : ((src.drop p).drop ((src.drop p).length - q)).length > 0
      · rw [if_pos hs, newText_equal]
      · have : (src.drop p).drop ((src.drop p).length - q) = [] :=
          List.length_eq_zero.1 (by omega)
        rw [if_neg hs, this]; rfl

/-- What `Diff` returns: a coalesced list of segments whose old side is `oldStr` and whose new
side is `newStr`. -/
theorem Diff_spec (wd : WordDiff) (oldStr newStr : List Char) :
    ∃ ds, wd.Diff oldStr newStr = some ds ∧ oldText ds = oldStr ∧ newText ds = newStr ∧
      coalesced ds := by
  by_cases h : oldStr = newStr
  · refine ⟨[⟨DiffEqual, newStr⟩], ?_, ?_, ?_, List.chain'_singleton _⟩
    · unfold WordDiff.Diff
      rw [if_pos h]
    · simp [oldText, h]
    · simp [newText]
  · obtain ⟨ow, ho, hof⟩ := split_flatten oldStr wd.separator wd.mergeContinuousSeparator
    obtain ⟨nw, hn, hnf⟩ := split_flatten newStr wd.separator wd.mergeContinuousSeparator
    obtain ⟨ds, hds, h1, h2, h3⟩ := diff_spec ow nw
    refine ⟨ds, ?_, by rw [h1, hof], by rw [h2, hnf], h3⟩
    unfold WordDiff.Diff
    rw [if_neg h]
    simp only [ho, hn]
    exact hds

/-- C1: for every configuration and every pair of strings, `Diff` returns segments whose
Delete and Equal texts concatenate to the old string and whose Insert and Equal texts
concatenate to the new string. -/
theorem Diff_reconstruction (wd : WordDiff) (oldStr newStr : List Char) :
    ∃ ds, wd.Diff oldStr newStr = some ds ∧
      ((ds.filter (fun d => decide (d.Type_ = DiffDelete ∨ d.Type_ = DiffEqual))).map
        (fun d => d.Text)).flatten = oldStr ∧
      ((ds.filter (fun d => decide (d.Type_ = DiffInsert ∨ d.Type_ = DiffEqual))).map
        (fun d => d.Text)).flatten = newStr := by
  obtain ⟨ds, hds, h1, h2, _⟩ := Diff_spec wd oldStr newStr
  refine ⟨ds, hds, ?_, ?_⟩
  · have e : (fun d : Diff => decide (d.Type_ = DiffDelete ∨ d.Type_ = DiffEqual))
        = (fun d : Diff => decide (d.Type_ ≠ DiffInsert)) := by
      funext d
      cases d.Type_ <;> decide
    rw [e]
    exact h1
  · have e : (fun d : Diff => decide (d.Type_ = DiffInsert ∨ d.Type_ = DiffEqual))
        = (fun d : Diff => decide (d.Type_ ≠ DiffDelete)) := by
      funext d
      cases d.Type_ <;> decide
    rw [e]
    exact h2

/-- C2: for every configuration and every string `s`, the empty one included, `Diff(s, s)` is
the single segment Equal with text `s`. -/
theorem Diff_noop (wd : WordDiff) (s : List Char) :
    wd.Diff s s = some [{ Type_ := DiffEqual, Text := s }] ∧
    wd.Diff [] [] = some [{ Type_ := DiffEqual, Text := [] }] := by
  constructor <;> simp [WordDiff.Diff]

/-- C3: for every configuration and every pair of strings no two adjacent segments of `Diff`
have the same type; the same holds for `diff` on any two word sequences, whichever of the
three paths of `compute` is taken and whether or not an Equal segment is re-attached at
either end. -/
theorem Diff_coalesced (wd : WordDiff) (oldStr newStr : List Char) (src dst : List Word) :
    (∃ ds, wd.Diff oldStr newStr = some ds ∧
      List.Chain' (fun a b => a.Type_ ≠ b.Type_) ds) ∧
    (∃ ds, diff src dst = some ds ∧ List.Chain' (fun a b => a.Type_ ≠ b.Type_) ds) ∧
    (∃ ds, compute src dst = some ds ∧ List.Chain' (fun a b => a.Type_ ≠ b.Type_) ds) := by
  obtain ⟨ds, hds, _, _, h3⟩ := Diff_spec wd oldStr newStr
  obtain ⟨ds2, hds2, _, _, h4⟩ := diff_spec src dst
  obtain ⟨ds3, hds3, _, _, h5, _⟩ := compute_spec src dst
  exact ⟨⟨ds, hds, h3⟩, ⟨ds2, hds2, h4⟩, ⟨ds3, hds3, h5⟩⟩

/-- C6 at two failing inputs: in character mode `Diff("a", "ab")`, and with the default
instance `Diff("a", "a b")`, hold two segments with an empty text, the Insert and the Equal
segment the containment shortcut of `compute` builds for the empty old remainder. -/
theorem Diff_empty_segments :
    (New []).Diff ['a'] ['a', 'b'] =
      some [{ Type_ := DiffEqual, Text := ['a'] }, { Type_ := DiffInsert, Text := [] },
        { Type_ := DiffEqual, Text := [] }, { Type_ := DiffInsert, Text := ['b'] }] ∧
    Default.Diff ['a'] ['a', ' ', 'b'] =
      some [{ Type_ := DiffEqual, Text := ['a'] }, { Type_ := DiffInsert, Text := [] },
        { Type_ := DiffEqual, Text := [] }, { Type_ := DiffInsert, Text := [' ', 'b'] }] := by
  constructor <;> decide

/-! ## The paths of `compute` and the shape of `diff` -/

theorem compute_eq_with (text1 text2 : List Word) :
    compute text1 text2 = computeWith shortestEditScript text1 text2 := rfl

/-- The three paths of `compute`, with the engine as a parameter: which one is taken depends
on `wordsIndex` and on the length of the shorter input only. -/
theorem computeWith_paths (engine : List Word → List Word → Option (List wordDiff))
    (text1 text2 : List Word) :
    (∀ t : Nat, t + (shorttext text1 text2).length ≤ (longtext text1 text2).length →
      ((longtext text1 text2).take (t + (shorttext text1 text2).length)).drop t
        = shorttext text1 text2 →
      (∀ t1 : Nat, t1 < t →
        ((longtext text1 text2).take (t1 + (shorttext text1 text2).length)).drop t1
          ≠ shorttext text1 text2) →
      computeWith engine text1 text2 =
        some [merge ((longtext text1 text2).take t) (shortcutOp text1 text2),
          merge (shorttext text1 text2) DiffEqual,
          merge ((longtext text1 text2).drop (t + (shorttext text1 text2).length))
            (shortcutOp text1 text2)]) ∧
    ((∀ t : Nat, t + (shorttext text1 text2).length ≤ (longtext text1 text2).length →
      ((longtext text1 text2).take (t + (shorttext text1 text2).length)).drop t
        ≠ shorttext text1 text2) →
      ((shorttext text1 text2).length = 1 →
        computeWith engine text1 text2 =
          some [merge text1 DiffDelete, merge text2 DiffInsert]) ∧
      ((shorttext text1 text2).length ≠ 1 →
        computeWith engine text1 text2 =
          match engine text1 text2 with
          | none => none
          | some script => mergeLoop script (script.length + 1) 0 [])) := by
  have hlen : (shorttext text1 text2).length ≤ (longtext text1 text2).length := by
    unfold shorttext longtext
    by_cases h : text1.length > text2.length
    · simp only [h, if_true]; omega
    · simp only [h, if_false]; omega
  have hunf : computeWith engine text1 text2 =
      (match wordsIndex (longtext text1 text2) (shorttext text1 text2) with
      | none => none
      | some i =>
        if i ≠ -1 then
          match sliceOf (longtext text1 text2) 0 i,
                sliceOf (longtext text1 text2) (i + ((shorttext text1 text2).length : Int))
                  (longtext text1 text2).length with
          | some a, some b => some [merge a (shortcutOp text1 text2),
              merge (shorttext text1 text2) DiffEqual, merge b (shortcutOp text1 text2)]
          | _, _ => none
        else if (shorttext text1 text2).length = 1 then
          some [merge text1 DiffDelete, merge text2 DiffInsert]
        else
          match engine text1 text2 with
          | none => none
          | some script => mergeLoop script (script.length + 1) 0 []) := rfl
  obtain ⟨r, hr, hcase⟩ := wordsIndex_spec (longtext text1 text2) (shorttext text1 text2) hlen
  rw [hunf, hr]
  refine ⟨?_, ?_⟩
  · intro t ht1 ht2 ht3
    rcases hcase with ⟨_, hall⟩ | ⟨t0, h1, h2, h3, h4⟩
    · exact absurd ht2 (hall t ht1)
    · have ht : t0 = t := by
        by_contra hne
        rcases Nat.lt_or_gt_of_ne hne with hlt | hgt
        · exact ht3 t0 hlt h3
        · exact h4 t hgt ht2
      rw [ht] at h1
      have hne1 : r ≠ -1 := by omega
      have hs1 := sliceOf_zero (longtext text1 text2) t (by omega)
      have hs2 : sliceOf (longtext text1 text2)
          ((t : Int) + ((shorttext text1 text2).length : Int))
          (longtext text1 text2).length
          = some ((longtext text1 text2).drop (t + (shorttext text1 text2).length)) := by
        have := sliceOf_to_end (longtext text1 text2) (t + (shorttext text1 text2).length) ht1
        push_cast at this
        exact this
      simp only [if_pos hne1]
      rw [h1, hs1, hs2]
  · intro hno
    have hr1 : r = -1 := by
      rcases hcase with ⟨h, _⟩ | ⟨t0, _, h2, h3, _⟩
      · exact h
      · exact absurd h3 (hno t0 h2)
    refine ⟨?_, ?_⟩
    · intro h1
      simp only [hr1, ne_eq, not_true_eq_false, if_false, h1, if_true]
    · intro h1
      simp only [hr1, ne_eq, not_true_eq_false, if_false, h1]

/-- The value of `diff` from the two affix lengths and the core: the Equal segment of the
prefix when it is not empty, the core, the Equal segment of the suffix when it is not
empty. -/
theorem diff_unfold (src dst : List Word) (p q : Nat) (core : List Diff)
    (hp : commonPrefixLen src dst = some p) (hp1 : p ≤ src.length) (hp2 : p ≤ dst.length)
    (hq : commonSuffixLength (src.drop p) (dst.drop p) = some q)
    (hq1 : q ≤ (src.drop p).length) (hq2 : q ≤ (dst.drop p).length)
    (hcore : compute ((src.drop p).take ((src.drop p).length - q))
      ((dst.drop p).take ((dst.drop p).length - q)) = some core) :
    diff src dst = some ((if p > 0 then [merge (src.take p) DiffEqual] else []) ++ core ++
      (if q > 0 then [merge ((src.drop p).drop ((src.drop p).length - q)) DiffEqual]
       else [])) := by
  have e1 : ((src.drop p).length : Int) - (q : Int) = (((src.drop p).length - q : Nat) : Int) := by
    omega
  have e2 : ((dst.drop p).length : Int) - (q : Int) = (((dst.drop p).length - q : Nat) : Int) := by
    omega
  have l1 : (src.take p).length = p := by rw [List.length_take]; omega
  have l2 : ((src.drop p).drop ((src.drop p).length - q)).length = q := by
    rw [List.length_drop]; omega
  unfold diff
  simp only [hp, sliceOf_zero src p hp1, sliceOf_to_end src p hp1, sliceOf_to_end dst p hp2,
    hq]
  rw [e1, e2]
  simp only [sliceOf_zero _ _ (Nat.sub_le _ _), sliceOf_to_end _ _ (Nat.sub_le _ _), hcore,
    l1, l2]
  by_cases h1 : p > 0 <;> by_cases h2 : q > 0 <;> simp [h1, h2]

/-- C16: `commonPrefixLen(a, b)` is the length `p` of the longest common leading run: at most
both lengths, the words agree below `p`, and `p` is one of the lengths or the words at `p`
differ; `diff` strips these `p` words from both sides and, when `p > 0`, starts its result
with the Equal segment holding their concatenation. -/
theorem commonPrefixLen_longest (a b : List Word) :
    ∃ p, commonPrefixLen a b = some p ∧ p ≤ min a.length b.length ∧
      (∀ i, i < p → a[i]? = b[i]?) ∧
      (p = min a.length b.length ∨ a[p]? ≠ b[p]?) ∧
      ∃ q core, commonSuffixLength (a.drop p) (b.drop p) = some q ∧
        compute ((a.drop p).take ((a.drop p).length - q))
          ((b.drop p).take ((b.drop p).length - q)) = some core ∧
        diff a b = some
          ((if p > 0 then [{ Type_ := DiffEqual, Text := (a.take p).flatten }] else []) ++
            core ++
            (if q > 0 then [merge ((a.drop p).drop ((a.drop p).length - q)) DiffEqual]
             else [])) := by
  obtain ⟨p, hp, hp1, hp2, hp3, hp4⟩ := commonPrefixLen_spec a b
  obtain ⟨q, hq, hq1, hq2, _, _⟩ := commonSuffixLength_spec (a.drop p) (b.drop p)
  obtain ⟨core, hcore, _⟩ := compute_spec ((a.drop p).take ((a.drop p).length - q))
    ((b.drop p).take ((b.drop p).length - q))
  have hd := diff_unfold a b p q core hp hp1 hp2 hq hq1 hq2 hcore
  rw [merge_eq] at hd
  refine ⟨p, hp, by omega, ?_, ?_, q, core, hq, hcore, hd⟩
  · intro i hi
    have := congrArg (fun l => l[i]?) hp3
    simp only [List.getElem?_take, if_pos hi] at this
    exact this
  · by_cases hm : p = min a.length b.length
    · exact Or.inl hm
    · exact Or.inr (hp4 (by omega) (by omega))

/-- C17: `commonSuffixLength(a, b)` is the length `q` of the longest common trailing run: at
most both lengths, the last `q` words agree position by position, and `q` is one of the
lengths or the words just before the two suffixes differ; `diff` applies it to what is left
after the common prefix, so the two stripped lengths add up to at most either length. -/
theorem commonSuffixLength_longest (a b : List Word) :
    (∃ q, commonSuffixLength a b = some q ∧ q ≤ min a.length b.length ∧
      (∀ i, i < q → a[a.length - q + i]? = b[b.length - q + i]?) ∧
      a.drop (a.length - q) = b.drop (b.length - q) ∧
      (q = min a.length b.length ∨ a[a.length - 1 - q]? ≠ b[b.length - 1 - q]?)) ∧
    (∃ p q core, commonPrefixLen a b = some p ∧
      commonSuffixLength (a.drop p) (b.drop p) = some q ∧
      p + q ≤ min a.length b.length ∧
      compute ((a.drop p).take (a.length - p - q)) ((b.drop p).take (b.length - p - q))
        = some core ∧
      diff a b = some ((if p > 0 then [merge (a.take p) DiffEqual] else []) ++ core ++
        (if q > 0 then [merge (a.drop (a.length - q)) DiffEqual] else []))) := by
  constructor
  · obtain ⟨q, hq, hq1, hq2, hq3, hq4⟩ := commonSuffixLength_spec a b
    refine ⟨q, hq, by omega, ?_, hq3, ?_⟩
    · intro i hi
      have := congrArg (fun l => l[i]?) hq3
      simp only [List.getElem?_drop] at this
      exact this
    · by_cases hm : q = min a.length b.length
      · exact Or.inl hm
      · exact Or.inr (hq4 (by omega) (by omega))
  · obtain ⟨p, hp, hp1, hp2, _, _⟩ := commonPrefixLen_spec a b
    obtain ⟨q, hq, hq1, hq2, _, _⟩ := commonSuffixLength_spec (a.drop p) (b.drop p)
    obtain ⟨core, hcore, _⟩ := compute_spec ((a.drop p).take ((a.drop p).length - q))
      ((b.drop p).take ((b.drop p).length - q))
    have hd := diff_unfold a b p q core hp hp1 hp2 hq hq1 hq2 hcore
    have l1 : (a.drop p).length = a.length - p := List.length_drop _ _
    have l2 : (b.drop p).length = b.length - p := List.length_drop _ _
    rw [l1, l2] at hcore
    rw [l1, List.drop_drop] at hd
    have e : p + (a.length - p - q) = a.length - q := by omega
    rw [e] at hd
    exact ⟨p, q, core, hp, hq, by omega, hcore, hd⟩


/-- When the first words differ (or one side is empty) the common prefix is empty. -/
theorem commonPrefixLen_zero (src dst : List Word)
    (h : ∀ a b, src.head? = some a → dst.head? = some b → a ≠ b) :
    commonPrefixLen src dst = some 0 := by
  obtain ⟨p, hp, hp1, hp2, hp3, _⟩ := commonPrefixLen_spec src dst
  by_cases hp0 : p = 0
  · rw [← hp0]; exact hp
  · exfalso
    obtain ⟨a, ha⟩ := getElem?_some_of_lt src 0 (by omega)
    obtain ⟨b, hb⟩ := getElem?_some_of_lt dst 0 (by omega)
    have := congrArg (fun l => l[0]?) hp3
    simp only [List.getElem?_take, if_pos (Nat.pos_of_ne_zero hp0)] at this
    rw [ha, hb] at this
    cases this
    exact h a a (by rw [List.head?_eq_getElem?, ha]) (by rw [List.head?_eq_getElem?, hb]) rfl

/-- When the last words differ (or one side is empty) the common suffix is empty. -/
theorem commonSuffixLength_zero (src dst : List Word)
    (h : ∀ a b, src.getLast? = some a → dst.getLast? = some b → a ≠ b) :
    commonSuffixLength src dst = some 0 := by
  obtain ⟨q, hq, hq1, hq2, hq3, _⟩ := commonSuffixLength_spec src dst
  by_cases hq0 : q = 0
  · rw [← hq0]; exact hq
  · exfalso
    obtain ⟨a, ha⟩ := getElem?_some_of_lt src (src.length - 1) (by omega)
    obtain ⟨b, hb⟩ := getElem?_some_of_lt dst (dst.length - 1) (by omega)
    have := congrArg (fun l => l[q - 1]?) hq3
    simp only [List.getElem?_drop] at this
    have e1 : src.length - q + (q - 1) = src.length - 1 := by omega
    have e2 : dst.length - q + (q - 1) = dst.length - 1 := by omega
    rw [e1, e2, ha, hb] at this
    cases this
    exact h a a (by rw [List.getLast?_eq_getElem?, ha]) (by rw [List.getLast?_eq_getElem?, hb])
      rfl

/-- With no common affix `diff` is `compute`. -/
theorem diff_no_affix (src dst : List Word) (core : List Diff)
    (hh : ∀ a b, src.head? = some a → dst.head? = some b → a ≠ b)
    (hl : ∀ a b, src.getLast? = some a → dst.getLast? = some b → a ≠ b)
    (hcore : compute src dst = some core) : diff src dst = some core := by
  have hp := commonPrefixLen_zero src dst hh
  have hq := commonSuffixLength_zero src dst hl
  have := diff_unfold src dst 0 0 core hp (Nat.zero_le _) (Nat.zero_le _)
    (by simpa using hq) (Nat.zero_le _) (Nat.zero_le _) (by simpa using hcore)
  simpa using this

/-- C11: with `New()` and no option, `Diff("ab", "xaby")` is Insert `x`, Equal `ab`,
Insert `y`. -/
theorem Diff_pure_insertion :
    (New []).Diff ['a', 'b'] ['x', 'a', 'b', 'y'] =
      some [{ Type_ := DiffInsert, Text := ['x'] }, { Type_ := DiffEqual, Text := ['a', 'b'] },
        { Type_ := DiffInsert, Text := ['y'] }] := by
  decide

/-- C14 as stated fails on two equal sequences: `compute` tags the outer segments Insert,
where "Insert if new is longer than old and Delete otherwise" asks for Delete. -/
theorem compute_containment_tie :
    ¬ ∀ (old new : List Word) (i : Nat),
      i + (shorttext old new).length ≤ (longtext old new).length →
      ((longtext old new).take (i + (shorttext old new).length)).drop i = shorttext old new →
      (∀ j : Nat, j < i →
        ((longtext old new).take (j + (shorttext old new).length)).drop j
          ≠ shorttext old new) →
      compute old new =
        some [{ Type_ := shortcutOpSpec old new, Text := ((longtext old new).take i).flatten },
          { Type_ := DiffEqual, Text := (shorttext old new).flatten },
          { Type_ := shortcutOpSpec old new,
            Text := ((longtext old new).drop (i + (shorttext old new).length)).flatten }] := by
  intro h
  have h1 := h [['a']] [['a']] 0 (by decide) (by decide) (fun j hj => absurd hj (Nat.not_lt_zero j))
  have h2 : compute [['a']] [['a']] =
      some [{ Type_ := DiffInsert, Text := [] }, { Type_ := DiffEqual, Text := ['a'] },
        { Type_ := DiffInsert, Text := [] }] := by decide
  rw [h2] at h1
  revert h1
  decide

/-- C14, amended: when the shorter sequence occurs in the longer one and `i` is the smallest
offset at which it does, `compute(old, new)` is the three segments `op long[0..i)`,
Equal `short`, `op long[i+len(short)..)`, where `op` is Delete if old is strictly longer than
new and Insert otherwise, and `long` is old in the first case and new otherwise. -/
theorem compute_containment (old new : List Word) (i : Nat)
    (h1 : i + (shorttext old new).length ≤ (longtext old new).length)
    (h2 : ((longtext old new).take (i + (shorttext old new).length)).drop i
      = shorttext old new)
    (h3 : ∀ j : Nat, j < i →
      ((longtext old new).take (j + (shorttext old new).length)).drop j ≠ shorttext old new) :
    compute old new =
      some [{ Type_ := shortcutOp old new, Text := ((longtext old new).take i).flatten },
        { Type_ := DiffEqual, Text := (shorttext old new).flatten },
        { Type_ := shortcutOp old new,
          Text := ((longtext old new).drop (i + (shorttext old new).length)).flatten }] := by
  rw [compute_eq_with, (computeWith_paths shortestEditScript old new).1 i h1 h2 h3]
  simp only [merge_eq]

/-- C14 at `old = [a, b]`, `new = [x, a, b, y]`: the offset is 1 and the operation Insert. -/
theorem compute_containment_witness :
    compute [['a'], ['b']] [['x'], ['a'], ['b'], ['y']] =
      some [{ Type_ := DiffInsert, Text := ['x'] }, { Type_ := DiffEqual, Text := ['a', 'b'] },
        { Type_ := DiffInsert, Text := ['y'] }] :=
  compute_containment [['a'], ['b']] [['x'], ['a'], ['b'], ['y']] 1 (by decide) (by decide)
    (by decide)

/-- C15: when the shorter sequence is a single word that does not occur in the longer one,
`compute(old, new)` is Delete with all of old followed by Insert with all of new, whatever
the edit-script engine would return. -/
theorem compute_single_word (engine : List Word → List Word → Option (List wordDiff))
    (old new : List Word) (w : Word) (h1 : shorttext old new = [w])
    (h2 : w ∉ longtext old new) :
    computeWith engine old new =
      some [{ Type_ := DiffDelete, Text := old.flatten },
        { Type_ := DiffInsert, Text := new.flatten }] ∧
    compute old new =
      some [{ Type_ := DiffDelete, Text := old.flatten },
        { Type_ := DiffInsert, Text := new.flatten }] := by
  have key : ∀ eng : List Word → List Word → Option (List wordDiff),
      computeWith eng old new =
        some [{ Type_ := DiffDelete, Text := old.flatten },
          { Type_ := DiffInsert, Text := new.flatten }] := by
    intro eng
    have hno : ∀ t : Nat, t + (shorttext old new).length ≤ (longtext old new).length →
        ((longtext old new).take (t + (shorttext old new).length)).drop t
          ≠ shorttext old new := by
      intro t _ hc
      apply h2
      have hm : w ∈ ((longtext old new).take (t + (shorttext old new).length)).drop t := by
        rw [hc, h1]; exact List.mem_singleton.2 rfl
      obtain ⟨t1, _, _, ht⟩ := mem_slice _ _ _ _ hm
      exact List.getElem?_mem ht
    rw [((computeWith_paths eng old new).2 hno).1 (by rw [h1]; rfl)]
    simp only [merge_eq]
  exact ⟨key engine, by rw [compute_eq_with]; exact key _⟩

/-- C15 at `old = [a]`, `new = [b, c]`, with an engine that always fails. -/
theorem compute_single_word_witness :
    shorttext [['a']] [['b'], ['c']] = [['a']] ∧ ['a'] ∉ longtext [['a']] [['b'], ['c']] ∧
    computeWith (fun _ _ => none) [['a']] [['b'], ['c']] =
      some [{ Type_ := DiffDelete, Text := ['a'] }, { Type_ := DiffInsert, Text := ['b', 'c'] }] ∧
    compute [['a']] [['b'], ['c']] =
      some [{ Type_ := DiffDelete, Text := ['a'] }, { Type_ := DiffInsert, Text := ['b', 'c'] }] :=
  ⟨by decide, by decide,
    compute_single_word (fun _ _ => none) [['a']] [['b'], ['c']] ['a'] (by decide) (by decide)⟩

/-- C19: the words of `split` concatenate to the input, for every input, every separator set
(empty, or with entries of any length) and both values of the merge flag. -/
theorem split_lossless (s : List Char) (seps : List (List Char)) (mg : Bool) :
    ∃ ws, split s seps mg = some ws ∧ ws.flatten = s :=
  split_flatten s seps mg

/-- On strings given by their code points: when `split` gives a single word for the old
string, a single word for the new one and the two words differ, `Diff` is Delete with the old
string followed by Insert with the new string. -/
theorem Diff_single_words (wd : WordDiff) (oldStr newStr : List Char) (w1 w2 : Word)
    (h1 : split oldStr wd.separator wd.mergeContinuousSeparator = some [w1])
    (h2 : split newStr wd.separator wd.mergeContinuousSeparator = some [w2])
    (hne : w1 ≠ w2) :
    wd.Diff oldStr newStr =
      some [{ Type_ := DiffDelete, Text := oldStr }, { Type_ := DiffInsert, Text := newStr }] := by
  obtain ⟨ow, ho, hof⟩ := split_flatten oldStr wd.separator wd.mergeContinuousSeparator
  obtain ⟨nw, hn, hnf⟩ := split_flatten newStr wd.separator wd.mergeContinuousSeparator
  rw [h1] at ho
  rw [h2] at hn
  cases ho
  cases hn
  simp only [List.flatten_cons, List.flatten_nil, List.append_nil] at hof hnf
  have hstr : oldStr ≠ newStr := by rw [← hof, ← hnf]; exact hne
  have hcore : compute [w1] [w2] =
      some [{ Type_ := DiffDelete, Text := oldStr }, { Type_ := DiffInsert, Text := newStr }] := by
    rw [compute_eq_with]
    have hno : ∀ t : Nat, t + (shorttext [w1] [w2]).length ≤ (longtext [w1] [w2]).length →
        ((longtext [w1] [w2]).take (t + (shorttext [w1] [w2]).length)).drop t
          ≠ shorttext [w1] [w2] := by
      intro t ht hc
      have e1 : shorttext [w1] [w2] = [w1] := rfl
      have e2 : longtext [w1] [w2] = [w2] := rfl
      rw [e1, e2] at ht hc
      have ht0 : t = 0 := by simp at ht; omega
      rw [ht0] at hc
      simp at hc
      exact hne hc.symm
    rw [((computeWith_paths shortestEditScript [w1] [w2]).2 hno).1 rfl]
    simp only [merge_eq, List.flatten_cons, List.flatten_nil, List.append_nil, hof, hnf]
  have hd := diff_no_affix [w1] [w2] _
    (fun a b ha hb => by
      simp only [List.head?_cons, Option.some.injEq] at ha hb
      rw [← ha, ← hb]; exact hne)
    (fun a b ha hb => by
      simp only [List.getLast?_singleton, Option.some.injEq] at ha hb
      rw [← ha, ← hb]; exact hne)
    hcore
  unfold WordDiff.Diff
  rw [if_neg hstr]
  simp only [h1, h2]
  exact hd

/-! ## The predecessor test -/

/-- C18 as stated fails at a tie-free point of a real run: for `src = [a]`, `dst = [b]` the
map of depth 1 holds reach 0 on diagonal -1 and reach 1 on diagonal 1; at depth 2 on diagonal
0 the code takes the down move (0 < 1), while "reach of k+1 strictly less than reach of k-1
plus one" (1 < 0 + 1) is false and asks for the right move. -/
theorem predecessor_choice_counterexample :
    forward [['a']] [['b']] 4 0 [] =
      some [[(0, 0)], [(1, 1), (-1, 0)], [(0, 1), (-2, 0)]] ∧
    goesDown [(1, 1), (-1, 0)] 2 0 = true ∧
    goesDownSpec [(1, 1), (-1, 0)] 2 0 = false ∧
    shortestEditScript [['a']] [['b']] =
      some [{ diffType := DiffDelete, word := ['a'] }, { diffType := DiffInsert, word := ['b'] }] := by
  refine ⟨by decide, by decide, by decide, by decide⟩

/-- C18, amended: at every depth `d = e + 1 >= 1` and on every diagonal `k` of that depth the
forward pass, and the backtrace by the same test, takes the down (insert) move from diagonal
`k+1` exactly when `k = -d`, or `k != d` and the reach recorded for `k-1` at depth `d-1` is
strictly less than the reach recorded for `k+1`; otherwise it takes the right (delete) move,
the reach of `k-1` plus one. Stated for the shared test, for one iteration of the forward
loop, for one iteration of the backtrace, and for the reaches of every complete depth of the
trace the forward pass returns. -/
theorem predecessor_choice (src dst : List Word) (lastV : IntMap) (e : Nat) (k : Int)
    (hk : inRange (e + 1) k) :
    (goesDown lastV ((e : Int) + 1) k = true ↔
      (k = -((e : Int) + 1) ∨
        (k ≠ (e : Int) + 1 ∧ mapGet lastV (k - 1) < mapGet lastV (k + 1)))) ∧
    (∀ (fuel : Nat) (v : IntMap),
      kLoop src dst ((e : Int) + 1) lastV (fuel + 1) k v =
        match snake src dst
            ((src.length : Int) -
              (if k = -((e : Int) + 1) ∨
                  (k ≠ (e : Int) + 1 ∧ mapGet lastV (k - 1) < mapGet lastV (k + 1))
                then mapGet lastV (k + 1) else mapGet lastV (k - 1) + 1)).toNat.succ
            (if k = -((e : Int) + 1) ∨
                (k ≠ (e : Int) + 1 ∧ mapGet lastV (k - 1) < mapGet lastV (k + 1))
              then mapGet lastV (k + 1) else mapGet lastV (k - 1) + 1)
            ((if k = -((e : Int) + 1) ∨
                (k ≠ (e : Int) + 1 ∧ mapGet lastV (k - 1) < mapGet lastV (k + 1))
              then mapGet lastV (k + 1) else mapGet lastV (k - 1) + 1) - k) with
        | none => none
        | some (x1, y1) =>
          if x1 = (src.length : Int) ∧ y1 = (dst.length : Int) then some (mapSet v k x1, true)
          else kLoop src dst ((e : Int) + 1) lastV fuel (k + 2) (mapSet v k x1)) ∧
    (∀ (tr : List IntMap) (x y : Int) (script : List Operation),
      x - y = k → tr[e]? = some lastV →
      backtrace tr (e + 1) x y script =
        match eqLoop
            (mapGet lastV (if k = -((e : Int) + 1) ∨
                (k ≠ (e : Int) + 1 ∧ mapGet lastV (k - 1) < mapGet lastV (k + 1))
              then k + 1 else k - 1))
            (mapGet lastV (if k = -((e : Int) + 1) ∨
                (k ≠ (e : Int) + 1 ∧ mapGet lastV (k - 1) < mapGet lastV (k + 1))
              then k + 1 else k - 1) -
              (if k = -((e : Int) + 1) ∨
                (k ≠ (e : Int) + 1 ∧ mapGet lastV (k - 1) < mapGet lastV (k + 1))
              then k + 1 else k - 1))
            (x - mapGet lastV (if k = -((e : Int) + 1) ∨
                (k ≠ (e : Int) + 1 ∧ mapGet lastV (k - 1) < mapGet lastV (k + 1))
              then k + 1 else k - 1)).toNat.succ x y script with
        | none => none
        | some (x1, _, script1) =>
          backtrace tr e
            (mapGet lastV (if k = -((e : Int) + 1) ∨
                (k ≠ (e : Int) + 1 ∧ mapGet lastV (k - 1) < mapGet lastV (k + 1))
              then k + 1 else k - 1))
            (mapGet lastV (if k = -((e : Int) + 1) ∨
                (k ≠ (e : Int) + 1 ∧ mapGet lastV (k - 1) < mapGet lastV (k + 1))
              then k + 1 else k - 1) -
              (if k = -((e : Int) + 1) ∨
                (k ≠ (e : Int) + 1 ∧ mapGet lastV (k - 1) < mapGet lastV (k + 1))
              then k + 1 else k - 1))
            (if x1 = mapGet lastV (if k = -((e : Int) + 1) ∨
                (k ≠ (e : Int) + 1 ∧ mapGet lastV (k - 1) < mapGet lastV (k + 1))
              then k + 1 else k - 1)
             then script1 ++ [DiffInsert] else script1 ++ [DiffDelete])) ∧
    (∃ tr D, forward src dst (src.length + dst.length + 2) 0 [] = some tr ∧
      tr.length = D + 1 ∧
      ∀ (e1 : Nat) (k1 : Int), e1 + 1 < D → inRange (e1 + 1) k1 →
        Slide src dst
          (if k1 = -((e1 : Int) + 1) ∨
              (k1 ≠ (e1 : Int) + 1 ∧ lvl tr e1 (k1 - 1) < lvl tr e1 (k1 + 1))
            then lvl tr e1 (k1 + 1) else lvl tr e1 (k1 - 1) + 1)
          ((if k1 = -((e1 : Int) + 1) ∨
              (k1 ≠ (e1 : Int) + 1 ∧ lvl tr e1 (k1 - 1) < lvl tr e1 (k1 + 1))
            then lvl tr e1 (k1 + 1) else lvl tr e1 (k1 - 1) + 1) - k1)
          (lvl tr (e1 + 1) k1)) := by
  have hstep : ∀ (V : IntMap) (d j : Int),
      (if goesDown V d j = true then mapGet V (j + 1) else mapGet V (j - 1) + 1) =
      (if j = -d ∨ (j ≠ d ∧ mapGet V (j - 1) < mapGet V (j + 1))
        then mapGet V (j + 1) else mapGet V (j - 1) + 1) := by
    intro V d j
    by_cases hg : goesDown V d j = true
    · rw [if_pos hg, if_pos ((goesDown_iff V d j).1 hg)]
    · rw [if_neg hg, if_neg (fun h => hg ((goesDown_iff V d j).2 h))]
  have hprev : ∀ (V : IntMap) (d j : Int),
      (if goesDown V d j = true then j + 1 else j - 1) =
      (if j = -d ∨ (j ≠ d ∧ mapGet V (j - 1) < mapGet V (j + 1)) then j + 1 else j - 1) := by
    intro V d j
    by_cases hg : goesDown V d j = true
    · rw [if_pos hg, if_pos ((goesDown_iff V d j).1 hg)]
    · rw [if_neg hg, if_neg (fun h => hg ((goesDown_iff V d j).2 h))]
  refine ⟨goesDown_iff lastV _ k, ?_, ?_, ?_⟩
  · intro fuel v
    have hle : k ≤ (e : Int) + 1 := by
      unfold inRange at hk; push_cast at hk; omega
    rw [kLoop, if_pos hle]
    simp only [hstep]
  · intro tr x y script hxy hlast
    rw [backtrace]
    simp only [hlast, hxy, hprev]
  · obtain ⟨tr, D, hfw, hlen, _, _, hok, _, _⟩ := forward_found src dst
    refine ⟨tr, D, hfw, hlen, ?_⟩
    intro e1 k1 he1 hk1
    have := hok.2.2 e1 he1 k1 hk1
    unfold stepFrom at this
    rw [hstep] at this
    exact this


/-- C18 at depth 2, diagonal 0 of the run on `src = [a]`, `dst = [b]`: the reach of diagonal
-1 is 0, that of diagonal 1 is 1, and the move is down. -/
theorem predecessor_choice_witness :
    inRange (1 + 1) 0 ∧
    (goesDown [(1, 1), (-1, 0)] (((1 : Nat) : Int) + 1) 0 = true ↔
      ((0 : Int) = -(((1 : Nat) : Int) + 1) ∨
        ((0 : Int) ≠ ((1 : Nat) : Int) + 1 ∧
          mapGet [(1, 1), (-1, 0)] (0 - 1) < mapGet [(1, 1), (-1, 0)] (0 + 1)))) :=
  ⟨by unfold inRange; decide,
    (predecessor_choice [['a']] [['b']] [(1, 1), (-1, 0)] 1 0 (by unfold inRange; decide)).1⟩

/-! ## Totality and the checked map reads -/

theorem mapHas_set (v : IntMap) (k x j : Int) :
    mapHas (mapSet v k x) j = if k = j then true else mapHas v j := rfl

theorem mapGet?_of_has : ∀ (v : IntMap) (k : Int), mapHas v k = true →
    mapGet? v k = some (mapGet v k) := by
  intro v
  induction v with
  | nil => intro k h; cases h
  | cons p rest ih =>
    intro k h
    obtain ⟨j, x⟩ := p
    by_cases hj : j = k
    · simp [mapGet?, mapGet, hj]
    · simp only [mapHas, if_neg hj] at h
      simp only [mapGet?, mapGet, if_neg hj]
      exact ih k h

/-- With every diagonal of depth `e` written, the checked reads of the forward pass at depth
`e + 1` succeed and give the start the unchecked code computes. -/
theorem readStep_eq (lastV : IntMap) (e : Nat) (k : Int) (hk : inRange (e + 1) k)
    (hkeys : ∀ j, inRange e j → mapHas lastV j = true) :
    readStep lastV ((e : Int) + 1) k = some (stepFrom lastV ((e : Int) + 1) k) := by
  unfold inRange at hk
  push_cast at hk
  unfold readStep stepFrom
  by_cases h1 : k = -((e : Int) + 1)
  · have hg : goesDown lastV ((e : Int) + 1) k = true := (goesDown_iff _ _ _).2 (Or.inl h1)
    rw [if_pos h1, if_pos hg]
    exact mapGet?_of_has _ _ (hkeys _ (by unfold inRange; omega))
  · rw [if_neg h1]
    by_cases h2 : k = (e : Int) + 1
    · have hg : ¬ goesDown lastV ((e : Int) + 1) k = true := by
        rw [goesDown_iff]; rintro (h | h)
        · exact h1 h
        · exact h.1 h2
      rw [if_neg (by simpa using h2), if_neg hg,
        mapGet?_of_has _ _ (hkeys (k - 1) (by unfold inRange; omega))]
    · rw [if_pos h2, mapGet?_of_has _ _ (hkeys (k - 1) (by unfold inRange; omega)),
        mapGet?_of_has _ _ (hkeys (k + 1) (by unfold inRange; omega))]
      by_cases hlt : mapGet lastV (k - 1) < mapGet lastV (k + 1)
      · have hg : goesDown lastV ((e : Int) + 1) k = true :=
          (goesDown_iff _ _ _).2 (Or.inr ⟨h2, hlt⟩)
        simp only [if_pos hlt, if_pos hg]
      · have hg : ¬ goesDown lastV ((e : Int) + 1) k = true := by
          rw [goesDown_iff]; rintro (h | h)
          · exact h1 h
          · exact hlt h.2
        simp only [if_neg hlt, if_neg hg]

/-- The same for the predecessor the backtrace reads. -/
theorem readPrev_eq (lastV : IntMap) (e : Nat) (k : Int) (hk : inRange (e + 1) k)
    (hkeys : ∀ j, inRange e j → mapHas lastV j = true) :
    readPrev lastV ((e : Int) + 1) k =
      some (if goesDown lastV ((e : Int) + 1) k = true then k + 1 else k - 1,
        mapGet lastV (if goesDown lastV ((e : Int) + 1) k = true then k + 1 else k - 1)) := by
  unfold inRange at hk
  push_cast at hk
  unfold readPrev
  by_cases h1 : k = -((e : Int) + 1)
  · have hg : goesDown lastV ((e : Int) + 1) k = true := (goesDown_iff _ _ _).2 (Or.inl h1)
    rw [if_pos h1, if_pos hg, mapGet?_of_has _ _ (hkeys (k + 1) (by unfold inRange; omega))]
  · rw [if_neg h1]
    by_cases h2 : k = (e : Int) + 1
    · have hg : ¬ goesDown lastV ((e : Int) + 1) k = true := by
        rw [goesDown_iff]; rintro (h | h)
        · exact h1 h
        · exact h.1 h2
      rw [if_neg (by simpa using h2), if_neg hg,
        mapGet?_of_has _ _ (hkeys (k - 1) (by unfold inRange; omega))]
    · rw [if_pos h2, mapGet?_of_has _ _ (hkeys (k - 1) (by unfold inRange; omega)),
        mapGet?_of_has _ _ (hkeys (k + 1) (by unfold inRange; omega))]
      by_cases hlt : mapGet lastV (k - 1) < mapGet lastV (k + 1)
      · have hg : goesDown lastV ((e : Int) + 1) k = true :=
          (goesDown_iff _ _ _).2 (Or.inr ⟨h2, hlt⟩)
        simp only [if_pos hlt, if_pos hg]
      · have hg : ¬ goesDown lastV ((e : Int) + 1) k = true := by
          rw [goesDown_iff]; rintro (h | h)
          · exact h1 h
          · exact hlt h.2
        simp only [if_neg hlt, if_neg hg]

/-- With every diagonal of depth `e` written, the checked loop over the diagonals of depth
`e + 1` is the unchecked one. -/
theorem kLoopChecked_eq (src dst : List Word) (lastV : IntMap) (e : Nat)
    (hkeys : ∀ j, inRange e j → mapHas lastV j = true) :
    ∀ (fuel : Nat) (k : Int) (v : IntMap), -((e : Int) + 1) ≤ k → (k + ((e : Int) + 1)) % 2 = 0 →
      kLoopChecked src dst ((e : Int) + 1) lastV fuel k v
        = kLoop src dst ((e : Int) + 1) lastV fuel k v := by
  intro fuel
  induction fuel with
  | zero => intro k v _ _; rfl
  | succ fuel ih =>
    intro k v h1 h2
    by_cases hk : k ≤ (e : Int) + 1
    · have hr : inRange (e + 1) k := by unfold inRange; push_cast; omega
      rw [kLoopChecked, kLoop, if_pos hk, if_pos hk, readStep_eq lastV e k hr hkeys]
      simp only []
      have hst : (if goesDown lastV ((e : Int) + 1) k = true then mapGet lastV (k + 1)
          else mapGet lastV (k - 1) + 1) = stepFrom lastV ((e : Int) + 1) k := rfl
      rw [hst]
      cases snake src dst ((src.length : Int) - stepFrom lastV ((e : Int) + 1) k).toNat.succ
          (stepFrom lastV ((e : Int) + 1) k) (stepFrom lastV ((e : Int) + 1) k - k) with
      | none => rfl
      | some r =>
        obtain ⟨x1, y1⟩ := r
        simp only []
        rw [ih (k + 2) (mapSet v k x1) (by omega) (by omega)]
    · rw [kLoopChecked, kLoop, if_neg hk, if_neg hk]

theorem snake_diag (src dst : List Word) :
    ∀ (fuel : Nat) (x y x1 y1 : Int), snake src dst fuel x y = some (x1, y1) →
      x1 - y1 = x - y := by
  intro fuel
  induction fuel with
  | zero => intro x y x1 y1 h; cases h
  | succ fuel ih =>
    intro x y x1 y1 h
    rw [snake] at h
    split at h
    · split at h
      · split at h
        · have := ih _ _ _ _ h; omega
        · cases h; rfl
      · cases h
    · cases h; rfl

/-- The keys the loop over the diagonals writes: all diagonals of the depth when it runs to
the end, and the diagonal of the corner with reach `n` when it breaks. -/
theorem kLoop_keys (src dst : List Word) (d : Nat) (lastV : IntMap) :
    ∀ (fuel : Nat) (k : Int) (v v1 : IntMap) (b : Bool),
      kLoop src dst d lastV fuel k v = some (v1, b) → (k + (d : Int)) % 2 = 0 →
      (∀ j, inRange d j → j < k → mapHas v j = true) →
      (b = false → ∀ j, inRange d j → mapHas v1 j = true) ∧
      (b = true → mapHas v1 ((src.length : Int) - dst.length) = true ∧
        mapGet v1 ((src.length : Int) - dst.length) = src.length) := by
  intro fuel
  induction fuel with
  | zero => intro k v v1 b h; cases h
  | succ fuel ih =>
    intro k v v1 b h hpar hinv
    rw [kLoop] at h
    split at h
    · simp only [] at h
      split at h
      · cases h
      · rename_i x1 y1 hs
        have hd := snake_diag src dst _ _ _ _ _ hs
        split at h
        · rename_i hfin
          cases h
          refine ⟨(fun hb => by cases hb), fun _ => ?_⟩
          have ek : (src.length : Int) - dst.length = k := by omega
          rw [ek, mapHas_set, mapGet_set, if_pos rfl, if_pos rfl]
          exact ⟨rfl, hfin.1⟩
        · apply ih (k + 2) (mapSet v k x1) v1 b h (by omega)
          intro j hj hjk
          rw [mapHas_set]
          by_cases hjeq : k = j
          · rw [if_pos hjeq]
          · rw [if_neg hjeq]
            exact hinv j hj (by unfold inRange at hj; omega)
    · cases h
      rename_i hk
      refine ⟨fun _ j hj => hinv j hj ?_, fun hb => by cases hb⟩
      unfold inRange at hj
      omega

theorem traceKeys_append (tr : List IntMap) (v : IntMap) (L : Nat) (hL : L ≤ tr.length)
    (h : TraceKeys tr L) : TraceKeys (tr ++ [v]) L := by
  intro e he k hk
  rw [getD_append_lt tr v e (by omega)]
  exact h e he k hk

theorem traceKeys_extend (tr : List IntMap) (v : IntMap) (e : Nat) (hlen : tr.length = e + 1)
    (h : TraceKeys tr (e + 1)) (hv : ∀ k, inRange (e + 1) k → mapHas v k = true) :
    TraceKeys (tr ++ [v]) (e + 2) := by
  intro e1 he1 k hk
  by_cases hlt : e1 < e + 1
  · rw [getD_append_lt tr v e1 (by omega)]
    exact h e1 hlt k hk
  · have he : e1 = e + 1 := by omega
    rw [he] at hk ⊢
    rw [← hlen, getD_append_len]
    exact hv k hk

/-- The loop over the depths with its keys: the checked and the unchecked loop return the
same trace, every diagonal of every depth below the last is written, and the last map holds
reach `n` on the diagonal of the corner. -/
theorem forward_full (src dst : List Word) :
    ∀ (fuel e : Nat) (trace : List IntMap), trace.length = e + 1 →
      TraceOK src dst trace (e + 1) →
      (∀ e1, e1 < e + 1 → ¬ Reach src dst e1 src.length dst.length) →
      TraceKeys trace (e + 1) →
      src.length + dst.length + 2 ≤ fuel + (e + 1) →
      ∃ tr D, forward src dst fuel (e + 1) trace = some tr ∧
        forwardChecked src dst fuel (e + 1) trace = some tr ∧
        Found src dst tr D ∧ TraceKeys tr D ∧
        mapHas (tr.getD D []) ((src.length : Int) - dst.length) = true ∧
        lvl tr D ((src.length : Int) - dst.length) = src.length := by
  intro fuel
  induction fuel with
  | zero =>
    intro e trace _ _ hmin _ hf
    exact absurd (reach_full src dst) (hmin _ (by omega))
  | succ fuel ih =>
    intro e trace hlen hok hmin hkeys hf
    by_cases hd : e + 1 ≤ src.length + dst.length
    · obtain ⟨lastV, hlast⟩ := getElem?_some_of_lt trace e (by omega)
      have hgetD : trace.getD e [] = lastV := by
        simp [List.getD_eq_getElem?_getD, hlast]
      have hstart : ∀ k, inRange (e + 1) k →
          0 ≤ stepFrom lastV ((e + 1 : Nat) : Int) k ∧
          0 ≤ stepFrom lastV ((e + 1 : Nat) : Int) k - k := by
        intro k hk
        have := reach_nonneg src dst _ _ _
          (step_reach src dst trace (e + 1) hok e (by omega) k hk)
        rw [hgetD] at this
        push_cast
        exact this
      obtain ⟨v, b, hrun, hb0, hb1⟩ := kLoop_spec src dst (e + 1) lastV hstart (e + 1 + 2)
        (-((e + 1 : Nat) : Int)) [] (by omega) (by omega) (by omega) (by push_cast; omega)
        (fun j hj hlt => by unfold inRange at hj; omega)
      obtain ⟨hk0, hk1⟩ := kLoop_keys src dst (e + 1) lastV _ _ _ _ _ hrun (by omega)
        (fun j hj hlt => by unfold inRange at hj; omega)
      have hlastKeys : ∀ j, inRange e j → mapHas lastV j = true := by
        intro j hj
        rw [← hgetD]
        exact hkeys e (by omega) j hj
      have hrunC : kLoopChecked src dst ((e + 1 : Nat) : Int) lastV (e + 1 + 2)
          (-((e + 1 : Nat) : Int)) [] = some (v, b) := by
        rw [← hrun]
        push_cast
        exact kLoopChecked_eq src dst lastV e hlastKeys _ _ _ (by omega) (by omega)
      have hunf : forward src dst (fuel + 1) (e + 1) trace =
          (match b with
           | true => some (trace ++ [v])
           | false => forward src dst fuel (e + 1 + 1) (trace ++ [v])) := by
        rw [forward, if_pos hd, if_neg (by omega)]
        simp only [Nat.add_sub_cancel, hlast, hrun]
        cases b <;> rfl
      have hunfC : forwardChecked src dst (fuel + 1) (e + 1) trace =
          (match b with
           | true => some (trace ++ [v])
           | false => forwardChecked src dst fuel (e + 1 + 1) (trace ++ [v])) := by
        rw [forwardChecked, if_pos hd, if_neg (by omega)]
        simp only [Nat.add_sub_cancel, hlast, hrunC]
        cases b <;> rfl
      rw [hunf, hunfC]
      cases b with
      | true =>
        obtain ⟨hr, hS⟩ := hb1 rfl
        obtain ⟨hkey, hval⟩ := hk1 rfl
        push_cast at hS
        have hgl : (trace ++ [v]).getD (e + 1) [] = v := by
          rw [← hlen, getD_append_len]
        refine ⟨trace ++ [v], e + 1, rfl, rfl, ⟨?_, hmin, ?_,
          traceOK_append src dst trace v _ hok, ?_, ?_⟩,
          traceKeys_append trace v _ (by omega) hkeys, ?_, ?_⟩
        · simp [hlen]
        · have h1 := step_reach src dst trace (e + 1) hok e (by omega) _ hr
          rw [hgetD] at h1
          have h2 := slide_reach src dst _ _ _ _ h1 hS
          have e2 : (src.length : Int) - stepFrom lastV ((e : Int) + 1)
              ((src.length : Int) - dst.length) + (stepFrom lastV ((e : Int) + 1)
              ((src.length : Int) - dst.length) - ((src.length : Int) - dst.length))
              = dst.length := by ring
          rw [e2] at h2
          exact h2
        · rw [lvl_append_lt trace v 0 0 (by omega)]
          exact hok.2.1 (by omega)
        · refine ⟨hr, ?_⟩
          rw [getD_append_lt trace v e (by omega), hgetD]
          exact hS
        · rw [hgl]; exact hkey
        · unfold lvl; rw [hgl]; exact hval
      | false =>
        have hv := hb0 rfl
        have hok2 : TraceOK src dst (trace ++ [v]) (e + 2) := by
          apply traceOK_extend src dst trace v e hok hlen
          intro k hk
          rw [hgetD]
          have := (hv k hk).1
          push_cast at this
          exact this
        refine ih (e + 1) (trace ++ [v]) (by simp [hlen]) hok2 ?_
          (traceKeys_extend trace v e hlen hkeys (hk0 rfl)) (by omega)
        intro e1 he1 hreach
        by_cases hlt : e1 < e + 1
        · exact hmin e1 hlt hreach
        · have he : e1 = e + 1 := by omega
          rw [he] at hreach
          have hc := trace_corner src dst (trace ++ [v]) (e + 2) hok2 (e + 1) (by omega)
            hmin hreach
          have hk := reach_range src dst _ _ _ hreach
          have e2 : lvl (trace ++ [v]) (e + 1) ((src.length : Int) - dst.length)
              = mapGet v ((src.length : Int) - dst.length) := by
            unfold lvl
            rw [← hlen, getD_append_len]
          rw [e2] at hc
          apply (hv _ hk).2
          rw [hc]
          exact ⟨rfl, by ring⟩
    · exact absurd (reach_full src dst) (hmin _ (by omega))

/-- The forward pass from depth 0, checked and unchecked. -/
theorem forward_full_found (src dst : List Word) :
    ∃ tr D, forward src dst (src.length + dst.length + 2) 0 [] = some tr ∧
      forwardChecked src dst (src.length + dst.length + 2) 0 [] = some tr ∧
      Found src dst tr D ∧ TraceKeys tr D ∧
      mapHas (tr.getD D []) ((src.length : Int) - dst.length) = true ∧
      lvl tr D ((src.length : Int) - dst.length) = src.length := by
  obtain ⟨t, ht, hS⟩ := prefixScan_spec src dst (src.length + 1) 0 (le_refl _) (by omega)
  have hl : lvl [mapSet [] 0 t] 0 0 = t := rfl
  have hok : TraceOK src dst [mapSet [] 0 t] 1 := by
    refine ⟨le_refl _, fun _ => ?_, fun e he => by omega⟩
    rw [hl]; exact hS
  have hr0 : Reach src dst 0 t t := by
    have := slide_reach src dst 0 0 0 t Reach.start hS
    simpa using this
  have hkeys : TraceKeys [mapSet [] 0 t] 1 := by
    intro e he k hk
    have he0 : e = 0 := by omega
    have hk0 : k = 0 := by rw [he0] at hk; unfold inRange at hk; omega
    rw [he0, hk0]
    rfl
  by_cases hfin : t = (src.length : Int) ∧ t = (dst.length : Int)
  · have hnm : (src.length : Int) - dst.length = 0 := by omega
    refine ⟨[mapSet [] 0 t], 0, ?_, ?_, ⟨rfl, fun e he => by omega, ?_, ?_, ?_, ?_⟩,
      fun e he => by omega, ?_, ?_⟩
    · rw [forward, if_pos (by omega), if_pos rfl]
      simp only [ht, List.nil_append]
      rw [if_pos hfin]
    · rw [forwardChecked, if_pos (by omega), if_pos rfl]
      simp only [ht, List.nil_append]
      rw [if_pos hfin]
    · have := hr0
      rw [hfin.1] at this
      nth_rewrite 2 [← hfin.1] at this
      rw [hfin.2] at this
      exact this
    · exact ⟨Nat.zero_le _, fun h => by omega, fun e he => by omega⟩
    · rw [hl]; exact hS
    · refine ⟨?_, ?_⟩
      · unfold inRange; omega
      · rw [hl]; exact hfin.1.symm
    · rw [hnm]; rfl
    · rw [hnm, hl]; exact hfin.1
  · have hmin : ∀ e1, e1 < 0 + 1 → ¬ Reach src dst e1 src.length dst.length := by
      intro e1 he1 hreach
      have he : e1 = 0 := by omega
      rw [he] at hreach
      have hc := trace_corner src dst _ 1 hok 0 (by omega) (fun e2 h2 => by omega) hreach
      have hk := reach_range src dst _ _ _ hreach
      have hk0 : (src.length : Int) - dst.length = 0 := by unfold inRange at hk; omega
      rw [hk0, hl] at hc
      exact hfin ⟨hc, by omega⟩
    obtain ⟨tr, D, hrun, hrunC, hF⟩ := forward_full src dst (src.length + dst.length + 1) 0
      [mapSet [] 0 t] rfl hok hmin hkeys (by omega)
    refine ⟨tr, D, ?_, ?_, hF⟩
    · rw [forward, if_pos (by omega), if_pos rfl]
      simp only [ht, List.nil_append]
      rw [if_neg hfin]
      exact hrun
    · rw [forwardChecked, if_pos (by omega), if_pos rfl]
      simp only [ht, List.nil_append]
      rw [if_neg hfin]
      exact hrunC

/-- From a point on the trace the checked backtrace is the unchecked one: every diagonal it
reads was written at that depth. -/
theorem backtraceChecked_eq (src dst : List Word) (tr : List IntMap) :
    ∀ (e : Nat) (x y : Int) (script : List Operation), TraceOK src dst tr e →
      TraceKeys tr e → OnTrace src dst tr e x y →
      backtraceChecked tr e x y script = backtrace tr e x y script := by
  intro e
  induction e with
  | zero => intro x y script _ _ _; rfl
  | succ e ih =>
    intro x y script hok hkeys hon
    obtain ⟨hr, _⟩ := hon
    obtain ⟨lastV, hlast⟩ := getElem?_some_of_lt tr e (by have := hok.1; omega)
    have hgetD : tr.getD e [] = lastV := by
      simp [List.getD_eq_getElem?_getD, hlast]
    have hlastKeys : ∀ j, inRange e j → mapHas lastV j = true := by
      intro j hj
      rw [← hgetD]
      exact hkeys e (by omega) j hj
    have hok1 : TraceOK src dst tr e := traceOK_mono src dst tr e (e + 1) (by omega) hok
    have hkeys1 : TraceKeys tr e := fun e1 he1 => hkeys e1 (by omega)
    have hrp : inRange e (if goesDown lastV ((e : Int) + 1) (x - y) = true then x - y + 1
        else x - y - 1) := by
      have hr2 := hr
      unfold inRange at hr2
      push_cast at hr2
      by_cases hg : goesDown lastV ((e : Int) + 1) (x - y) = true
      · rw [if_pos hg]
        rw [goesDown_iff] at hg
        unfold inRange
        omega
      · rw [if_neg hg]
        rw [goesDown_iff] at hg
        unfold inRange
        omega
    have hon1 := onTrace_lvl src dst tr e hok _ hrp
      (mapGet lastV (if goesDown lastV ((e : Int) + 1) (x - y) = true then x - y + 1
        else x - y - 1))
      (mapGet lastV (if goesDown lastV ((e : Int) + 1) (x - y) = true then x - y + 1
        else x - y - 1) - (if goesDown lastV ((e : Int) + 1) (x - y) = true then x - y + 1
        else x - y - 1)) (by rw [← hgetD]; rfl) (by ring)
    rw [backtraceChecked, backtrace]
    simp only [hlast, readPrev_eq lastV e (x - y) hr hlastKeys]
    cases eqLoop
        (mapGet lastV (if goesDown lastV ((e : Int) + 1) (x - y) = true then x - y + 1
          else x - y - 1))
        (mapGet lastV (if goesDown lastV ((e : Int) + 1) (x - y) = true then x - y + 1
          else x - y - 1) - (if goesDown lastV ((e : Int) + 1) (x - y) = true then x - y + 1
          else x - y - 1))
        (x - mapGet lastV (if goesDown lastV ((e : Int) + 1) (x - y) = true then x - y + 1
          else x - y - 1)).toNat.succ x y script with
    | none => rfl
    | some r =>
      obtain ⟨x1, y1, script1⟩ := r
      simp only []
      exact ih _ _ _ hok1 hkeys1 hon1

/-- The engine with every map read checked returns what the engine returns. -/
theorem shortestEditScriptChecked_eq (src dst : List Word) :
    shortestEditScriptChecked src dst = shortestEditScript src dst := by
  obtain ⟨tr, D, hfw, hfwC, hF, hkeys, hkey, _⟩ := forward_full_found src dst
  obtain ⟨hlen, _, _, hok, _, hon⟩ := hF
  obtain ⟨v0, hv0⟩ := getElem?_some_of_lt tr 0 (by omega)
  have hg0 : tr.getD 0 [] = v0 := by simp [List.getD_eq_getElem?_getD, hv0]
  have hk0 : mapHas v0 0 = true := by
    rw [← hg0]
    by_cases hD : D = 0
    · have hr := hon
      rw [hD] at hr hkey
      have hnm : (src.length : Int) - dst.length = 0 := by
        have := hr.1; unfold inRange at this; omega
      rw [hnm] at hkey
      exact hkey
    · exact hkeys 0 (by omega) 0 (by unfold inRange; omega)
  unfold shortestEditScriptChecked shortestEditScript
  simp only [hfw, hfwC, hlen, Nat.add_sub_cancel, hv0, mapGet?_of_has v0 0 hk0,
    backtraceChecked_eq src dst tr D _ _ _ hok hkeys hon]

/-- C13: `Diff` returns a result for every configuration and every pair of strings, and so
do `diff` and `shortestEditScript` on every pair of word sequences: no slice and no index
read is out of range. In the engine the forward search stops at a depth `D <= N + M` whose
map holds reach `N` on the diagonal `N - M`; every diagonal run starts at a point with
`x >= 0` and `y = x - k >= 0`; and the engine with every map read checked returns the same
script, so every diagonal read from the previous depth's map was written at that depth. -/
theorem Diff_total (wd : WordDiff) (oldStr newStr : List Char) (src dst : List Word) :
    (∃ ds, wd.Diff oldStr newStr = some ds) ∧
    (∃ ds, diff src dst = some ds) ∧
    (∃ s, shortestEditScript src dst = some s ∧ shortestEditScriptChecked src dst = some s) ∧
    (∃ tr D, forward src dst (src.length + dst.length + 2) 0 [] = some tr ∧
      forwardChecked src dst (src.length + dst.length + 2) 0 [] = some tr ∧
      tr.length = D + 1 ∧ D ≤ src.length + dst.length ∧
      mapGet? (tr.getD D []) ((src.length : Int) - dst.length) = some (src.length : Int) ∧
      (∀ e k, e < D → inRange e k → mapHas (tr.getD e []) k = true) ∧
      (∀ e k, e < D → inRange (e + 1) k →
        0 ≤ stepFrom (tr.getD e []) ((e : Int) + 1) k ∧
        0 ≤ stepFrom (tr.getD e []) ((e : Int) + 1) k - k)) := by
  obtain ⟨ds, hds, _⟩ := Diff_spec wd oldStr newStr
  obtain ⟨ds2, hds2, _⟩ := diff_spec src dst
  obtain ⟨s, D0, hs, _⟩ := shortestEditScript_spec src dst
  obtain ⟨tr, D, hfw, hfwC, hF, hkeys, hkey, hval⟩ := forward_full_found src dst
  obtain ⟨hlen, hmin, _, hok, hS0, hon⟩ := hF
  refine ⟨⟨ds, hds⟩, ⟨ds2, hds2⟩, ⟨s, hs, by rw [shortestEditScriptChecked_eq, hs]⟩,
    tr, D, hfw, hfwC, hlen, ?_, ?_, (fun e k he hk => hkeys e he k hk), ?_⟩
  · by_contra hn
    exact hmin _ (by omega) (reach_full src dst)
  · rw [mapGet?_of_has _ _ hkey]
    exact congrArg some hval
  · intro e k he hk
    by_cases hlast : e + 1 < D + 1
    · have hok1 : TraceOK src dst tr (e + 1) := by
        refine ⟨by omega, fun _ => hS0, fun e1 he1 k1 hk1 => hok.2.2 e1 (by omega) k1 hk1⟩
      exact reach_nonneg src dst _ _ _ (step_reach src dst tr (e + 1) hok1 e (by omega) k hk)
    · omega

theorem wordAt_mem {α : Type} (l : List α) (i : Int) (w : α) (h : wordAt l i = some w) :
    w ∈ l := by
  unfold wordAt at h
  by_cases h1 : 0 ≤ i
  · rw [if_pos h1] at h
    exact List.getElem?_mem h
  · rw [if_neg h1] at h
    cases h

/-- With no common word there is no diagonal move: every run ends where it starts. -/
theorem slide_disjoint (src dst : List Word) (hdis : ∀ w, w ∈ src → w ∉ dst) (x y x1 : Int)
    (h : Slide src dst x y x1) : x1 = x := by
  obtain ⟨h1, h2, _⟩ := h
  by_contra hne
  obtain ⟨w, hw1, hw2⟩ := h2 x (le_refl _) (by omega)
  exact hdis w (wordAt_mem _ _ _ hw1) (wordAt_mem _ _ _ hw2)

/-- With no common word the reach recorded at depth `e` on diagonal `k` is `(e + k) / 2`. -/
theorem lvl_disjoint (src dst : List Word) (hdis : ∀ w, w ∈ src → w ∉ dst)
    (tr : List IntMap) (L : Nat) (h : TraceOK src dst tr L) :
    ∀ e, e < L → ∀ k, inRange e k → 2 * lvl tr e k = (e : Int) + k := by
  intro e
  induction e with
  | zero =>
    intro he k hk
    have hk0 : k = 0 := by unfold inRange at hk; omega
    have := slide_disjoint src dst hdis _ _ _ (h.2.1 he)
    rw [hk0, this]
    simp
  | succ e ih =>
    intro he k hk
    have hS := slide_disjoint src dst hdis _ _ _ (h.2.2 e he k hk)
    rw [hS]
    unfold inRange at hk
    push_cast at hk ⊢
    unfold stepFrom
    by_cases hg : goesDown (tr.getD e []) ((e : Int) + 1) k = true
    · rw [if_pos hg, lvl_eq]
      have hr : inRange e (k + 1) := by
        rw [goesDown_iff] at hg
        unfold inRange
        omega
      have := ih (by omega) (k + 1) hr
      omega
    · rw [if_neg hg, lvl_eq]
      have hr : inRange e (k - 1) := by
        rw [goesDown_iff] at hg
        unfold inRange
        omega
      have := ih (by omega) (k - 1) hr
      omega

/-- With no common word the move is down on every diagonal but the topmost one. -/
theorem goesDown_disjoint (src dst : List Word) (hdis : ∀ w, w ∈ src → w ∉ dst)
    (tr : List IntMap) (e : Nat) (h : TraceOK src dst tr (e + 1)) (k : Int)
    (hk : inRange (e + 1) k) :
    goesDown (tr.getD e []) ((e : Int) + 1) k = decide (k ≠ (e : Int) + 1) := by
  unfold inRange at hk
  push_cast at hk
  by_cases hke : k = (e : Int) + 1
  · have : ¬ goesDown (tr.getD e []) ((e : Int) + 1) k = true := by
      rw [goesDown_iff]
      rintro (h1 | h1)
      · omega
      · exact h1.1 hke
    have hf : goesDown (tr.getD e []) ((e : Int) + 1) k = false := by
      cases hgv : goesDown (tr.getD e []) ((e : Int) + 1) k
      · rfl
      · exact absurd hgv this
    rw [hf]
    exact (decide_eq_false (by simpa using hke)).symm
  · have : goesDown (tr.getD e []) ((e : Int) + 1) k = true := by
      rw [goesDown_iff]
      by_cases hkm : k = -((e : Int) + 1)
      · exact Or.inl hkm
      · refine Or.inr ⟨hke, ?_⟩
        have a1 := lvl_disjoint src dst hdis tr (e + 1) h e (by omega) (k - 1)
          (by unfold inRange; omega)
        have a2 := lvl_disjoint src dst hdis tr (e + 1) h e (by omega) (k + 1)
          (by unfold inRange; omega)
        rw [lvl_eq, lvl_eq]
        omega
    rw [this]
    exact (decide_eq_true hke).symm

/-- With no common word the backtrace from a point `(x, y)` of depth `x + y` appends `y`
Insert and then `x` Delete: it walks up the column first, then along the top row. -/
theorem backtrace_disjoint (src dst : List Word) (hdis : ∀ w, w ∈ src → w ∉ dst)
    (tr : List IntMap) :
    ∀ (e : Nat) (x y : Int) (script : List Operation), TraceOK src dst tr e →
      OnTrace src dst tr e x y → x + y = (e : Int) →
      backtrace tr e x y script =
        some (script ++ List.replicate y.toNat DiffInsert ++ List.replicate x.toNat DiffDelete) := by
  intro e
  induction e with
  | zero =>
    intro x y script _ hon hxy
    have hr := hon.1
    unfold inRange at hr
    have hx : x = 0 := by omega
    have hy : y = 0 := by omega
    rw [hx, hy]
    simp [backtrace]
  | succ e ih =>
    intro x y script hok hon hxy
    obtain ⟨hr, _⟩ := hon
    obtain ⟨lastV, hlast⟩ := getElem?_some_of_lt tr e (by have := hok.1; omega)
    have hgetD : tr.getD e [] = lastV := by
      simp [List.getD_eq_getElem?_getD, hlast]
    have hok1 : TraceOK src dst tr e := traceOK_mono src dst tr e (e + 1) (by omega) hok
    have hg := goesDown_disjoint src dst hdis tr e hok (x - y) hr
    rw [hgetD] at hg
    have hr2 := hr
    unfold inRange at hr2
    push_cast at hr2 hxy
    by_cases hy : y = 0
    · have hk : x - y = (e : Int) + 1 := by omega
      have hgf : goesDown lastV ((e : Int) + 1) (x - y) = false := by
        rw [hg]; exact decide_eq_false (by simpa using hk)
      have hrp : inRange e (x - y - 1) := by unfold inRange; omega
      have hv := lvl_disjoint src dst hdis tr (e + 1) hok e (by omega) _ hrp
      rw [← lvl_eq, hgetD] at hv
      have hpx : mapGet lastV (x - y - 1) = x - 1 := by omega
      have hon1 : OnTrace src dst tr e (x - 1) 0 :=
        onTrace_lvl src dst tr e hok _ hrp _ _ (by rw [← lvl_eq, hgetD, hpx]) (by omega)
      rw [backtrace]
      simp only [hlast, hgf, Bool.false_eq_true, if_false, hpx]
      rw [eqLoop_spec _ _ _ _ _ _ (Nat.lt_succ_self _)]
      have hj : (min (x - (x - 1)) (y - (x - 1 - (x - y - 1)))).toNat = 0 := by omega
      rw [hj]
      simp only [Nat.cast_zero, sub_zero, List.replicate_zero, List.append_nil]
      rw [if_neg (by omega)]
      have e1 : x - 1 - (x - y - 1) = 0 := by omega
      rw [e1, ih (x - 1) 0 _ hok1 hon1 (by omega), hy]
      have e2 : x.toNat = (x - 1).toNat + 1 := by omega
      rw [e2, List.replicate_succ]
      simp
    · have hk : x - y ≠ (e : Int) + 1 := by omega
      have hgt : goesDown lastV ((e : Int) + 1) (x - y) = true := by
        rw [hg]; exact decide_eq_true hk
      have hrp : inRange e (x - y + 1) := by unfold inRange; omega
      have hv := lvl_disjoint src dst hdis tr (e + 1) hok e (by omega) _ hrp
      rw [← lvl_eq, hgetD] at hv
      have hpx : mapGet lastV (x - y + 1) = x := by omega
      have hon1 : OnTrace src dst tr e x (y - 1) :=
        onTrace_lvl src dst tr e hok _ hrp _ _ (by rw [← lvl_eq, hgetD, hpx]) (by omega)
      rw [backtrace]
      simp only [hlast, hgt, if_true, hpx]
      rw [eqLoop_spec _ _ _ _ _ _ (Nat.lt_succ_self _)]
      have hj : (min (x - x) (y - (x - (x - y + 1)))).toNat = 0 := by omega
      rw [hj]
      simp only [Nat.cast_zero, sub_zero, List.replicate_zero, List.append_nil]
      rw [if_pos trivial]
      have e1 : x - (x - y + 1) = y - 1 := by omega
      rw [e1, ih x (y - 1) _ hok1 hon1 (by omega)]
      have e2 : y.toNat = (y - 1).toNat + 1 := by omega
      rw [e2, List.replicate_succ]
      simp

/-- The pairing loop on a run of Delete: it reads the next words of `src`. -/
theorem pairLoop_deletes (src dst : List Word) (ops : List Operation) (b : Nat) :
    ∀ (l : List Word) (a : Nat), src.drop a = l →
      pairLoop src dst (List.replicate l.length DiffDelete ++ ops) a b =
        (pairLoop src dst ops (a + l.length) b).map
          (fun r => l.map (fun w => (⟨DiffDelete, w⟩ : wordDiff)) ++ r) := by
  intro l
  induction l with
  | nil =>
    intro a _
    cases pairLoop src dst ops a b <;> simp
  | cons w l ih =>
    intro a ha
    have hw : src[a]? = some w := by
      have := congrArg (fun t => t[0]?) ha
      simpa [List.getElem?_drop] using this
    have hl : src.drop (a + 1) = l := by
      have := drop_of_getElem? src a w hw
      rw [this] at ha
      exact List.tail_eq_of_cons_eq ha
    simp only [List.length_cons, List.replicate_succ, List.cons_append, pairLoop, hw]
    show Option.map _ (pairLoop src dst (List.replicate l.length DiffDelete ++ ops) (a + 1) b)
      = _
    rw [ih (a + 1) hl]
    have e : a + 1 + l.length = a + (l.length + 1) := by omega
    rw [e]
    cases pairLoop src dst ops (a + (l.length + 1)) b <;> simp

/-- The pairing loop on a run of Insert: it reads the next words of `dst`. -/
theorem pairLoop_inserts (src dst : List Word) (ops : List Operation) (a : Nat) :
    ∀ (l : List Word) (b : Nat), dst.drop b = l →
      pairLoop src dst (List.replicate l.length DiffInsert ++ ops) a b =
        (pairLoop src dst ops a (b + l.length)).map
          (fun r => l.map (fun w => (⟨DiffInsert, w⟩ : wordDiff)) ++ r) := by
  intro l
  induction l with
  | nil =>
    intro b _
    cases pairLoop src dst ops a b <;> simp
  | cons w l ih =>
    intro b hb
    have hw : dst[b]? = some w := by
      have := congrArg (fun t => t[0]?) hb
      simpa [List.getElem?_drop] using this
    have hl : dst.drop (b + 1) = l := by
      have := drop_of_getElem? dst b w hw
      rw [this] at hb
      exact List.tail_eq_of_cons_eq hb
    simp only [List.length_cons, List.replicate_succ, List.cons_append, pairLoop, hw]
    show Option.map _ (pairLoop src dst (List.replicate l.length DiffInsert ++ ops) a (b + 1))
      = _
    rw [ih (b + 1) hl]
    have e : b + 1 + l.length = b + (l.length + 1) := by omega
    rw [e]
    cases pairLoop src dst ops a (b + (l.length + 1)) <;> simp

/-- With no common word the engine returns the words of `src` tagged Delete followed by the
words of `dst` tagged Insert. -/
theorem engine_disjoint (src dst : List Word) (hdis : ∀ w, w ∈ src → w ∉ dst) :
    shortestEditScript src dst =
      some (src.map (fun w => (⟨DiffDelete, w⟩ : wordDiff)) ++
        dst.map (fun w => (⟨DiffInsert, w⟩ : wordDiff))) := by
  obtain ⟨tr, D, hfw, hlen, _, _, hok, hS0, hon⟩ := forward_found src dst
  obtain ⟨v0, hv0⟩ := getElem?_some_of_lt tr 0 (by omega)
  have hl0 : mapGet v0 0 = lvl tr 0 0 := by
    unfold lvl
    simp [List.getD_eq_getElem?_getD, hv0]
  have h0 : lvl tr 0 0 = 0 := slide_disjoint src dst hdis _ _ _ hS0
  have hD : (src.length : Int) + dst.length = D := by
    cases D with
    | zero =>
      obtain ⟨hr, hx⟩ := hon
      unfold inRange at hr
      rw [h0] at hx
      push_cast
      omega
    | succ e =>
      obtain ⟨hr, hS⟩ := hon
      have hx := slide_disjoint src dst hdis _ _ _ hS
      unfold inRange at hr
      push_cast at hr ⊢
      have hok1 : TraceOK src dst tr (e + 1) := hok
      unfold stepFrom at hx
      by_cases hg : goesDown (tr.getD e []) ((e : Int) + 1)
          ((src.length : Int) - dst.length) = true
      · rw [if_pos hg, lvl_eq] at hx
        have hrp : inRange e ((src.length : Int) - dst.length + 1) := by
          rw [goesDown_iff] at hg
          unfold inRange
          omega
        have := lvl_disjoint src dst hdis tr (e + 1) hok1 e (by omega) _ hrp
        omega
      · rw [if_neg hg, lvl_eq] at hx
        have hrp : inRange e ((src.length : Int) - dst.length - 1) := by
          rw [goesDown_iff] at hg
          unfold inRange
          omega
        have := lvl_disjoint src dst hdis tr (e + 1) hok1 e (by omega) _ hrp
        omega
  have hbt := backtrace_disjoint src dst hdis tr D src.length dst.length [] hok hon hD
  unfold shortestEditScript
  simp only [hfw, hlen, Nat.add_sub_cancel, hbt, hv0, hl0, h0, Int.toNat_zero,
    List.replicate_zero, List.append_nil, List.nil_append, List.reverse_append,
    List.reverse_replicate, Int.toNat_ofNat]
  have e1 := pairLoop_deletes src dst (List.replicate dst.length DiffInsert) 0 src 0 rfl
  have e2 := pairLoop_inserts src dst [] src.length dst 0 rfl
  rw [List.append_nil] at e2
  rw [e1, Nat.zero_add, e2]
  have e3 : pairLoop src dst [] src.length (0 + dst.length) = some [] := rfl
  rw [e3]
  simp

/-- One iteration of the run merger: from entry `i` it appends one segment with the type of
entry `i` and the words up to the end `j` of the run. -/
theorem mergeLoop_step (script : List wordDiff) (fuel i : Nat) (diffs : List Diff)
    (hi : i < script.length) :
    ∃ j e, script[i]? = some e ∧ i ≤ j ∧ j < script.length ∧
      (∀ t, i ≤ t → t ≤ j → (script[t]?).map (fun e => e.diffType) = some e.diffType) ∧
      (∀ e1 e2, script[j + 1]? = some e1 → script[j]? = some e2 →
        e1.diffType ≠ e2.diffType) ∧
      mergeLoop script (fuel + 1) i diffs = mergeLoop script fuel (j + 1)
        (diffs ++ [⟨e.diffType,
          (((script.take (j + 1)).drop i).map (fun e => e.word)).flatten⟩]) := by
  obtain ⟨e, he⟩ := getElem?_some_of_lt script i hi
  obtain ⟨j, hj, h3, h4, h5, h6⟩ := runScan_spec script (script.length + 1) i e.word hi
    (by omega)
  obtain ⟨e2, he2⟩ := getElem?_some_of_lt script j h4
  have hT : e2.diffType = e.diffType := by
    have := h5 j h3 (le_refl _)
    rw [he2, he] at this
    simpa using this
  have htext : e.word ++ (((script.take (j + 1)).drop (i + 1)).map
      (fun e => e.word)).flatten
      = (((script.take (j + 1)).drop i).map (fun e => e.word)).flatten := by
    rw [slice_cons script i (j + 1) e he (by omega)]
    simp
  rw [htext] at hj
  refine ⟨j, e, he, h3, h4, ?_, h6, ?_⟩
  · intro t ht1 ht2
    rw [h5 t ht1 ht2, he]
    rfl
  · rw [mergeLoop, if_pos hi]
    simp only [he, hj, he2, hT]

/-- The run merger on a run of one type followed by a run of another type returns the two
segments. -/
theorem mergeLoop_two_runs (A B : List wordDiff) (T1 T2 : Operation) (hT : T1 ≠ T2)
    (hA : ∀ a ∈ A, a.diffType = T1) (hB : ∀ b ∈ B, b.diffType = T2)
    (hAne : A ≠ []) (hBne : B ≠ []) :
    mergeLoop (A ++ B) ((A ++ B).length + 1) 0 [] =
      some [⟨T1, (A.map (fun e => e.word)).flatten⟩,
        ⟨T2, (B.map (fun e => e.word)).flatten⟩] := by
  have hlen : (A ++ B).length = A.length + B.length := List.length_append A B
  have hAl : 0 < A.length := List.length_pos.2 hAne
  have hBl : 0 < B.length := List.length_pos.2 hBne
  have tagA : ∀ t, t < A.length → ∀ e, (A ++ B)[t]? = some e → e.diffType = T1 := by
    intro t ht e he
    rw [List.getElem?_append_left ht] at he
    exact hA e (List.getElem?_mem he)
  have tagB : ∀ t, A.length ≤ t → ∀ e, (A ++ B)[t]? = some e → e.diffType = T2 := by
    intro t ht e he
    rw [List.getElem?_append_right ht] at he
    exact hB e (List.getElem?_mem he)
  -- first run
  obtain ⟨j, e, he, h1, h2, h3, h4, hstep⟩ :=
    mergeLoop_step (A ++ B) (A ++ B).length 0 [] (by omega)
  have heT : e.diffType = T1 := tagA 0 hAl e he
  have hj : j + 1 = A.length := by
    by_contra hne
    by_cases hlt : j + 1 < A.length
    · obtain ⟨e1, he1⟩ := getElem?_some_of_lt (A ++ B) (j + 1) (by omega)
      obtain ⟨e2, he2⟩ := getElem?_some_of_lt (A ++ B) j (by omega)
      apply h4 e1 e2 he1 he2
      rw [tagA _ hlt e1 he1, tagA _ (by omega) e2 he2]
    · obtain ⟨e1, he1⟩ := getElem?_some_of_lt (A ++ B) A.length (by omega)
      have := h3 A.length (Nat.zero_le _) (by omega)
      rw [he1] at this
      simp only [Option.map_some', Option.some.injEq] at this
      rw [tagB _ (le_refl _) e1 he1, heT] at this
      exact hT this.symm
  rw [hstep, hj, heT, List.take_left, List.drop_zero, List.nil_append]
  -- second run
  obtain ⟨f, hf⟩ : ∃ f, (A ++ B).length = f + 1 := ⟨(A ++ B).length - 1, by omega⟩
  rw [hf]
  obtain ⟨j2, e3, he3, g1, g2, g3, g4, hstep2⟩ :=
    mergeLoop_step (A ++ B) f A.length [⟨T1, (A.map (fun e => e.word)).flatten⟩] (by omega)
  have heT2 : e3.diffType = T2 := tagB _ (le_refl _) e3 he3
  have hj2 : j2 + 1 = (A ++ B).length := by
    by_contra hne
    obtain ⟨e1, he1⟩ := getElem?_some_of_lt (A ++ B) (j2 + 1) (by omega)
    obtain ⟨e2, he2⟩ := getElem?_some_of_lt (A ++ B) j2 (by omega)
    apply g4 e1 e2 he1 he2
    rw [tagB _ (by omega) e1 he1, tagB _ g1 e2 he2]
  rw [hstep2, hj2, heT2, List.take_length, List.drop_left]
  -- the end
  obtain ⟨f2, hf2⟩ : ∃ f2, f = f2 + 1 := ⟨f - 1, by omega⟩
  rw [hf2, mergeLoop, if_neg (by omega)]
  rfl

/-- On two non-empty word lists with no common word `compute` returns Delete of all of the
first and Insert of all of the second. -/
theorem compute_disjoint (src dst : List Word) (hs : src ≠ []) (hd : dst ≠ [])
    (hdis : ∀ w, w ∈ src → w ∉ dst) :
    compute src dst =
      some [⟨DiffDelete, src.flatten⟩, ⟨DiffInsert, dst.flatten⟩] := by
  have hnone : ∀ t : Nat, t + (shorttext src dst).length ≤ (longtext src dst).length →
      ((longtext src dst).take (t + (shorttext src dst).length)).drop t
        ≠ shorttext src dst := by
    intro t _ heq
    have key : ∀ (l s : List Word), s ≠ [] → (∀ w, w ∈ s → w ∉ l) →
        (l.take (t + s.length)).drop t ≠ s := by
      intro l s hne hno h
      obtain ⟨w, hw⟩ := List.exists_mem_of_ne_nil s hne
      have h1 : w ∈ (l.take (t + s.length)).drop t := by rw [h]; exact hw
      exact hno w hw (List.mem_of_mem_take (List.mem_of_mem_drop h1))
    unfold shorttext longtext at heq
    by_cases h : src.length > dst.length
    · simp only [h, if_true] at heq
      exact key src dst hd (fun w hw hw2 => hdis w hw2 hw) heq
    · simp only [h, if_false] at heq
      exact key dst src hs hdis heq
  have hpaths := (computeWith_paths shortestEditScript src dst).2 hnone
  rw [compute_eq_with]
  by_cases h1 : (shorttext src dst).length = 1
  · rw [hpaths.1 h1, merge_eq, merge_eq]
  · rw [hpaths.2 h1, engine_disjoint src dst hdis]
    simp only
    have := mergeLoop_two_runs (src.map (fun w => (⟨DiffDelete, w⟩ : wordDiff)))
      (dst.map (fun w => (⟨DiffInsert, w⟩ : wordDiff))) DiffDelete DiffInsert
      (by decide)
      (by intro a ha; obtain ⟨w, _, rfl⟩ := List.mem_map.1 ha; rfl)
      (by intro a ha; obtain ⟨w, _, rfl⟩ := List.mem_map.1 ha; rfl)
      (by simpa using hs) (by simpa using hd)
    rw [this]
    simp [List.map_map, Function.comp_def]

/-- On two non-empty word lists with no common word `diff` trims nothing and returns Delete
of all of the first and Insert of all of the second. -/
theorem diff_disjoint (src dst : List Word) (hs : src ≠ []) (hd : dst ≠ [])
    (hdis : ∀ w, w ∈ src → w ∉ dst) :
    diff src dst = some [⟨DiffDelete, src.flatten⟩, ⟨DiffInsert, dst.flatten⟩] := by
  apply diff_no_affix src dst _ _ _ (compute_disjoint src dst hs hd hdis)
  · intro a b ha hb hab
    exact hdis a (List.mem_of_mem_head? ha) (hab ▸ List.mem_of_mem_head? hb)
  · intro a b ha hb hab
    exact hdis a (List.mem_of_mem_getLast? ha) (hab ▸ List.mem_of_mem_getLast? hb)

/-- On strings given by their code points: when the word sequences are both non-empty and
have no word in common, `Diff` is Delete with the old string followed by Insert with the new
string. -/
theorem Diff_disjoint_words (wd : WordDiff) (oldStr newStr : List Char) (ow nw : List Word)
    (ho : split oldStr wd.separator wd.mergeContinuousSeparator = some ow)
    (hn : split newStr wd.separator wd.mergeContinuousSeparator = some nw)
    (hone : ow ≠ []) (hnne : nw ≠ [])
    (hdis : ∀ w, w ∈ ow → w ∉ nw) :
    wd.Diff oldStr newStr =
      some [{ Type_ := DiffDelete, Text := oldStr }, { Type_ := DiffInsert, Text := newStr }] := by
  obtain ⟨ow1, ho1, hof⟩ := split_flatten oldStr wd.separator wd.mergeContinuousSeparator
  obtain ⟨nw1, hn1, hnf⟩ := split_flatten newStr wd.separator wd.mergeContinuousSeparator
  rw [ho] at ho1
  rw [hn] at hn1
  rw [← Option.some.inj ho1] at hof
  rw [← Option.some.inj hn1] at hnf
  have hstr : oldStr ≠ newStr := by
    intro h
    rw [h, hn] at ho
    rw [← Option.some.inj ho] at hdis
    obtain ⟨w, hw⟩ := List.exists_mem_of_ne_nil nw hnne
    exact hdis w hw hw
  unfold WordDiff.Diff
  rw [if_neg hstr, ho, hn]
  simp only
  rw [diff_disjoint ow nw hone hnne hdis, hof, hnf]

/-! ## Go strings as byte sequences: the conversions and `Diff` on bytes -/

theorem byte_val (n : Nat) : (byte n).val = n % 256 := rfl

theorem decodeRune_width (s0 : Byte) (t : GoString) : 1 ≤ (decodeRune (s0 :: t)).2 := by
  rcases t with _ | ⟨s1, _ | ⟨s2, _ | ⟨s3, t⟩⟩⟩ <;>
    simp only [decodeRune] <;> split_ifs <;> simp

theorem char_range (c : Char) :
    c.toNat < 0xD800 ∨ (0xDFFF < c.toNat ∧ c.toNat < 0x110000) := c.valid

theorem decodeRune_encodeRune (c : Char) (rest : GoString) :
    decodeRune (encodeRune c ++ rest) = (c, (encodeRune c).length) := by
  have hv := char_range c
  unfold encodeRune
  by_cases h1 : c.toNat < 0x80
  · rw [if_pos h1]
    simp only [List.singleton_append, decodeRune, byte_val]
    rw [if_pos (by omega)]
    have : c.toNat % 256 = c.toNat := by omega
    rw [this, Char.ofNat_toNat]
    rfl
  · rw [if_neg h1]
    by_cases h2 : c.toNat < 0x800
    · rw [if_pos h2]
      simp only [List.cons_append, List.nil_append, decodeRune, byte_val, isCont]
      rw [if_neg (by omega), if_neg (by omega), if_pos (by omega)]
      rw [if_pos (by simp only [decide_eq_true_eq]; omega)]
      have : (0xC0 + c.toNat / 64) % 256 % 32 * 64 + (0x80 + c.toNat % 64) % 256 % 64
          = c.toNat := by omega
      rw [this, Char.ofNat_toNat]
      rfl
    · rw [if_neg h2]
      by_cases h3 : c.toNat < 0x10000
      · rw [if_pos h3]
        simp only [List.cons_append, List.nil_append, decodeRune, byte_val, isCont]
        rw [if_neg (by omega), if_neg (by omega), if_neg (by omega), if_pos (by omega)]
        rw [if_pos (by
          simp only [decide_eq_true_eq]
          refine ⟨?_, ?_, ?_⟩
          · split_ifs <;> omega
          · split_ifs <;> omega
          · omega)]
        have : (0xE0 + c.toNat / 4096) % 256 % 16 * 4096
            + (0x80 + c.toNat / 64 % 64) % 256 % 64 * 64 + (0x80 + c.toNat % 64) % 256 % 64
            = c.toNat := by omega
        rw [this, Char.ofNat_toNat]
        rfl
      · rw [if_neg h3]
        simp only [List.cons_append, List.nil_append, decodeRune, byte_val, isCont]
        rw [if_neg (by omega), if_neg (by omega), if_neg (by omega), if_neg (by omega),
          if_pos (by omega)]
        rw [if_pos (by
          simp only [decide_eq_true_eq]
          refine ⟨?_, ?_, ?_, ?_⟩
          · split_ifs <;> omega
          · split_ifs <;> omega
          · omega
          · omega)]
        have : (0xF0 + c.toNat / 262144) % 256 % 8 * 262144
            + (0x80 + c.toNat / 4096 % 64) % 256 % 64 * 4096
            + (0x80 + c.toNat / 64 % 64) % 256 % 64 * 64 + (0x80 + c.toNat % 64) % 256 % 64
            = c.toNat := by omega
        rw [this, Char.ofNat_toNat]
        rfl

theorem runesLoop_fuel : ∀ (f g : Nat) (s : GoString), s.length ≤ f → s.length ≤ g →
    runesLoop f s = runesLoop g s := by
  intro f
  induction f with
  | zero =>
    intro g s hf _
    have : s = [] := List.length_eq_zero.1 (by omega)
    subst this
    cases g <;> rfl
  | succ f ih =>
    intro g s hf hg
    cases s with
    | nil => cases g <;> rfl
    | cons s0 t =>
      cases g with
      | zero => simp at hg
      | succ g =>
        have hw := decodeRune_width s0 t
        have hl : ((s0 :: t).drop (decodeRune (s0 :: t)).2).length ≤ t.length := by
          rw [List.length_drop, List.length_cons]
          omega
        simp only [List.length_cons] at hf hg
        simp only [runesLoop]
        rw [ih g _ (by omega) (by omega)]

/-- The conversion `[]rune(s)` of the empty string. -/
theorem runes_nil : runes [] = [] := rfl

/-- The conversion `[]rune(s)` unfolds as the loop of the source does: the budget of
`len(s)` steps is never used up. -/
theorem runes_cons (s0 : Byte) (t : GoString) :
    runes (s0 :: t) =
      (decodeRune (s0 :: t)).1 :: runes ((s0 :: t).drop (decodeRune (s0 :: t)).2) := by
  have hw := decodeRune_width s0 t
  have hl : ((s0 :: t).drop (decodeRune (s0 :: t)).2).length ≤ t.length := by
    rw [List.length_drop, List.length_cons]
    omega
  unfold runes
  rw [List.length_cons]
  simp only [runesLoop]
  rw [runesLoop_fuel t.length _ _ hl (le_refl _)]

theorem encodeRune_ne_nil (c : Char) : encodeRune c ≠ [] := by
  unfold encodeRune
  split_ifs <;> simp

theorem utf8Of_cons (c : Char) (cs : List Char) :
    utf8Of (c :: cs) = encodeRune c ++ utf8Of cs := rfl

theorem utf8Of_append (a b : List Char) : utf8Of (a ++ b) = utf8Of a ++ utf8Of b := by
  unfold utf8Of
  rw [List.map_append, List.flatten_append]

/-- Encoding the concatenation of words is concatenating their encodings. -/
theorem utf8Of_flatten (ws : List (List Char)) :
    utf8Of ws.flatten = (ws.map utf8Of).flatten := by
  induction ws with
  | nil => rfl
  | cons w ws ih => rw [List.flatten_cons, utf8Of_append, ih, List.map_cons, List.flatten_cons]

/-- Decoding the encoding of a sequence of code points gives the sequence back. -/
theorem runes_utf8Of (cs : List Char) : runes (utf8Of cs) = cs := by
  induction cs with
  | nil => rfl
  | cons c cs ih =>
    rw [utf8Of_cons]
    obtain ⟨s0, t, hst⟩ := List.exists_cons_of_ne_nil (encodeRune_ne_nil c)
    have hdec := decodeRune_encodeRune c (utf8Of cs)
    rw [hst] at hdec ⊢
    rw [List.cons_append] at hdec ⊢
    rw [runes_cons, hdec]
    simp only
    rw [← List.cons_append, List.drop_left, ih]

/-- The encoding is injective: two words are equal as Go strings exactly when they are equal
as sequences of code points. -/
theorem utf8Of_inj (a b : List Char) : utf8Of a = utf8Of b ↔ a = b := by
  constructor
  · intro h
    rw [← runes_utf8Of a, ← runes_utf8Of b, h]
  · intro h
    rw [h]


/-- Whenever the two strings differ as code-point sequences, `Diff` on Go strings is `Diff`
on their code points with every text encoded. -/
theorem DiffBytes_eq_Diff (wd : WordDiff) (oldStr newStr : GoString)
    (h : runes oldStr ≠ runes newStr) :
    wd.DiffBytes oldStr newStr =
      (wd.Diff (runes oldStr) (runes newStr)).map (List.map Diff.encode) := by
  have hb : oldStr ≠ newStr := fun e => h (by rw [e])
  unfold WordDiff.DiffBytes WordDiff.Diff
  rw [if_neg hb, if_neg h]
  cases split (runes oldStr) wd.separator wd.mergeContinuousSeparator with
  | none => rfl
  | some ow =>
    cases split (runes newStr) wd.separator wd.mergeContinuousSeparator with
    | none => rfl
    | some nw =>
      simp only
      cases diff ow nw <;> rfl

/-- On valid UTF-8, given as the encodings of two code-point sequences, `Diff` on Go strings
is `Diff` on the code points with every text encoded. -/
theorem DiffBytes_utf8Of (wd : WordDiff) (o n : List Char) :
    wd.DiffBytes (utf8Of o) (utf8Of n) = (wd.Diff o n).map (List.map Diff.encode) := by
  by_cases h : o = n
  · subst h
    unfold WordDiff.DiffBytes WordDiff.Diff
    rw [if_pos rfl, if_pos rfl]
    rfl
  · have := DiffBytes_eq_Diff wd (utf8Of o) (utf8Of n)
      (by rw [runes_utf8Of, runes_utf8Of]; exact h)
    rw [this, runes_utf8Of, runes_utf8Of]

theorem oldBytes_encode (ds : List Diff) :
    oldBytes (ds.map Diff.encode) = utf8Of (oldText ds) := by
  unfold oldBytes oldText
  rw [utf8Of_flatten, List.filter_map, List.map_map, List.map_map]
  rfl

theorem newBytes_encode (ds : List Diff) :
    newBytes (ds.map Diff.encode) = utf8Of (newText ds) := by
  unfold newBytes newText
  rw [utf8Of_flatten, List.filter_map, List.map_map, List.map_map]
  rfl

/-- The method `Diff` on Go strings returns a result on every input, valid UTF-8 or not, and
the two sides of the result are the two inputs as sequences of code points. -/
theorem DiffBytes_spec (wd : WordDiff) (oldStr newStr : GoString) :
    ∃ ds, wd.DiffBytes oldStr newStr = some ds ∧
      runes (oldBytes ds) = runes oldStr ∧ runes (newBytes ds) = runes newStr := by
  by_cases h : oldStr = newStr
  · refine ⟨[⟨DiffEqual, newStr⟩], by unfold WordDiff.DiffBytes; rw [if_pos h], ?_, ?_⟩
    · rw [h]
      simp [oldBytes]
    · simp [newBytes]
  · obtain ⟨ow, ho, hof⟩ :=
      split_flatten (runes oldStr) wd.separator wd.mergeContinuousSeparator
    obtain ⟨nw, hn, hnf⟩ :=
      split_flatten (runes newStr) wd.separator wd.mergeContinuousSeparator
    obtain ⟨ds, hds, h1, h2, _⟩ := diff_spec ow nw
    refine ⟨ds.map Diff.encode, ?_, ?_, ?_⟩
    · unfold WordDiff.DiffBytes
      rw [if_neg h, ho, hn]
      simp only [hds]
    · rw [oldBytes_encode, runes_utf8Of, h1, hof]
    · rw [newBytes_encode, runes_utf8Of, h2, hnf]

/-- Two Go strings that differ as bytes but not as code points pass the guard and are
diffed: `Diff("\xff", "\xfe")` with `New()` is Equal U+FFFD followed by the three segments
of the containment shortcut on two empty word lists. -/
theorem DiffBytes_equal_runes :
    (New []).DiffBytes [0xFF] [0xFE] =
      some [⟨DiffEqual, [0xEF, 0xBF, 0xBD]⟩, ⟨DiffInsert, []⟩, ⟨DiffEqual, []⟩,
        ⟨DiffInsert, []⟩] := by
  decide

/-- A Go string that is the encoding of a sequence of code points is unchanged by the
conversion to code points and back. -/
theorem utf8Of_runes (s : GoString) (cs : List Char) (h : s = utf8Of cs) :
    utf8Of (runes s) = s := by
  rw [h, runes_utf8Of]

/-- On Go strings whose word sequences are both non-empty and have no word in common `Diff`
is Delete then Insert, each text re-encoded from the code points of its string. -/
theorem DiffBytes_disjoint (wd : WordDiff) (oldStr newStr : GoString) (ow nw : List Word)
    (ho : split (runes oldStr) wd.separator wd.mergeContinuousSeparator = some ow)
    (hn : split (runes newStr) wd.separator wd.mergeContinuousSeparator = some nw)
    (hone : ow ≠ []) (hnne : nw ≠ [])
    (hdis : ∀ w, w ∈ ow → w ∉ nw) :
    wd.DiffBytes oldStr newStr =
      some [⟨DiffDelete, utf8Of (runes oldStr)⟩, ⟨DiffInsert, utf8Of (runes newStr)⟩] := by
  have hr : runes oldStr ≠ runes newStr := by
    intro h
    rw [h, hn] at ho
    rw [← Option.some.inj ho] at hdis
    obtain ⟨w, hw⟩ := List.exists_mem_of_ne_nil nw hnne
    exact hdis w hw hw
  rw [DiffBytes_eq_Diff wd oldStr newStr hr,
    Diff_disjoint_words wd (runes oldStr) (runes newStr) ow nw ho hn hone hnne hdis]
  rfl

/-- C12 as stated fails on a string that is not valid UTF-8: with `New()`, `"\xff"` and `"a"`
are one word each, the words differ, and `Diff` returns Delete with the three bytes of
U+FFFD, not with the old string. -/
theorem Diff_full_replacement_invalid :
    split (runes [0xFF]) (New []).separator (New []).mergeContinuousSeparator
      = some [[RuneError]] ∧
    split (runes [0x61]) (New []).separator (New []).mergeContinuousSeparator
      = some [['a']] ∧
    ([RuneError] : Word) ≠ ['a'] ∧
    (New []).DiffBytes [0xFF] [0x61] =
      some [⟨DiffDelete, [0xEF, 0xBF, 0xBD]⟩, ⟨DiffInsert, [0x61]⟩] ∧
    (New []).DiffBytes [0xFF] [0x61] ≠
      some [⟨DiffDelete, [0xFF]⟩, ⟨DiffInsert, [0x61]⟩] := by
  decide

/-- C12, amended: when `split` gives a single word for the old string, a single word for the
new one and the two words differ, `Diff` returns exactly two segments, Delete with the old
string followed by Insert with the new string, each re-encoded from its code points
(`string([]rune(s))`); a string that is valid UTF-8, that is the encoding of a sequence of
code points, is re-encoded to itself. -/
theorem Diff_full_replacement (wd : WordDiff) (oldStr newStr : GoString) (w1 w2 : Word)
    (h1 : split (runes oldStr) wd.separator wd.mergeContinuousSeparator = some [w1])
    (h2 : split (runes newStr) wd.separator wd.mergeContinuousSeparator = some [w2])
    (hne : w1 ≠ w2) :
    wd.DiffBytes oldStr newStr =
      some [⟨DiffDelete, utf8Of (runes oldStr)⟩, ⟨DiffInsert, utf8Of (runes newStr)⟩] ∧
    (∀ o : List Char, oldStr = utf8Of o → utf8Of (runes oldStr) = oldStr) ∧
    (∀ n : List Char, newStr = utf8Of n → utf8Of (runes newStr) = newStr) ∧
    (∀ o n : List Char, oldStr = utf8Of o → newStr = utf8Of n →
      wd.DiffBytes oldStr newStr =
        some [⟨DiffDelete, oldStr⟩, ⟨DiffInsert, newStr⟩]) := by
  have hr : runes oldStr ≠ runes newStr := by
    intro h
    rw [h, h2] at h1
    exact hne (List.cons.inj (Option.some.inj h1)).1.symm
  have hmain : wd.DiffBytes oldStr newStr =
      some [⟨DiffDelete, utf8Of (runes oldStr)⟩, ⟨DiffInsert, utf8Of (runes newStr)⟩] := by
    rw [DiffBytes_eq_Diff wd oldStr newStr hr,
      Diff_single_words wd (runes oldStr) (runes newStr) w1 w2 h1 h2 hne]
    rfl
  refine ⟨hmain, utf8Of_runes oldStr, utf8Of_runes newStr, ?_⟩
  intro o n ho hn
  rw [hmain, utf8Of_runes oldStr o ho, utf8Of_runes newStr n hn]

/-- C12 at the default instance with `old = "café"` (valid UTF-8, the last code point takes
two bytes) and `new = "dog"`: each is one word, and `Diff` is Delete `café`, Insert `dog`. -/
theorem Diff_full_replacement_witness :
    split (runes [0x63, 0x61, 0x66, 0xC3, 0xA9]) Default.separator
      Default.mergeContinuousSeparator = some [['c', 'a', 'f', Char.ofNat 0xE9]] ∧
    split (runes [0x64, 0x6F, 0x67]) Default.separator Default.mergeContinuousSeparator
      = some [['d', 'o', 'g']] ∧
    Default.DiffBytes [0x63, 0x61, 0x66, 0xC3, 0xA9] [0x64, 0x6F, 0x67] =
      some [⟨DiffDelete, [0x63, 0x61, 0x66, 0xC3, 0xA9]⟩, ⟨DiffInsert, [0x64, 0x6F, 0x67]⟩] :=
  ⟨by decide, by decide,
    (Diff_full_replacement Default [0x63, 0x61, 0x66, 0xC3, 0xA9] [0x64, 0x6F, 0x67]
      ['c', 'a', 'f', Char.ofNat 0xE9] ['d', 'o', 'g']
      (by decide) (by decide) (by decide)).2.2.2
      ['c', 'a', 'f', Char.ofNat 0xE9] ['d', 'o', 'g'] (by decide) (by decide)⟩

/-- C20 as stated fails on a string that is not valid UTF-8: with `New()`, `"\xffb"` and
`"cde"` split into two and three words with no word in common, and `Diff` returns Delete with
the three bytes of U+FFFD followed by `b`, not with the old string. -/
theorem Diff_disjoint_invalid :
    split (runes [0xFF, 0x62]) (New []).separator (New []).mergeContinuousSeparator
      = some [[RuneError], ['b']] ∧
    split (runes [0x63, 0x64, 0x65]) (New []).separator (New []).mergeContinuousSeparator
      = some [['c'], ['d'], ['e']] ∧
    (∀ w, w ∈ ([[RuneError], ['b']] : List Word) → w ∉ ([['c'], ['d'], ['e']] : List Word)) ∧
    (New []).DiffBytes [0xFF, 0x62] [0x63, 0x64, 0x65] =
      some [⟨DiffDelete, [0xEF, 0xBF, 0xBD, 0x62]⟩, ⟨DiffInsert, [0x63, 0x64, 0x65]⟩] ∧
    (New []).DiffBytes [0xFF, 0x62] [0x63, 0x64, 0x65] ≠
      some [⟨DiffDelete, [0xFF, 0x62]⟩, ⟨DiffInsert, [0x63, 0x64, 0x65]⟩] := by
  decide

/-- C20, amended: for every configuration and every pair of strings whose word sequences are
both non-empty and have no word in common, `Diff` returns exactly Delete of the old string
then Insert of the new string, each re-encoded from its code points (`string([]rune(s))`); a
string that is valid UTF-8, that is the encoding of a sequence of code points, is re-encoded
to itself; and for word lists with no common word the engine `shortestEditScript` returns all
words of `src` tagged Delete in order followed by all words of `dst` tagged Insert in
order. -/
theorem Diff_disjoint (wd : WordDiff) (oldStr newStr : GoString) (ow nw src dst : List Word)
    (ho : split (runes oldStr) wd.separator wd.mergeContinuousSeparator = some ow)
    (hn : split (runes newStr) wd.separator wd.mergeContinuousSeparator = some nw)
    (hone : ow ≠ []) (hnne : nw ≠ [])
    (hdis : ∀ w, w ∈ ow → w ∉ nw)
    (hdis2 : ∀ w, w ∈ src → w ∉ dst) :
    wd.DiffBytes oldStr newStr =
      some [⟨DiffDelete, utf8Of (runes oldStr)⟩, ⟨DiffInsert, utf8Of (runes newStr)⟩] ∧
    (∀ o : List Char, oldStr = utf8Of o → utf8Of (runes oldStr) = oldStr) ∧
    (∀ n : List Char, newStr = utf8Of n → utf8Of (runes newStr) = newStr) ∧
    (∀ o n : List Char, oldStr = utf8Of o → newStr = utf8Of n →
      wd.DiffBytes oldStr newStr =
        some [⟨DiffDelete, oldStr⟩, ⟨DiffInsert, newStr⟩]) ∧
    shortestEditScript src dst =
      some (src.map (fun w => (⟨DiffDelete, w⟩ : wordDiff)) ++
        dst.map (fun w => (⟨DiffInsert, w⟩ : wordDiff))) := by
  have hmain := DiffBytes_disjoint wd oldStr newStr ow nw ho hn hone hnne hdis
  refine ⟨hmain, utf8Of_runes oldStr, utf8Of_runes newStr, ?_, engine_disjoint src dst hdis2⟩
  intro o n ho1 hn1
  rw [hmain, utf8Of_runes oldStr o ho1, utf8Of_runes newStr n hn1]

/-- An instance of `Diff_disjoint`: with `New()`, `"ab"` against `"cde"` (engine path), and
the word lists `[a, b]`, `[c, d, e]`. -/
theorem Diff_disjoint_witness :
    split (runes [0x61, 0x62]) (New []).separator (New []).mergeContinuousSeparator
      = some [['a'], ['b']] ∧
    split (runes [0x63, 0x64, 0x65]) (New []).separator (New []).mergeContinuousSeparator
      = some [['c'], ['d'], ['e']] ∧
    (New []).DiffBytes [0x61, 0x62] [0x63, 0x64, 0x65] =
      some [⟨DiffDelete, [0x61, 0x62]⟩, ⟨DiffInsert, [0x63, 0x64, 0x65]⟩] ∧
    shortestEditScript [['a'], ['b']] [['c'], ['d'], ['e']] =
      some (([['a'], ['b']] : List Word).map (fun w => (⟨DiffDelete, w⟩ : wordDiff)) ++
        ([['c'], ['d'], ['e']] : List Word).map (fun w => (⟨DiffInsert, w⟩ : wordDiff))) :=
  ⟨by decide, by decide,
    (Diff_disjoint (New []) [0x61, 0x62] [0x63, 0x64, 0x65] [['a'], ['b']]
      [['c'], ['d'], ['e']] [['a'], ['b']] [['c'], ['d'], ['e']]
      (by decide) (by decide) (by decide) (by decide) (by decide) (by decide)).2.2.2.1
      ['a', 'b'] ['c', 'd', 'e'] (by decide) (by decide),
    (Diff_disjoint (New []) [0x61, 0x62] [0x63, 0x64, 0x65] [['a'], ['b']]
      [['c'], ['d'], ['e']] [['a'], ['b']] [['c'], ['d'], ['e']]
      (by decide) (by decide) (by decide) (by decide) (by decide) (by decide)).2.2.2.2⟩

end worddiff
